import Mathlib

/-!
# A verification development for the block-validation and era-reward core

This file gives a shallow embedding of the proposed-block validator
(`src/node/src/components/block_validator.rs`) and the era reward calculator
(`src/node/src/components/contract_runtime/rewards.rs`) of the casper-node
repository, and settles the specification's claims about them.

Machine integers are modelled as `Nat`; `U512` arithmetic carries explicit
`2 ^ 512` bounds where overflow matters.  The asynchronous event handlers of
the single-threaded reactor are modelled as pure transition functions from
component state and event to new state plus a list of emitted effects;
storage and contract-runtime queries are modelled as oracle functions
supplied as an argument.  `HashMap` and `BTreeMap` are modelled as
association lists with distinct keys (the hash map's nondeterministic bucket
order is fixed to insertion order; claims below are stated so that they do
not depend on that order).
-/

set_option maxRecDepth 20000

namespace Casper

/-- A deploy hash (an opaque 32-byte identifier, modelled as a natural). -/
abbrev DeployHash := Nat

/-- A peer id. -/
abbrev NodeId := Nat

/-- `DeployOrTransferHash`: a deploy hash tagged with its kind. -/
inductive DtHash where
  | deploy (h : DeployHash)
  | transfer (h : DeployHash)
deriving DecidableEq, Repr

/-- The conversion `DeployOrTransferHash → DeployHash` (`dt_hash.into()` in the
source): it drops the kind tag.  The in-flight counter is keyed by this
untagged hash. -/
def DtHash.toDeployHash : DtHash → DeployHash
  | .deploy h => h
  | .transfer h => h

/-- The approvals attached to a deploy in a proposal (`BTreeSet<Approval>`,
opaque to the validator's control flow and therefore modelled as a token). -/
abbrev Approvals := Nat

/-- The footprint computed from a successfully fetched deploy; only its gas
estimate is consumed by the (spec-modelled) appendable block. -/
structure DeployFootprint where
  gas : Nat
deriving DecidableEq, Repr

/-- `ProposedBlock<ClContext>`: the proposal timestamp plus the ordered deploy
and transfer lists, each hash paired with its approvals. -/
structure ProposedBlock where
  timestamp : Nat
  deploys : List (DeployHash × Approvals)
  transfers : List (DeployHash × Approvals)
deriving DecidableEq, Repr

/-- `deploys_and_transfers_iter`: the deploys tagged `Deploy` chained with the
transfers tagged `Transfer`. -/
def ProposedBlock.deploys_and_transfers_iter (b : ProposedBlock) :
    List (DtHash × Approvals) :=
  b.deploys.map (fun p => (DtHash.deploy p.1, p.2)) ++
    b.transfers.map (fun p => (DtHash.transfer p.1, p.2))

/-- Association-list lookup, the model of `HashMap`/`BTreeMap` access. -/
def alookup {α β : Type} [DecidableEq α] (k : α) : List (α × β) → Option β
  | [] => none
  | p :: rest => if p.1 = k then some p.2 else alookup k rest

/-- `contains_key`. -/
def acontains {α β : Type} [DecidableEq α] (k : α) (m : List (α × β)) : Bool :=
  (alookup k m).isSome

/-- Insert-or-overwrite (`HashMap::insert` / `BTreeMap::insert`); an absent key
is appended, so iteration order is insertion order. -/
def ainsert {α β : Type} [DecidableEq α] (k : α) (v : β) : List (α × β) → List (α × β)
  | [] => [(k, v)]
  | p :: rest => if p.1 = k then (k, v) :: rest else p :: ainsert k v rest

/-- `HashMap::remove` (with distinct keys, removing the first match). -/
def aremove {α β : Type} [DecidableEq α] (k : α) : List (α × β) → List (α × β)
  | [] => []
  | p :: rest => if p.1 = k then rest else p :: aremove k rest

/-- `collect()` of an iterator of pairs into a `HashMap`: a later pair with an
equal key overwrites the earlier one, so the length counts distinct keys. -/
def collectMap {α β : Type} [DecidableEq α] (l : List (α × β)) : List (α × β) :=
  l.foldl (fun m p => ainsert p.1 p.2 m) []

/-- `DeployConfig`: the structural limits taken from the chainspec. -/
structure DeployConfig where
  block_max_deploy_count : Nat
  block_max_transfer_count : Nat
  block_gas_limit : Nat
deriving DecidableEq, Repr

/-- Modelled from the spec: the appendable block, whose source file is not in
this repository snapshot.  Per the data model it is an accumulator that
incrementally admits transactions subject to the per-block limits, each
admission fallible and atomic. -/
structure AppendableBlock where
  config : DeployConfig
  timestamp : Nat
  deploy_hashes : List DeployHash
  transfer_hashes : List DeployHash
  gas : Nat
deriving DecidableEq, Repr

/-- `AppendableBlock::new`. -/
def AppendableBlock.new (config : DeployConfig) (timestamp : Nat) : AppendableBlock :=
  ⟨config, timestamp, [], [], 0⟩

/-- Modelled from the spec: admitting a deploy fails, atomically, when the
deploy-count limit or the block gas budget would be exceeded. -/
def AppendableBlock.add_deploy (ab : AppendableBlock) (h : DeployHash)
    (_approvals : Approvals) (fp : DeployFootprint) : Option AppendableBlock :=
  if ab.config.block_max_deploy_count < ab.deploy_hashes.length + 1 then none
  else if ab.config.block_gas_limit < ab.gas + fp.gas then none
  else some { ab with deploy_hashes := ab.deploy_hashes ++ [h], gas := ab.gas + fp.gas }

/-- Modelled from the spec: admitting a transfer fails, atomically, when the
transfer-count limit would be exceeded. -/
def AppendableBlock.add_transfer (ab : AppendableBlock) (h : DeployHash)
    (_approvals : Approvals) (_fp : DeployFootprint) : Option AppendableBlock :=
  if ab.config.block_max_transfer_count < ab.transfer_hashes.length + 1 then none
  else some { ab with transfer_hashes := ab.transfer_hashes ++ [h] }

/-- Modelled from the spec (its module is declared but its file is not in this
snapshot): the keyed in-flight counter, a map from deploy hash to count;
absent means 0, and `dec` never underflows (release semantics: `dec` of an
absent key yields 0). -/
def KeyedCounter := DeployHash → Nat

/-- `KeyedCounter::inc` (the returned new count is unused by the caller). -/
def KeyedCounter.inc (c : KeyedCounter) (k : DeployHash) : KeyedCounter :=
  fun h => if h = k then c k + 1 else c h

/-- `KeyedCounter::dec`: the remaining count together with the updated map. -/
def KeyedCounter.dec (c : KeyedCounter) (k : DeployHash) : Nat × KeyedCounter :=
  (c k - 1, fun h => if h = k then c k - 1 else c h)

/-- `BlockValidationState`: the per-proposal record of the appendable block,
the deploys still missing with their approvals, and the pending responders
(modelled by their numeric identities). -/
structure BlockValidationState where
  appendable_block : AppendableBlock
  missing_deploys : List (DtHash × Approvals)
  responders : List Nat
deriving DecidableEq, Repr

/-- `BlockValidator`: the component state.  The chainspec fields it reads are
inlined (`deploy_config` and `core_config.signature_rewards_max_delay`). -/
structure BlockValidator where
  deploy_config : DeployConfig
  signature_rewards_max_delay : Nat
  validation_states : List (ProposedBlock × BlockValidationState)
  in_flight : KeyedCounter

/-- The effects a `handle_event` call emits, in emission order.  `respond`
carries the whole list of responders drained together with the single boolean
they all receive. -/
inductive Effect where
  | respond (responders : List Nat) (value : Bool)
  | fetch (dt_hash : DtHash) (sender : NodeId)
  | collect_past_blocks (lo hi : Nat)
  | log_duplicates (sender : NodeId) (duplicates : List (Nat × DtHash))
deriving DecidableEq, Repr

/-- The block-validator events modelled here.  `GotPastBlockWithMetadata` is
omitted: its handler ends in `todo!()` in the source and never completes. -/
inductive Event where
  | request (block : ProposedBlock) (era_id height : Nat) (sender : NodeId) (responder : Nat)
  | deployFound (dt_hash : DtHash) (footprint : DeployFootprint)
  | deployMissing (dt_hash : DtHash)
  | cannotConvertDeploy (dt_hash : DtHash)
deriving DecidableEq, Repr

/-- Ascending insertion into a list sorted by the `BTreeMap` ordering on
`DeployOrTransferHash` (variant order, then hash). -/
def DtHash.keyLE : DtHash → DtHash → Bool
  | .deploy a, .deploy b => a ≤ b
  | .deploy _, .transfer _ => true
  | .transfer _, .deploy _ => false
  | .transfer a, .transfer b => a ≤ b

/-- Ordered insertion by `DtHash.keyLE`. -/
def insertKeySorted (k : DtHash) : List DtHash → List DtHash
  | [] => [k]
  | j :: rest => if DtHash.keyLE k j then k :: j :: rest else j :: insertKeySorted k rest

/-- Insertion sort by `DtHash.keyLE`, modelling `BTreeMap` iteration order. -/
def sortKeys : List DtHash → List DtHash
  | [] => []
  | k :: rest => insertKeySorted k (sortKeys rest)

/-- The number of occurrences of a tagged hash in the proposal's iterator. -/
def countKey (k : DtHash) (l : List (DtHash × Approvals)) : Nat :=
  (l.filter (fun p => p.1 = k)).length

/-- `log_block_with_replay`'s payload: every hash with multiplicity above one,
paired with its count, in ascending key order. -/
def duplicatesOf (b : ProposedBlock) : List (Nat × DtHash) :=
  let iter := b.deploys_and_transfers_iter
  let keys := sortKeys (iter.map Prod.fst).dedup
  (keys.filter (fun k => 1 < countKey k iter)).map (fun k => (countKey k iter, k))

/-- Dispatch of an admission on the kind tag: `add_deploy` for a deploy hash,
`add_transfer` for a transfer hash. -/
def addToBlock (dt_hash : DtHash) (ab : AppendableBlock) (approvals : Approvals)
    (footprint : DeployFootprint) : Option AppendableBlock :=
  match dt_hash with
  | .deploy h => ab.add_deploy h approvals footprint
  | .transfer h => ab.add_transfer h approvals footprint

/-- The per-state first pass of the `DeployFound` arm: if the hash is in the
state's missing set, remove it and attempt to admit the deploy into the
appendable block; a failed admission flags the state invalid (`true`). -/
def foundUpdate (dt_hash : DtHash) (footprint : DeployFootprint)
    (e : ProposedBlock × BlockValidationState) :
    (ProposedBlock × BlockValidationState) × Bool :=
  match alookup dt_hash e.2.missing_deploys with
  | none => (e, false)
  | some approvals =>
    let st1 := { e.2 with missing_deploys := aremove dt_hash e.2.missing_deploys }
    match addToBlock dt_hash st1.appendable_block approvals footprint with
    | some ab => ((e.1, { st1 with appendable_block := ab }), false)
    | none => ((e.1, st1), true)

/-- The `retain` sweep of the `DeployFound` arm: with the flagged-invalid keys
fixed, respond `false` to invalid states, `true` to completed states, and keep
the rest; effects accumulate in table order. -/
def sweepFound (invalid : List ProposedBlock) :
    List ((ProposedBlock × BlockValidationState) × Bool) →
      List (ProposedBlock × BlockValidationState) × List Effect
  | [] => ([], [])
  | r :: rest =>
    let acc := sweepFound invalid rest
    if r.1.1 ∈ invalid then (acc.1, .respond r.1.2.responders false :: acc.2)
    else if r.1.2.missing_deploys = [] then (acc.1, .respond r.1.2.responders true :: acc.2)
    else (r.1 :: acc.1, acc.2)

/-- The `retain` sweep of the `DeployMissing` and `CannotConvertDeploy` arms:
drop every state still holding the hash, responding `false` to it. -/
def sweepDrop (d : DtHash) :
    List (ProposedBlock × BlockValidationState) →
      List (ProposedBlock × BlockValidationState) × List Effect
  | [] => ([], [])
  | e :: rest =>
    let acc := sweepDrop d rest
    if acontains d e.2.missing_deploys then
      (acc.1, .respond e.2.responders false :: acc.2)
    else (e :: acc.1, acc.2)

/-- `BlockValidator::handle_event`, together with the synchronous part of the
effects it spawns, as a pure transition: the new component state and the
emitted effects in order.  The `Request` arm's `entry(..).or_insert(..)` is
modelled by the lookup-or-create `entry` pair below; `retain` with responses
is modelled by the sweep helpers above. -/
def handle_event (v : BlockValidator) (ev : Event) : BlockValidator × List Effect :=
  match ev with
  | .request block _era_id height sender responder =>
    if v.deploy_config.block_max_deploy_count < block.deploys.length then
      (v, [.respond [responder] false])
    else if v.deploy_config.block_max_transfer_count < block.transfers.length then
      (v, [.respond [responder] false])
    else
      let deploy_count := block.deploys.length + block.transfers.length
      if deploy_count = 0 then (v, [.respond [responder] true])
      else
        let block_deploys := collectMap block.deploys_and_transfers_iter
        if block_deploys.length ≠ deploy_count then
          (v, [.log_duplicates sender (duplicatesOf block), .respond [responder] false])
        else
          let entry :=
            match alookup block v.validation_states with
            | some st => (st, v.validation_states)
            | none =>
              let fresh : BlockValidationState :=
                ⟨AppendableBlock.new v.deploy_config block.timestamp, block_deploys, []⟩
              (fresh, ainsert block fresh v.validation_states)
          let st := entry.1
          if st.missing_deploys = [] then
            ({ v with validation_states := entry.2 }, [.respond [responder] true])
          else
            let st1 := { st with responders := st.responders ++ [responder] }
            let in_flight1 :=
              block_deploys.foldl (fun c p => c.inc p.1.toDeployHash) v.in_flight
            ({ v with validation_states := ainsert block st1 entry.2,
                      in_flight := in_flight1 },
              block_deploys.map (fun p => Effect.fetch p.1 sender) ++
                [.collect_past_blocks (height - v.signature_rewards_max_delay) height])
  | .deployFound dt_hash footprint =>
    let in_flight1 := (v.in_flight.dec dt_hash.toDeployHash).2
    let updated := v.validation_states.map (foundUpdate dt_hash footprint)
    let invalid : List ProposedBlock := (updated.filter (fun r => r.2)).map (fun r => r.1.1)
    let swept := sweepFound invalid updated
    ({ v with in_flight := in_flight1, validation_states := swept.1 }, swept.2)
  | .deployMissing dt_hash =>
    let dec := v.in_flight.dec dt_hash.toDeployHash
    if dec.1 ≠ 0 then ({ v with in_flight := dec.2 }, [])
    else
      let swept := sweepDrop dt_hash v.validation_states
      ({ v with in_flight := dec.2, validation_states := swept.1 }, swept.2)
  | .cannotConvertDeploy dt_hash =>
    let in_flight1 := (v.in_flight.dec dt_hash.toDeployHash).2
    let swept := sweepDrop dt_hash v.validation_states
    ({ v with in_flight := in_flight1, validation_states := swept.1 }, swept.2)

/-- A fresh validator with the given configuration. -/
def BlockValidator.new (cfg : DeployConfig) (delay : Nat) : BlockValidator :=
  ⟨cfg, delay, [], fun _ => 0⟩

end Casper

namespace Casper

/-! ## Lemmas about the association-list and sweep combinators -/

theorem alookup_mem {α β : Type} [DecidableEq α] {k : α} {v : β} :
    ∀ {m : List (α × β)}, alookup k m = some v → (k, v) ∈ m := by
  intro m
  induction m with
  | nil => intro h; simp [alookup] at h
  | cons p rest ih =>
    intro h
    rw [alookup] at h
    by_cases hp : p.1 = k
    · rw [if_pos hp] at h
      have hv : p.2 = v := Option.some.inj h
      have hpk : p = (k, v) := by
        cases p
        cases hp
        cases hv
        rfl
      rw [← hpk]
      exact List.mem_cons_self p rest
    · rw [if_neg hp] at h
      exact List.mem_cons_of_mem p (ih h)

theorem alookup_of_acontains_eq_false {α β : Type} [DecidableEq α] {k : α} {m : List (α × β)}
    (h : acontains k m = false) : alookup k m = none := by
  unfold acontains at h
  cases hl : alookup k m with
  | none => rfl
  | some v => rw [hl] at h; simp at h

theorem acontains_of_alookup_eq_some {α β : Type} [DecidableEq α] {k : α} {v : β}
    {m : List (α × β)} (h : alookup k m = some v) : acontains k m = true := by
  unfold acontains
  rw [h]
  rfl

/-- With pairwise-distinct keys (the `HashMap` invariant), two entries with the
same key are the same entry. -/
theorem key_inj {α β : Type} [DecidableEq α] {l : List (α × β)}
    (h : (l.map Prod.fst).Nodup) {a b : α × β}
    (ha : a ∈ l) (hb : b ∈ l) (hab : a.1 = b.1) : a = b := by
  induction l with
  | nil => cases ha
  | cons p rest ih =>
    rw [List.map_cons, List.nodup_cons] at h
    rcases List.mem_cons.mp ha with rfl | ha1
    · rcases List.mem_cons.mp hb with rfl | hb1
      · rfl
      · exact absurd (hab ▸ List.mem_map_of_mem Prod.fst hb1) h.1
    · rcases List.mem_cons.mp hb with rfl | hb1
      · exact absurd (hab ▸ List.mem_map_of_mem Prod.fst ha1) h.1
      · exact ih h.2 ha1 hb1

theorem sweepDrop_fst (d : DtHash) (l : List (ProposedBlock × BlockValidationState)) :
    (sweepDrop d l).1 = l.filter (fun e => !acontains d e.2.missing_deploys) := by
  induction l with
  | nil => rfl
  | cons e rest ih =>
    cases h : acontains d e.2.missing_deploys <;> simp [sweepDrop, h, ih]

theorem sweepDrop_snd (d : DtHash) (l : List (ProposedBlock × BlockValidationState)) :
    (sweepDrop d l).2 =
      (l.filter (fun e => acontains d e.2.missing_deploys)).map
        (fun e => Effect.respond e.2.responders false) := by
  induction l with
  | nil => rfl
  | cons e rest ih =>
    cases h : acontains d e.2.missing_deploys <;> simp [sweepDrop, h, ih]

theorem foldl_inc_apply (l : List (DtHash × Approvals)) (c : KeyedCounter) (h : DeployHash) :
    (l.foldl (fun c p => c.inc p.1.toDeployHash) c) h =
      c h + (l.filter (fun p => p.1.toDeployHash = h)).length := by
  induction l generalizing c with
  | nil => rfl
  | cons p rest ih =>
    rw [List.foldl_cons, ih]
    by_cases hp : p.1.toDeployHash = h
    · subst hp
      simp [KeyedCounter.inc]
      omega
    · have hne : h ≠ p.1.toDeployHash := fun hh => hp hh.symm
      simp [KeyedCounter.inc, hp, hne]

/-! ## Lemmas about the `DeployFound` first pass and sweep -/

theorem foundUpdate_key (d : DtHash) (fp : DeployFootprint)
    (e : ProposedBlock × BlockValidationState) : (foundUpdate d fp e).1.1 = e.1 := by
  unfold foundUpdate
  split
  · rfl
  · dsimp only
    split <;> rfl

theorem foundUpdate_responders (d : DtHash) (fp : DeployFootprint)
    (e : ProposedBlock × BlockValidationState) :
    (foundUpdate d fp e).1.2.responders = e.2.responders := by
  unfold foundUpdate
  split
  · rfl
  · dsimp only
    split <;> rfl

theorem foundUpdate_of_not_contains {d : DtHash} (fp : DeployFootprint)
    {e : ProposedBlock × BlockValidationState}
    (h : acontains d e.2.missing_deploys = false) : foundUpdate d fp e = (e, false) := by
  unfold foundUpdate
  rw [alookup_of_acontains_eq_false h]

theorem foundUpdate_flag {d : DtHash} {fp : DeployFootprint}
    {e : ProposedBlock × BlockValidationState}
    (h : (foundUpdate d fp e).2 = true) : acontains d e.2.missing_deploys = true := by
  by_cases hc : acontains d e.2.missing_deploys = true
  · exact hc
  · rw [foundUpdate_of_not_contains fp (Bool.not_eq_true _ ▸ hc)] at h
    cases h

theorem foundUpdate_missing_of_not_contains {d : DtHash} (fp : DeployFootprint)
    {e : ProposedBlock × BlockValidationState}
    (h : acontains d e.2.missing_deploys = false) :
    (foundUpdate d fp e).1.2.missing_deploys = e.2.missing_deploys := by
  rw [foundUpdate_of_not_contains fp h]

theorem sweepFound_keep {invalid : List ProposedBlock}
    {l : List ((ProposedBlock × BlockValidationState) × Bool)}
    {r : (ProposedBlock × BlockValidationState) × Bool}
    (hr : r ∈ l) (h1 : r.1.1 ∉ invalid) (h2 : r.1.2.missing_deploys ≠ []) :
    r.1 ∈ (sweepFound invalid l).1 := by
  induction l with
  | nil => cases hr
  | cons a rest ih =>
    rcases List.mem_cons.mp hr with rfl | hr1
    · rw [sweepFound, if_neg h1, if_neg h2]
      exact List.mem_cons_self _ _
    · rw [sweepFound]
      by_cases ha : a.1.1 ∈ invalid
      · rw [if_pos ha]; exact ih hr1
      · rw [if_neg ha]
        by_cases hae : a.1.2.missing_deploys = []
        · rw [if_pos hae]; exact ih hr1
        · rw [if_neg hae]; exact List.mem_cons_of_mem _ (ih hr1)

theorem sweepFound_respond {invalid : List ProposedBlock}
    {l : List ((ProposedBlock × BlockValidationState) × Bool)} {ids : List Nat} {b : Bool}
    (h : Effect.respond ids b ∈ (sweepFound invalid l).2) :
    ∃ r ∈ l, ids = r.1.2.responders ∧
      (r.1.1 ∈ invalid ∨ r.1.2.missing_deploys = []) := by
  induction l with
  | nil => cases h
  | cons a rest ih =>
    rw [sweepFound] at h
    by_cases ha : a.1.1 ∈ invalid
    · rw [if_pos ha] at h
      rcases List.mem_cons.mp h with heq | h1
      · injection heq with hids _
        exact ⟨a, List.mem_cons_self _ _, hids, Or.inl ha⟩
      · obtain ⟨r, hr, hids, hor⟩ := ih h1
        exact ⟨r, List.mem_cons_of_mem _ hr, hids, hor⟩
    · rw [if_neg ha] at h
      by_cases hae : a.1.2.missing_deploys = []
      · rw [if_pos hae] at h
        rcases List.mem_cons.mp h with heq | h1
        · injection heq with hids _
          exact ⟨a, List.mem_cons_self _ _, hids, Or.inr hae⟩
        · obtain ⟨r, hr, hids, hor⟩ := ih h1
          exact ⟨r, List.mem_cons_of_mem _ hr, hids, hor⟩
      · rw [if_neg hae] at h
        obtain ⟨r, hr, hids, hor⟩ := ih h
        exact ⟨r, List.mem_cons_of_mem _ hr, hids, hor⟩

end Casper

namespace Casper

/-! ## The rejected-request paths -/

theorem request_oversize_eq (v : BlockValidator) (block : ProposedBlock)
    (era height sender responder : Nat)
    (hover : v.deploy_config.block_max_deploy_count < block.deploys.length ∨
             v.deploy_config.block_max_transfer_count < block.transfers.length) :
    handle_event v (.request block era height sender responder) =
      (v, [.respond [responder] false]) := by
  rcases hover with h | h
  · rw [handle_event, if_pos h]
  · by_cases h1 : v.deploy_config.block_max_deploy_count < block.deploys.length
    · rw [handle_event, if_pos h1]
    · rw [handle_event, if_neg h1, if_pos h]

theorem request_empty_eq (v : BlockValidator) (block : ProposedBlock)
    (era height sender responder : Nat)
    (hd : ¬ v.deploy_config.block_max_deploy_count < block.deploys.length)
    (ht : ¬ v.deploy_config.block_max_transfer_count < block.transfers.length)
    (hz : block.deploys.length + block.transfers.length = 0) :
    handle_event v (.request block era height sender responder) =
      (v, [.respond [responder] true]) := by
  rw [handle_event]
  dsimp only
  rw [if_neg hd, if_neg ht, if_pos hz]

theorem request_dup_eq (v : BlockValidator) (block : ProposedBlock)
    (era height sender responder : Nat)
    (hd : ¬ v.deploy_config.block_max_deploy_count < block.deploys.length)
    (ht : ¬ v.deploy_config.block_max_transfer_count < block.transfers.length)
    (hz : ¬ block.deploys.length + block.transfers.length = 0)
    (hdup : (collectMap block.deploys_and_transfers_iter).length
        ≠ block.deploys.length + block.transfers.length) :
    handle_event v (.request block era height sender responder) =
      (v, [.log_duplicates sender (duplicatesOf block), .respond [responder] false]) := by
  rw [handle_event]
  dsimp only
  rw [if_neg hd, if_neg ht, if_neg hz, if_pos hdup]

/-! ## Claim C7: `DeployMissing` semantics -/

/-- **C7**: on a `DeployMissing(hash)` event the in-flight counter for that
hash is decremented (saturating at zero, and all other hashes untouched); if
the decremented count is still positive no validation state changes and no
response is sent; only if the count reaches zero does every validation state
still holding that hash in its missing set respond `false` and get removed
from the table, the others staying untouched. -/
theorem deployMissing_counter_gate (v : BlockValidator) (d : DtHash) :
    (handle_event v (.deployMissing d)).1.in_flight d.toDeployHash
        = v.in_flight d.toDeployHash - 1 ∧
    (∀ h, h ≠ d.toDeployHash →
      (handle_event v (.deployMissing d)).1.in_flight h = v.in_flight h) ∧
    (v.in_flight d.toDeployHash - 1 ≠ 0 →
      (handle_event v (.deployMissing d)).1.validation_states = v.validation_states ∧
      (handle_event v (.deployMissing d)).2 = []) ∧
    (v.in_flight d.toDeployHash - 1 = 0 →
      (handle_event v (.deployMissing d)).1.validation_states =
        v.validation_states.filter (fun e => !acontains d e.2.missing_deploys) ∧
      (handle_event v (.deployMissing d)).2 =
        (v.validation_states.filter (fun e => acontains d e.2.missing_deploys)).map
          (fun e => Effect.respond e.2.responders false)) := by
  by_cases h0 : v.in_flight d.toDeployHash - 1 = 0
  · refine ⟨?_, ?_, fun hc => absurd h0 hc, fun _ => ⟨?_, ?_⟩⟩
    · simp [handle_event, KeyedCounter.dec, h0]
    · intro h hne
      simp [handle_event, KeyedCounter.dec, h0, hne]
    · simp [handle_event, KeyedCounter.dec, h0, sweepDrop_fst]
    · simp [handle_event, KeyedCounter.dec, h0, sweepDrop_snd]
  · refine ⟨?_, ?_, fun _ => ⟨?_, ?_⟩, fun hc => absurd hc h0⟩
    · simp [handle_event, KeyedCounter.dec, h0]
    · intro h hne
      simp [handle_event, KeyedCounter.dec, h0, hne]
    · simp [handle_event, KeyedCounter.dec, h0]
    · simp [handle_event, KeyedCounter.dec, h0]

/-- A concrete validator used by witnesses: limits 10/10/100, lookback 2, one
validation state waiting for deploy 5 with responder 3, and two fetches of
hash 5 in flight. -/
def vW : BlockValidator :=
  ⟨⟨10, 10, 100⟩, 2,
    [(⟨0, [(5, 0)], []⟩, ⟨AppendableBlock.new ⟨10, 10, 100⟩ 0, [(.deploy 5, 0)], [3]⟩)],
    fun h => if h = 5 then 2 else 0⟩

/-- Witness for C7 at a concrete input: with two fetches in flight, one
`DeployMissing` leaves the table untouched and responds to no one, and the
counter drops to 1. -/
theorem deployMissing_counter_gate_witness :
    (handle_event vW (.deployMissing (.deploy 5))).1.validation_states
        = vW.validation_states ∧
    (handle_event vW (.deployMissing (.deploy 5))).2 = [] ∧
    (handle_event vW (.deployMissing (.deploy 5))).1.in_flight 5 = 1 :=
  ⟨((deployMissing_counter_gate vW (.deploy 5)).2.2.1 (by decide)).1,
   ((deployMissing_counter_gate vW (.deploy 5)).2.2.1 (by decide)).2,
   (deployMissing_counter_gate vW (.deploy 5)).1⟩

/-! ## Claim C8: structural limits are rejected synchronously with no I/O -/

/-- **C8**: a proposed block whose deploy count exceeds
`block_max_deploy_count` or whose transfer count exceeds
`block_max_transfer_count` is answered `false` immediately: the component
state (table and counter) is returned unchanged and the single emitted effect
is the response, so no fetch, no storage request and no validation state is
created. -/
theorem oversized_request_rejected_without_io (v : BlockValidator)
    (block : ProposedBlock) (era height sender responder : Nat)
    (hover : v.deploy_config.block_max_deploy_count < block.deploys.length ∨
             v.deploy_config.block_max_transfer_count < block.transfers.length) :
    handle_event v (.request block era height sender responder) =
      (v, [.respond [responder] false]) :=
  request_oversize_eq v block era height sender responder hover

/-- Witness for C8 at a concrete input: two deploys against a limit of one. -/
theorem oversized_request_rejected_without_io_witness :
    handle_event (BlockValidator.new ⟨1, 1, 100⟩ 2)
        (.request ⟨0, [(1, 0), (2, 0)], []⟩ 3 9 7 11) =
      (BlockValidator.new ⟨1, 1, 100⟩ 2, [.respond [11] false]) :=
  oversized_request_rejected_without_io (BlockValidator.new ⟨1, 1, 100⟩ 2)
    ⟨0, [(1, 0), (2, 0)], []⟩ 3 9 7 11 (Or.inl (by decide))

end Casper

namespace Casper

/-! ## Claim C10: events leave unrelated validation states untouched -/

theorem handle_found_eq (v : BlockValidator) (d : DtHash) (fp : DeployFootprint) :
    handle_event v (.deployFound d fp) =
      ({ v with in_flight := (v.in_flight.dec d.toDeployHash).2,
                validation_states :=
                  (sweepFound
                    (((v.validation_states.map (foundUpdate d fp)).filter
                        (fun r => r.2)).map (fun r => r.1.1))
                    (v.validation_states.map (foundUpdate d fp))).1 },
        (sweepFound
          (((v.validation_states.map (foundUpdate d fp)).filter
              (fun r => r.2)).map (fun r => r.1.1))
          (v.validation_states.map (foundUpdate d fp))).2) := rfl

theorem mem_invalid_keys {d : DtHash} {fp : DeployFootprint}
    {l : List (ProposedBlock × BlockValidationState)} {k : ProposedBlock}
    (hk : k ∈ ((l.map (foundUpdate d fp)).filter (fun r => r.2)).map (fun r => r.1.1)) :
    ∃ e ∈ l, acontains d e.2.missing_deploys = true ∧ e.1 = k := by
  obtain ⟨r, hr, hrk⟩ := List.mem_map.mp hk
  obtain ⟨hru, hflag⟩ := List.mem_filter.mp hr
  obtain ⟨e, hel, hre⟩ := List.mem_map.mp hru
  subst hre
  exact ⟨e, hel, foundUpdate_flag (by simpa using hflag), by rw [← hrk, foundUpdate_key]⟩

/-- **C10**: for each of `DeployFound`, `DeployMissing` and
`CannotConvertDeploy` carrying a hash, every validation state whose missing
set does not hold that hash is left entirely unchanged: it stays in the table
with the same appendable block, missing set and responder list, every
response batch emitted belongs to a state that does hold the hash, and the
in-flight counter is only touched at the event's hash.  (The hypotheses are
the table invariants: distinct keys and nonempty missing sets.) -/
theorem event_frame_other_states (v : BlockValidator) (d : DtHash) (fp : DeployFootprint)
    (ev : Event)
    (hev : ev = .deployFound d fp ∨ ev = .deployMissing d ∨ ev = .cannotConvertDeploy d)
    (hnodup : (v.validation_states.map Prod.fst).Nodup)
    (hne : ∀ e ∈ v.validation_states, e.2.missing_deploys ≠ [])
    (q : ProposedBlock) (st : BlockValidationState)
    (hmem : (q, st) ∈ v.validation_states)
    (hq : acontains d st.missing_deploys = false) :
    (q, st) ∈ (handle_event v ev).1.validation_states ∧
    (∀ ids b, Effect.respond ids b ∈ (handle_event v ev).2 →
      ∃ e ∈ v.validation_states, acontains d e.2.missing_deploys = true ∧
        ids = e.2.responders) ∧
    (∀ h, h ≠ d.toDeployHash → (handle_event v ev).1.in_flight h = v.in_flight h) := by
  rcases hev with rfl | rfl | rfl
  · -- DeployFound
    rw [handle_found_eq]
    refine ⟨?_, ?_, ?_⟩
    · have hqinv :
          q ∉ ((v.validation_states.map (foundUpdate d fp)).filter
            (fun r => r.2)).map (fun r => r.1.1) := by
        intro hqmem
        obtain ⟨e, hel, hcont, hek⟩ := mem_invalid_keys hqmem
        have : e = (q, st) := key_inj hnodup hel hmem hek
        rw [this] at hcont
        exact absurd (hq ▸ hcont) (by simp)
      have hru : ((q, st), false) ∈ v.validation_states.map (foundUpdate d fp) := by
        have := List.mem_map_of_mem (foundUpdate d fp) hmem
        rwa [foundUpdate_of_not_contains fp hq] at this
      exact sweepFound_keep hru hqinv (hne (q, st) hmem)
    · intro ids b hmemeff
      obtain ⟨r, hrl, hids, hor⟩ := sweepFound_respond hmemeff
      obtain ⟨e, hel, hre⟩ := List.mem_map.mp hrl
      subst hre
      refine ⟨e, hel, ?_, by rw [hids, foundUpdate_responders]⟩
      rcases hor with hinv | hempty
      · obtain ⟨e2, he2l, hcont2, hek2⟩ := mem_invalid_keys hinv
        rw [foundUpdate_key] at hek2
        have : e2 = e := key_inj hnodup he2l hel hek2
        rwa [this] at hcont2
      · by_cases hce : acontains d e.2.missing_deploys = true
        · exact hce
        · rw [foundUpdate_missing_of_not_contains fp (Bool.not_eq_true _ ▸ hce)] at hempty
          exact absurd hempty (hne e hel)
    · intro h hh
      simp [KeyedCounter.dec, hh]
  · -- DeployMissing
    by_cases h0 : v.in_flight d.toDeployHash - 1 = 0
    · refine ⟨?_, ?_, ?_⟩
      · have hst : (handle_event v (.deployMissing d)).1.validation_states
            = v.validation_states.filter (fun e => !acontains d e.2.missing_deploys) := by
          simp [handle_event, KeyedCounter.dec, h0, sweepDrop_fst]
        rw [hst]
        exact List.mem_filter.mpr ⟨hmem, by simp [hq]⟩
      · have heff : (handle_event v (.deployMissing d)).2
            = (v.validation_states.filter (fun e => acontains d e.2.missing_deploys)).map
                (fun e => Effect.respond e.2.responders false) := by
          simp [handle_event, KeyedCounter.dec, h0, sweepDrop_snd]
        intro ids b hmemeff
        rw [heff] at hmemeff
        obtain ⟨e, hef, hee⟩ := List.mem_map.mp hmemeff
        obtain ⟨hel, hec⟩ := List.mem_filter.mp hef
        injection hee.symm with hids _
        exact ⟨e, hel, by simpa using hec, hids⟩
      · intro h hh
        simp [handle_event, KeyedCounter.dec, h0, hh]
    · refine ⟨?_, ?_, ?_⟩
      · have hst : (handle_event v (.deployMissing d)).1.validation_states
            = v.validation_states := by
          simp [handle_event, KeyedCounter.dec, h0]
        rw [hst]
        exact hmem
      · have heff : (handle_event v (.deployMissing d)).2 = [] := by
          simp [handle_event, KeyedCounter.dec, h0]
        intro ids b hmemeff
        rw [heff] at hmemeff
        cases hmemeff
      · intro h hh
        simp [handle_event, KeyedCounter.dec, h0, hh]
  · -- CannotConvertDeploy
    refine ⟨?_, ?_, ?_⟩
    · have hst : (handle_event v (.cannotConvertDeploy d)).1.validation_states
          = v.validation_states.filter (fun e => !acontains d e.2.missing_deploys) := by
        simp [handle_event, sweepDrop_fst]
      rw [hst]
      exact List.mem_filter.mpr ⟨hmem, by simp [hq]⟩
    · have heff : (handle_event v (.cannotConvertDeploy d)).2
          = (v.validation_states.filter (fun e => acontains d e.2.missing_deploys)).map
              (fun e => Effect.respond e.2.responders false) := by
        simp [handle_event, sweepDrop_snd]
      intro ids b hmemeff
      rw [heff] at hmemeff
      obtain ⟨e, hef, hee⟩ := List.mem_map.mp hmemeff
      obtain ⟨hel, hec⟩ := List.mem_filter.mp hef
      injection hee.symm with hids _
      exact ⟨e, hel, by simpa using hec, hids⟩
    · intro h hh
      simp [handle_event, KeyedCounter.dec, hh]

/-- A concrete two-state validator: one state waits for deploy 5, one for
deploy 6, with one fetch of each in flight. -/
def vW2 : BlockValidator :=
  ⟨⟨10, 10, 100⟩, 2,
    [(⟨0, [(5, 0)], []⟩, ⟨AppendableBlock.new ⟨10, 10, 100⟩ 0, [(.deploy 5, 0)], [3]⟩),
     (⟨0, [(6, 0)], []⟩, ⟨AppendableBlock.new ⟨10, 10, 100⟩ 0, [(.deploy 6, 0)], [4]⟩)],
    fun h => if h = 5 ∨ h = 6 then 1 else 0⟩

/-- Witness for C10 at a concrete input: a table with a state for hash 5 and a
state for hash 6; `DeployMissing` on hash 6 (counter reaching zero) leaves the
hash-5 state untouched. -/
theorem event_frame_other_states_witness :
    (⟨0, [(5, 0)], []⟩, ⟨AppendableBlock.new ⟨10, 10, 100⟩ 0, [(.deploy 5, 0)], [3]⟩) ∈
      (handle_event vW2 (.deployMissing (.deploy 6))).1.validation_states ∧
    (∀ ids b, Effect.respond ids b ∈ (handle_event vW2 (.deployMissing (.deploy 6))).2 →
      ∃ e ∈ vW2.validation_states,
        acontains (.deploy 6) e.2.missing_deploys = true ∧ ids = e.2.responders) ∧
    (∀ h, h ≠ 6 → (handle_event vW2 (.deployMissing (.deploy 6))).1.in_flight h =
      vW2.in_flight h) :=
  event_frame_other_states vW2 (.deploy 6) ⟨0⟩ (.deployMissing (.deploy 6))
    (Or.inr (Or.inl rfl)) (by decide) (by decide)
    ⟨0, [(5, 0)], []⟩ ⟨AppendableBlock.new ⟨10, 10, 100⟩ 0, [(.deploy 5, 0)], [3]⟩
    (by decide) (by decide)

end Casper

namespace Casper

/-! ## Lemmas about `collectMap`, key counting and the sorted duplicate log -/

theorem ainsert_of_not_mem {α β : Type} [DecidableEq α] {k : α} (v : β)
    {m : List (α × β)} (h : k ∉ m.map Prod.fst) : ainsert k v m = m ++ [(k, v)] := by
  induction m with
  | nil => rfl
  | cons p rest ih =>
    rw [List.map_cons, List.mem_cons] at h
    push_neg at h
    rw [ainsert, if_neg (fun hc => h.1 hc.symm), ih h.2, List.cons_append]

theorem collectMap_eq_self {α β : Type} [DecidableEq α] {l : List (α × β)}
    (h : (l.map Prod.fst).Nodup) : collectMap l = l := by
  suffices haux : ∀ (l2 acc : List (α × β)), (l2.map Prod.fst).Nodup →
      (∀ a ∈ l2.map Prod.fst, a ∉ acc.map Prod.fst) →
      l2.foldl (fun m p => ainsert p.1 p.2 m) acc = acc ++ l2 by
    simpa [collectMap] using haux l [] h (by simp)
  intro l2
  induction l2 with
  | nil => intro acc _ _; simp
  | cons p rest ih =>
    intro acc hnd hdisj
    rw [List.map_cons, List.nodup_cons] at hnd
    rw [List.foldl_cons, ainsert_of_not_mem p.2 (hdisj p.1 (by simp)),
      ih (acc ++ [(p.1, p.2)]) hnd.2 ?hdisj2]
    · simp
    case hdisj2 =>
      intro a ha
      rw [List.map_append, List.mem_append]
      push_neg
      refine ⟨hdisj a (by simp [ha]), ?_⟩
      intro hc
      simp only [List.map_cons, List.map_nil, List.mem_singleton] at hc
      exact hnd.1 (hc ▸ ha)

theorem mem_keys_ainsert {α β : Type} [DecidableEq α] {k a : α} {v : β}
    {m : List (α × β)} :
    a ∈ (ainsert k v m).map Prod.fst ↔ a = k ∨ a ∈ m.map Prod.fst := by
  induction m with
  | nil => simp [ainsert]
  | cons p rest ih =>
    by_cases hp : p.1 = k
    · subst hp
      rw [ainsert, if_pos rfl]
      simp only [List.map_cons, List.mem_cons]
      tauto
    · rw [ainsert, if_neg hp]
      simp only [List.map_cons, List.mem_cons, ih]
      tauto

theorem keys_nodup_ainsert {α β : Type} [DecidableEq α] {k : α} {v : β}
    {m : List (α × β)} (h : (m.map Prod.fst).Nodup) :
    ((ainsert k v m).map Prod.fst).Nodup := by
  induction m with
  | nil => simp [ainsert]
  | cons p rest ih =>
    rw [List.map_cons, List.nodup_cons] at h
    by_cases hp : p.1 = k
    · subst hp
      simpa [ainsert] using h
    · rw [ainsert, if_neg hp, List.map_cons, List.nodup_cons]
      refine ⟨fun hc => ?_, ih h.2⟩
      rcases mem_keys_ainsert.mp hc with rfl | hc2
      · exact hp rfl
      · exact h.1 hc2

theorem collectMap_keys_nodup {α β : Type} [DecidableEq α] (l : List (α × β)) :
    ((collectMap l).map Prod.fst).Nodup := by
  suffices haux : ∀ acc : List (α × β), (acc.map Prod.fst).Nodup →
      ((l.foldl (fun m p => ainsert p.1 p.2 m) acc).map Prod.fst).Nodup by
    exact haux [] (by simp)
  induction l with
  | nil => intro acc hacc; exact hacc
  | cons p rest ih =>
    intro acc hacc
    exact ih (ainsert p.1 p.2 acc) (keys_nodup_ainsert hacc)

theorem mem_keys_collectMap {α β : Type} [DecidableEq α] {l : List (α × β)} {a : α} :
    a ∈ (collectMap l).map Prod.fst ↔ a ∈ l.map Prod.fst := by
  suffices haux : ∀ acc : List (α × β),
      (a ∈ (l.foldl (fun m p => ainsert p.1 p.2 m) acc).map Prod.fst ↔
        a ∈ acc.map Prod.fst ∨ a ∈ l.map Prod.fst) by
    simpa using haux []
  induction l with
  | nil => intro acc; simp
  | cons p rest ih =>
    intro acc
    rw [List.foldl_cons, ih (ainsert p.1 p.2 acc), mem_keys_ainsert]
    simp only [List.map_cons, List.mem_cons]
    tauto

theorem collectMap_length_ne_of_dup {α β : Type} [DecidableEq α] {l : List (α × β)}
    (h : ¬ (l.map Prod.fst).Nodup) : (collectMap l).length ≠ l.length := by
  intro hlen
  apply h
  have hperm : ((collectMap l).map Prod.fst).Perm (l.map Prod.fst).dedup := by
    rw [List.perm_ext_iff_of_nodup (collectMap_keys_nodup l) (List.nodup_dedup _)]
    intro a
    rw [List.mem_dedup, mem_keys_collectMap]
  have hlede : (l.map Prod.fst).dedup.length = (l.map Prod.fst).length := by
    rw [← hperm.length_eq, List.length_map, List.length_map, hlen]
  have := List.Sublist.eq_of_length (List.dedup_sublist _) hlede
  rw [← List.dedup_eq_self]
  exact this

end Casper

namespace Casper

theorem deploys_and_transfers_iter_length (b : ProposedBlock) :
    b.deploys_and_transfers_iter.length = b.deploys.length + b.transfers.length := by
  simp [ProposedBlock.deploys_and_transfers_iter]

theorem mem_insertKeySorted {a k : DtHash} : ∀ {l : List DtHash},
    a ∈ insertKeySorted k l ↔ a = k ∨ a ∈ l := by
  intro l
  induction l with
  | nil => simp [insertKeySorted]
  | cons j rest ih =>
    rw [insertKeySorted]
    by_cases hle : DtHash.keyLE k j = true
    · rw [if_pos hle]
      simp
    · rw [if_neg hle]
      simp only [List.mem_cons, ih]
      tauto

theorem mem_sortKeys {a : DtHash} : ∀ {l : List DtHash}, a ∈ sortKeys l ↔ a ∈ l := by
  intro l
  induction l with
  | nil => simp [sortKeys]
  | cons k rest ih =>
    rw [sortKeys, mem_insertKeySorted]
    simp only [List.mem_cons, ih]

theorem countKey_pos_mem {k : DtHash} {l : List (DtHash × Approvals)}
    (h : 0 < countKey k l) : k ∈ l.map Prod.fst := by
  obtain ⟨p, hp⟩ := List.exists_mem_of_length_pos h
  obtain ⟨hpl, hpk⟩ := List.mem_filter.mp hp
  have : p.1 = k := by simpa using hpk
  exact this ▸ List.mem_map_of_mem Prod.fst hpl

theorem mem_duplicatesOf {b : ProposedBlock} {k : DtHash}
    (h : 2 ≤ countKey k b.deploys_and_transfers_iter) :
    (countKey k b.deploys_and_transfers_iter, k) ∈ duplicatesOf b := by
  have hk : k ∈ sortKeys (b.deploys_and_transfers_iter.map Prod.fst).dedup := by
    rw [mem_sortKeys, List.mem_dedup]
    exact countKey_pos_mem (lt_of_lt_of_le (by norm_num) h)
  have hk2 : k ∈ (sortKeys (b.deploys_and_transfers_iter.map Prod.fst).dedup).filter
      (fun k2 => 1 < countKey k2 b.deploys_and_transfers_iter) :=
    List.mem_filter.mpr ⟨hk, by simpa using h⟩
  simpa [duplicatesOf] using
    List.mem_map_of_mem (fun k2 => (countKey k2 b.deploys_and_transfers_iter, k2)) hk2

/-! ## The accepted-request fan-out paths -/

/-- A request that passes the structural checks and finds no state registers a
fresh state holding its responder, increments the counter per hash, and emits
one fetch per hash plus the past-blocks query. -/
theorem request_fresh (v : BlockValidator) (block : ProposedBlock)
    (era height sender responder : Nat)
    (hd : ¬ v.deploy_config.block_max_deploy_count < block.deploys.length)
    (ht : ¬ v.deploy_config.block_max_transfer_count < block.transfers.length)
    (hnz : ¬ block.deploys.length + block.transfers.length = 0)
    (hlen : ¬ (collectMap block.deploys_and_transfers_iter).length
        ≠ block.deploys.length + block.transfers.length)
    (hlook : alookup block v.validation_states = none)
    (hmiss : ¬ collectMap block.deploys_and_transfers_iter = []) :
    handle_event v (.request block era height sender responder) =
      ({ v with
          validation_states :=
                ainsert block
                  ⟨AppendableBlock.new v.deploy_config block.timestamp,
                    collectMap block.deploys_and_transfers_iter, [responder]⟩
                  (ainsert block
                    ⟨AppendableBlock.new v.deploy_config block.timestamp,
                      collectMap block.deploys_and_transfers_iter, []⟩
                    v.validation_states),
          in_flight := (collectMap block.deploys_and_transfers_iter).foldl
                (fun c p => c.inc p.1.toDeployHash) v.in_flight },
        (collectMap block.deploys_and_transfers_iter).map
            (fun p => Effect.fetch p.1 sender) ++
          [.collect_past_blocks (height - v.signature_rewards_max_delay) height]) := by
  rw [handle_event]
  dsimp only
  rw [if_neg hd, if_neg ht, if_neg hnz, if_neg hlen, hlook]
  dsimp only
  rw [if_neg hmiss]
  rfl

/-- A request that passes the structural checks and finds a state with a
nonempty missing set appends its responder to that state, increments the
counter per hash, and emits one fetch per hash plus the past-blocks query —
regardless of the counts already in flight. -/
theorem request_registered (v : BlockValidator) (block : ProposedBlock)
    (era height sender responder : Nat) (st : BlockValidationState)
    (hd : ¬ v.deploy_config.block_max_deploy_count < block.deploys.length)
    (ht : ¬ v.deploy_config.block_max_transfer_count < block.transfers.length)
    (hnz : ¬ block.deploys.length + block.transfers.length = 0)
    (hlen : ¬ (collectMap block.deploys_and_transfers_iter).length
        ≠ block.deploys.length + block.transfers.length)
    (hlook : alookup block v.validation_states = some st)
    (hmiss : ¬ st.missing_deploys = []) :
    handle_event v (.request block era height sender responder) =
      ({ v with
          validation_states :=
                ainsert block { st with responders := st.responders ++ [responder] }
                  v.validation_states,
          in_flight := (collectMap block.deploys_and_transfers_iter).foldl
                (fun c p => c.inc p.1.toDeployHash) v.in_flight },
        (collectMap block.deploys_and_transfers_iter).map
            (fun p => Effect.fetch p.1 sender) ++
          [.collect_past_blocks (height - v.signature_rewards_max_delay) height]) := by
  rw [handle_event]
  dsimp only
  rw [if_neg hd, if_neg ht, if_neg hnz, if_neg hlen, hlook]
  dsimp only
  rw [if_neg hmiss]

end Casper

namespace Casper

/-! ## Claim C9: duplicate hashes — rejection, logging, and the cross-kind gap -/

/-- C9 counterexample: a proposal listing hash 5 once as a deploy and once as
a transfer is **not** rejected as a duplicate — the duplicate check keys on
the tagged `DeployOrTransferHash`, so the request proceeds to fan out fetches
(and sends no response at all in this step). -/
theorem crosskind_duplicate_not_rejected :
    (handle_event (BlockValidator.new ⟨10, 10, 100⟩ 2)
        (.request ⟨0, [(5, 0)], [(5, 1)]⟩ 1 9 7 0)).2 =
      [.fetch (.deploy 5) 7, .fetch (.transfer 5) 7, .collect_past_blocks 7 9] := rfl

/-- **C9** (amended): a proposal in which the same *tagged* transaction hash
occurs twice — twice in the deploy list or twice in the transfer list — is
answered `false` with no fetch and no state change, and the emitted log
carries the sender id together with every duplicated hash and its
multiplicity.  (A hash appearing once as a deploy and once as a transfer is
not treated as a duplicate; see the counterexample.) -/
theorem duplicate_rejected_and_logged (v : BlockValidator) (block : ProposedBlock)
    (era height sender responder : Nat)
    (hd : ¬ v.deploy_config.block_max_deploy_count < block.deploys.length)
    (ht : ¬ v.deploy_config.block_max_transfer_count < block.transfers.length)
    (hdup : ¬ (block.deploys_and_transfers_iter.map Prod.fst).Nodup) :
    handle_event v (.request block era height sender responder) =
      (v, [.log_duplicates sender (duplicatesOf block), .respond [responder] false]) ∧
    ∀ k, 2 ≤ countKey k block.deploys_and_transfers_iter →
      (countKey k block.deploys_and_transfers_iter, k) ∈ duplicatesOf block := by
  constructor
  · have hnz : ¬ (block.deploys.length + block.transfers.length = 0) := by
      intro h0
      apply hdup
      have h1 : block.deploys = [] := List.length_eq_zero.mp (by omega)
      have h2 : block.transfers = [] := List.length_eq_zero.mp (by omega)
      simp [ProposedBlock.deploys_and_transfers_iter, h1, h2]
    exact request_dup_eq v block era height sender responder hd ht hnz (by
      rw [← deploys_and_transfers_iter_length]
      exact collectMap_length_ne_of_dup hdup)
  · intro k hk
    exact mem_duplicatesOf hk

/-- Witness for C9 (amended) at a concrete input: hash 5 listed twice in the
deploy list is rejected, and the log records multiplicity 2 for it. -/
theorem duplicate_rejected_and_logged_witness :
    handle_event (BlockValidator.new ⟨10, 10, 100⟩ 2)
        (.request ⟨0, [(5, 0), (5, 1)], []⟩ 1 9 7 0) =
      (BlockValidator.new ⟨10, 10, 100⟩ 2,
        [.log_duplicates 7 (duplicatesOf ⟨0, [(5, 0), (5, 1)], []⟩),
          .respond [0] false]) ∧
    (2, DtHash.deploy 5) ∈ duplicatesOf ⟨0, [(5, 0), (5, 1)], []⟩ := by
  have h := duplicate_rejected_and_logged (BlockValidator.new ⟨10, 10, 100⟩ 2)
    ⟨0, [(5, 0), (5, 1)], []⟩ 1 9 7 0 (by decide) (by decide) (by decide)
  exact ⟨h.1, h.2 (.deploy 5) (by decide)⟩

/-! ## Claim C2: the keyed counter and concurrent fetch fan-out -/

/-- Whether an effect is a fetch of the given tagged hash (any peer). -/
def isFetchOf (d : DtHash) : Effect → Bool
  | .fetch d2 _ => d2 = d
  | _ => false

/-- The number of fetch effects for a tagged hash in an effect list. -/
def countFetches (d : DtHash) (effs : List Effect) : Nat :=
  (effs.filter (isFetchOf d)).length

theorem countFetches_fanout (d : DtHash) (sender : NodeId)
    (l : List (DtHash × Approvals)) (lo hi : Nat) :
    countFetches d (l.map (fun p => Effect.fetch p.1 sender) ++
        [.collect_past_blocks lo hi]) =
      (l.filter (fun p => p.1 = d)).length := by
  induction l with
  | nil => rfl
  | cons p rest ih =>
    unfold countFetches at ih ⊢
    rw [List.map_cons, List.cons_append, List.filter_cons, List.filter_cons]
    have hfe : isFetchOf d (Effect.fetch p.1 sender) = decide (p.1 = d) := rfl
    rw [hfe]
    by_cases hp : p.1 = d
    · rw [if_pos (by simpa using hp), if_pos (by simpa using hp),
        List.length_cons, List.length_cons, ih]
    · rw [if_neg (by simpa using hp), if_neg (by simpa using hp)]
      exact ih

theorem filter_key_singleton {l : List (DtHash × Approvals)} {d : DtHash}
    (hnd : (l.map Prod.fst).Nodup) (hd : d ∈ l.map Prod.fst) :
    (l.filter (fun p => p.1 = d)).length = 1 := by
  induction l with
  | nil => cases hd
  | cons p rest ih =>
    rw [List.map_cons, List.nodup_cons] at hnd
    rw [List.map_cons, List.mem_cons] at hd
    rw [List.filter_cons]
    rcases hd with rfl | hd2
    · have hrest : rest.filter (fun q => q.1 = p.1) = [] := by
        rw [List.filter_eq_nil_iff]
        intro q hq
        simp only [decide_eq_true_eq]
        intro hc
        exact hnd.1 (hc ▸ List.mem_map_of_mem Prod.fst hq)
      simp [hrest]
    · have hp : ¬ (p.1 = d) := fun hc => hnd.1 (hc ▸ hd2)
      rw [if_neg (by simpa using hp)]
      exact ih hnd.2 hd2

end Casper

namespace Casper

/-- C2 counterexample: after one `validate` call for a block needing deploy 5
the in-flight counter for hash 5 is already positive, yet a second concurrent
call for the same block schedules a new fetch for hash 5 — so two concurrent
calls issue two fetches per missing hash, not one. -/
theorem second_request_refetches_while_positive :
    (handle_event (BlockValidator.new ⟨10, 10, 100⟩ 2)
        (.request ⟨0, [(5, 0)], []⟩ 1 9 7 0)).1.in_flight 5 = 1 ∧
    (handle_event (handle_event (BlockValidator.new ⟨10, 10, 100⟩ 2)
        (.request ⟨0, [(5, 0)], []⟩ 1 9 7 0)).1
        (.request ⟨0, [(5, 0)], []⟩ 1 9 8 1)).2 =
      [.fetch (.deploy 5) 8, .collect_past_blocks 7 9] := ⟨rfl, rfl⟩

/-- **C2** (amended): the keyed counter does not gate fetching — each
`validate` call that registers interest schedules its own fetch per missing
hash, so two concurrent calls for the same proposal issue one fetch per hash
*each* (two in total), the second while the counter is already positive; the
counter records the number of attempts in flight, and the two calls coalesce
into a single validation state holding both responders. -/
theorem concurrent_requests_each_fetch (cfg : DeployConfig) (delay : Nat)
    (block : ProposedBlock) (era1 era2 height1 height2 sender1 sender2 r1 r2 : Nat)
    (hd : ¬ cfg.block_max_deploy_count < block.deploys.length)
    (ht : ¬ cfg.block_max_transfer_count < block.transfers.length)
    (hnz : ¬ block.deploys.length + block.transfers.length = 0)
    (hnodup : (block.deploys_and_transfers_iter.map Prod.fst).Nodup) :
    (∀ d ∈ block.deploys_and_transfers_iter.map Prod.fst,
      countFetches d (handle_event (BlockValidator.new cfg delay)
          (.request block era1 height1 sender1 r1)).2 = 1 ∧
      countFetches d (handle_event (handle_event (BlockValidator.new cfg delay)
          (.request block era1 height1 sender1 r1)).1
          (.request block era2 height2 sender2 r2)).2 = 1 ∧
      1 ≤ (handle_event (BlockValidator.new cfg delay)
          (.request block era1 height1 sender1 r1)).1.in_flight d.toDeployHash) ∧
    alookup block (handle_event (handle_event (BlockValidator.new cfg delay)
        (.request block era1 height1 sender1 r1)).1
        (.request block era2 height2 sender2 r2)).1.validation_states =
      some ⟨AppendableBlock.new cfg block.timestamp,
        collectMap block.deploys_and_transfers_iter, [r1, r2]⟩ := by
  have hiter : collectMap block.deploys_and_transfers_iter
      = block.deploys_and_transfers_iter := collectMap_eq_self hnodup
  have hlen : ¬ ((collectMap block.deploys_and_transfers_iter).length
      ≠ block.deploys.length + block.transfers.length) := by
    rw [hiter, deploys_and_transfers_iter_length]
    exact fun hc => hc rfl
  have hmiss : ¬ (collectMap block.deploys_and_transfers_iter = []) := by
    rw [hiter]
    intro hc
    exact hnz (by rw [← deploys_and_transfers_iter_length, hc]; rfl)
  have h1 := request_fresh (BlockValidator.new cfg delay) block era1 height1 sender1 r1
    hd ht hnz hlen rfl hmiss
  -- the state registered by the first request
  have hv1st : (handle_event (BlockValidator.new cfg delay)
      (.request block era1 height1 sender1 r1)).1.validation_states =
        [(block, ⟨AppendableBlock.new cfg block.timestamp,
          collectMap block.deploys_and_transfers_iter, [r1]⟩)] := by
    rw [h1]
    show ainsert block _ (ainsert block _ []) = _
    rw [ainsert, ainsert, if_pos rfl]
    rfl
  have hlook2 : alookup block (handle_event (BlockValidator.new cfg delay)
      (.request block era1 height1 sender1 r1)).1.validation_states =
        some ⟨AppendableBlock.new cfg block.timestamp,
          collectMap block.deploys_and_transfers_iter, [r1]⟩ := by
    rw [hv1st, alookup, if_pos rfl]
  have hcfg1 : (handle_event (BlockValidator.new cfg delay)
      (.request block era1 height1 sender1 r1)).1.deploy_config = cfg := by
    rw [h1]
    rfl
  have h2 := request_registered (handle_event (BlockValidator.new cfg delay)
      (.request block era1 height1 sender1 r1)).1 block era2 height2 sender2 r2
    ⟨AppendableBlock.new cfg block.timestamp,
      collectMap block.deploys_and_transfers_iter, [r1]⟩
    (by rw [hcfg1]; exact hd) (by rw [hcfg1]; exact ht) hnz hlen hlook2 hmiss
  refine ⟨?_, ?_⟩
  · intro d hdmem
    have hcount : (block.deploys_and_transfers_iter.filter
        (fun p => p.1 = d)).length = 1 := filter_key_singleton hnodup hdmem
    refine ⟨?_, ?_, ?_⟩
    · rw [h1]
      show countFetches d ((collectMap block.deploys_and_transfers_iter).map _ ++ _) = 1
      rw [countFetches_fanout, hiter, hcount]
    · rw [h2]
      show countFetches d ((collectMap block.deploys_and_transfers_iter).map _ ++ _) = 1
      rw [countFetches_fanout, hiter, hcount]
    · rw [h1]
      show 1 ≤ ((collectMap block.deploys_and_transfers_iter).foldl
        (fun c p => c.inc p.1.toDeployHash) (BlockValidator.new cfg delay).in_flight)
          d.toDeployHash
      rw [foldl_inc_apply, hiter]
      obtain ⟨p, hpl, hpd⟩ := List.mem_map.mp hdmem
      have hpmem : p ∈ block.deploys_and_transfers_iter.filter
          (fun q => q.1.toDeployHash = d.toDeployHash) :=
        List.mem_filter.mpr ⟨hpl, by simp [hpd]⟩
      have := List.length_pos.mpr (List.ne_nil_of_mem hpmem)
      omega
  · rw [h2]
    show alookup block (ainsert block _ _) = _
    rw [hv1st, ainsert, if_pos rfl, alookup, if_pos rfl]
    rfl

/-- Witness for C2 (amended) at a concrete input: a block with one deploy and
one transfer, validated twice concurrently. -/
theorem concurrent_requests_each_fetch_witness :
    (∀ d ∈ (ProposedBlock.mk 0 [(5, 0)] [(8, 0)]).deploys_and_transfers_iter.map Prod.fst,
      countFetches d (handle_event (BlockValidator.new ⟨10, 10, 100⟩ 2)
          (.request ⟨0, [(5, 0)], [(8, 0)]⟩ 1 9 7 0)).2 = 1 ∧
      countFetches d (handle_event (handle_event (BlockValidator.new ⟨10, 10, 100⟩ 2)
          (.request ⟨0, [(5, 0)], [(8, 0)]⟩ 1 9 7 0)).1
          (.request ⟨0, [(5, 0)], [(8, 0)]⟩ 1 9 8 1)).2 = 1 ∧
      1 ≤ (handle_event (BlockValidator.new ⟨10, 10, 100⟩ 2)
          (.request ⟨0, [(5, 0)], [(8, 0)]⟩ 1 9 7 0)).1.in_flight d.toDeployHash) ∧
    alookup ⟨0, [(5, 0)], [(8, 0)]⟩
        (handle_event (handle_event (BlockValidator.new ⟨10, 10, 100⟩ 2)
          (.request ⟨0, [(5, 0)], [(8, 0)]⟩ 1 9 7 0)).1
          (.request ⟨0, [(5, 0)], [(8, 0)]⟩ 1 9 8 1)).1.validation_states =
      some ⟨AppendableBlock.new ⟨10, 10, 100⟩ 0,
        collectMap (ProposedBlock.mk 0 [(5, 0)] [(8, 0)]).deploys_and_transfers_iter,
        [0, 1]⟩ :=
  concurrent_requests_each_fetch ⟨10, 10, 100⟩ 2 ⟨0, [(5, 0)], [(8, 0)]⟩ 1 1 9 9 7 8 0 1
    (by decide) (by decide) (by decide) (by decide)

end Casper

namespace Casper

/-! ## Claim C1: traces of the reactor, pending fetches and responses

A system state pairs the validator with the multiset of in-flight fetches
(one entry per issued fetch effect) and the response batches fired so far.
A deploy event is admissible only when it resolves one pending fetch of its
hash — the reactor delivers exactly one `DeployFound` / `DeployMissing` /
`CannotConvertDeploy` per issued fetch, in any order.  The
`GotPastBlockWithMetadata` event is not modelled (its handler ends in
`todo!()`), and the claim under study quantifies only over the three deploy
events. -/

structure Sys where
  validator : BlockValidator
  pending : List DtHash
  fired : List (List Nat × Bool)

/-- The response batches of an effect list, in order. -/
def respondBatches : List Effect → List (List Nat × Bool)
  | [] => []
  | .respond ids b :: rest => (ids, b) :: respondBatches rest
  | .fetch _ _ :: rest => respondBatches rest
  | .collect_past_blocks _ _ :: rest => respondBatches rest
  | .log_duplicates _ _ :: rest => respondBatches rest

/-- The fetched hashes of an effect list, in order. -/
def fetchList : List Effect → List DtHash
  | [] => []
  | .fetch d _ :: rest => d :: fetchList rest
  | .respond _ _ :: rest => fetchList rest
  | .collect_past_blocks _ _ :: rest => fetchList rest
  | .log_duplicates _ _ :: rest => fetchList rest

/-- The hash a deploy event resolves, if any. -/
def eventHash : Event → Option DtHash
  | .request _ _ _ _ _ => none
  | .deployFound d _ => some d
  | .deployMissing d => some d
  | .cannotConvertDeploy d => some d

/-- One reactor step: a deploy event must consume one pending fetch of its
hash; the handler's new fetches join the pending multiset and its responses
are appended to the fired list. -/
def sysStep (s : Sys) (ev : Event) : Option Sys :=
  match eventHash ev with
  | none =>
    some ⟨(handle_event s.validator ev).1,
      s.pending ++ fetchList (handle_event s.validator ev).2,
      s.fired ++ respondBatches (handle_event s.validator ev).2⟩
  | some d =>
    if d ∈ s.pending then
      some ⟨(handle_event s.validator ev).1,
        s.pending.erase d ++ fetchList (handle_event s.validator ev).2,
        s.fired ++ respondBatches (handle_event s.validator ev).2⟩
    else none

/-- Running a trace of events from a system state. -/
def runTrace (s : Sys) : List Event → Option Sys
  | [] => some s
  | ev :: rest =>
    match sysStep s ev with
    | none => none
    | some s2 => runTrace s2 rest

/-- The idle initial system. -/
def initSys (cfg : DeployConfig) (delay : Nat) : Sys :=
  ⟨BlockValidator.new cfg delay, [], []⟩

/-- Whether an event concerns only the proposal `p` (deploy events always do;
requests must carry `p`). -/
def eventForBlock (p : ProposedBlock) : Event → Bool
  | .request q _ _ _ _ => q = p
  | _ => true

/-- The responder of a request event. -/
def ridOf : Event → Option Nat
  | .request _ _ _ _ r => some r
  | _ => none

/-- The responders registered by a trace, in order. -/
def traceRids (tr : List Event) : List Nat := tr.filterMap ridOf

/-- All responders pending in the table. -/
def pendingResponders (s : Sys) : List Nat :=
  (s.validator.validation_states.map (fun e => e.2.responders)).flatten

/-- All responder ids fired so far. -/
def firedIds (s : Sys) : List Nat := (s.fired.map Prod.fst).flatten

/-- Every responder the system has seen: fired or still pending. -/
def regIds (s : Sys) : List Nat := firedIds s ++ pendingResponders s

/-- Two responders sit together: in one state's responder list, or in one
fired batch (hence with one shared boolean). -/
def togetherIn (s : Sys) (r1 r2 : Nat) : Prop :=
  (∃ e ∈ s.validator.validation_states, r1 ∈ e.2.responders ∧ r2 ∈ e.2.responders) ∨
  (∃ b ∈ s.fired, r1 ∈ b.1 ∧ r2 ∈ b.1)

/-- The kind-disjointness hypothesis: among the proposal's tagged hashes, the
untagged hash determines the tag (no hash is listed both as a deploy and as a
transfer). -/
def untagInjective (p : ProposedBlock) : Prop :=
  ∀ d1 ∈ (collectMap p.deploys_and_transfers_iter).map Prod.fst,
    ∀ d2 ∈ (collectMap p.deploys_and_transfers_iter).map Prod.fst,
      d1.toDeployHash = d2.toDeployHash → d1 = d2

/-- The reachable-state invariant for a single-proposal workload. -/
structure Inv (cfg : DeployConfig) (p : ProposedBlock) (s : Sys) : Prop where
  cfg_eq : s.validator.deploy_config = cfg
  table : s.validator.validation_states = [] ∨
    ∃ st, s.validator.validation_states = [(p, st)] ∧ st.missing_deploys ≠ [] ∧
      (st.missing_deploys.map Prod.fst).Nodup ∧
      ∀ d ∈ st.missing_deploys.map Prod.fst, d ∈ s.pending
  pendingKeys : ∀ d ∈ s.pending,
    d ∈ (collectMap p.deploys_and_transfers_iter).map Prod.fst
  counter : ∀ h, s.validator.in_flight h =
    (s.pending.filter (fun d => d.toDeployHash = h)).length

end Casper

namespace Casper

/-! ## Small list lemmas for the trace invariant -/

theorem mem_iff_filter_pos {α : Type} [DecidableEq α] {d : α} {l : List α} :
    d ∈ l ↔ 0 < (l.filter (fun x => x = d)).length := by
  constructor
  · intro h
    have hm : d ∈ l.filter (fun x => x = d) := List.mem_filter.mpr ⟨h, by simp⟩
    exact List.length_pos.mpr (List.ne_nil_of_mem hm)
  · intro h
    obtain ⟨x, hx⟩ := List.exists_mem_of_length_pos h
    obtain ⟨hxl, hxd⟩ := List.mem_filter.mp hx
    have hx2 : x = d := by simpa using hxd
    exact hx2 ▸ hxl

theorem length_filter_erase {α : Type} [DecidableEq α] {l : List α} {d : α}
    (hd : d ∈ l) (q : α → Bool) :
    ((l.erase d).filter q).length =
      (l.filter q).length - (if q d = true then 1 else 0) := by
  induction l with
  | nil => cases hd
  | cons x rest ih =>
    by_cases hx : x = d
    · subst hx
      rw [List.erase_cons_head, List.filter_cons]
      cases hq : q x
      · simp [hq]
      · simp [hq]
    · have hd2 : d ∈ rest := by
        rcases List.mem_cons.mp hd with rfl | h2
        · exact absurd rfl hx
        · exact h2
      rw [List.erase_cons_tail (by simpa using hx), List.filter_cons, List.filter_cons]
      have hge : (if q d = true then 1 else 0) ≤ (rest.filter q).length := by
        cases hqd : q d
        · simp
        · have : d ∈ rest.filter q := List.mem_filter.mpr ⟨hd2, hqd⟩
          have := List.length_pos.mpr (List.ne_nil_of_mem this)
          simpa using this
      cases hq : q x
      · simpa [hq] using ih hd2
      · have hih := ih hd2
        simp only [hq] at hih ⊢
        simp [hih]
        omega

theorem acontains_iff_mem_keys {α β : Type} [DecidableEq α] {k : α} {m : List (α × β)} :
    acontains k m = true ↔ k ∈ m.map Prod.fst := by
  induction m with
  | nil => simp [acontains, alookup]
  | cons p rest ih =>
    unfold acontains alookup
    by_cases hp : p.1 = k
    · simp [hp]
    · rw [if_neg hp]
      unfold acontains at ih
      rw [ih, List.map_cons, List.mem_cons]
      constructor
      · exact Or.inr
      · rintro (rfl | h2)
        · exact absurd rfl hp
        · exact h2

theorem keys_aremove_sublist {α β : Type} [DecidableEq α] (k : α) (m : List (α × β)) :
    ((aremove k m).map Prod.fst).Sublist (m.map Prod.fst) := by
  induction m with
  | nil => simp [aremove]
  | cons p rest ih =>
    rw [aremove]
    by_cases hp : p.1 = k
    · rw [if_pos hp, List.map_cons]
      exact (List.sublist_cons_self _ _)
    · rw [if_neg hp, List.map_cons, List.map_cons]
      exact ih.cons₂ p.1

theorem mem_keys_aremove {α β : Type} [DecidableEq α] {m : List (α × β)} {k a : α}
    (hnd : (m.map Prod.fst).Nodup) :
    a ∈ (aremove k m).map Prod.fst ↔ a ∈ m.map Prod.fst ∧ a ≠ k := by
  induction m with
  | nil => simp [aremove]
  | cons p rest ih =>
    rw [List.map_cons, List.nodup_cons] at hnd
    rw [aremove]
    by_cases hp : p.1 = k
    · subst hp
      rw [if_pos rfl, List.map_cons, List.mem_cons]
      constructor
      · intro h2
        exact ⟨Or.inr h2, fun hc => hnd.1 (hc ▸ h2)⟩
      · rintro ⟨rfl | h2, hne⟩
        · exact absurd rfl hne
        · exact h2
    · rw [if_neg hp, List.map_cons, List.map_cons, List.mem_cons, List.mem_cons,
        ih hnd.2]
      constructor
      · rintro (rfl | ⟨h2, hne⟩)
        · exact ⟨Or.inl rfl, fun hc => hp hc⟩
        · exact ⟨Or.inr h2, hne⟩
      · rintro ⟨rfl | h2, hne⟩
        · exact Or.inl rfl
        · exact Or.inr ⟨h2, hne⟩

theorem fetchList_fanout (sender : NodeId) (lo hi : Nat) (l : List (DtHash × Approvals)) :
    fetchList (l.map (fun p => Effect.fetch p.1 sender) ++
      [.collect_past_blocks lo hi]) = l.map Prod.fst := by
  induction l with
  | nil => rfl
  | cons p rest ih => rw [List.map_cons, List.cons_append, fetchList, ih, List.map_cons]

theorem respondBatches_fanout (sender : NodeId) (lo hi : Nat)
    (l : List (DtHash × Approvals)) :
    respondBatches (l.map (fun p => Effect.fetch p.1 sender) ++
      [.collect_past_blocks lo hi]) = [] := by
  induction l with
  | nil => rfl
  | cons p rest ih => rw [List.map_cons, List.cons_append, respondBatches, ih]

end Casper

namespace Casper

theorem dec_counter_eq {pend : List DtHash} {c : KeyedCounter} {d : DtHash}
    (hd : d ∈ pend)
    (hc : ∀ h, c h = (pend.filter (fun x => x.toDeployHash = h)).length) :
    ∀ h, (c.dec d.toDeployHash).2 h =
      ((pend.erase d).filter (fun x => x.toDeployHash = h)).length := by
  intro h
  show (if h = d.toDeployHash then c d.toDeployHash - 1 else c h) = _
  rw [length_filter_erase hd (fun x => x.toDeployHash = h)]
  by_cases hh : h = d.toDeployHash
  · subst hh
    simp [hc]
  · have hne : ¬ (d.toDeployHash = h) := fun hx => hh hx.symm
    rw [if_neg hh, hc]
    simp [hne]

theorem pending_count_self {p : ProposedBlock} {pend : List DtHash} {d : DtHash}
    (huntag : untagInjective p)
    (hpk : ∀ x ∈ pend, x ∈ (collectMap p.deploys_and_transfers_iter).map Prod.fst)
    (hd : d ∈ pend) :
    pend.filter (fun x => x.toDeployHash = d.toDeployHash) =
      pend.filter (fun x => x = d) := by
  apply List.filter_congr
  intro x hx
  by_cases hxd : x = d
  · simp [hxd]
  · have hne : ¬ (x.toDeployHash = d.toDeployHash) :=
      fun hc => hxd (huntag x (hpk x hx) d (hpk d hd) hc)
    simp [hxd, hne]

theorem mem_erase_of_two {pend : List DtHash} {d : DtHash}
    (hd : d ∈ pend) (hlen : 2 ≤ (pend.filter (fun x => x = d)).length) :
    d ∈ pend.erase d := by
  rw [mem_iff_filter_pos, length_filter_erase hd]
  have hcond : ((fun x => decide (x = d)) d = true) := by simp
  rw [if_pos hcond]
  omega

theorem foundUpdate_of_contains {d : DtHash} {fp : DeployFootprint}
    {e : ProposedBlock × BlockValidationState} {approvals : Approvals}
    (h : alookup d e.2.missing_deploys = some approvals) :
    foundUpdate d fp e =
      match addToBlock d e.2.appendable_block approvals fp with
      | some ab => ((e.1, ⟨ab, aremove d e.2.missing_deploys, e.2.responders⟩), false)
      | none => ((e.1,
          ⟨e.2.appendable_block, aremove d e.2.missing_deploys, e.2.responders⟩), true) := by
  unfold foundUpdate
  rw [h]

theorem perm_mid (a b c : List Nat) : ((a ++ b) ++ c).Perm ((a ++ c) ++ b) := by
  rw [List.append_assoc, List.append_assoc]
  exact List.Perm.append_left a List.perm_append_comm

/-- A step that leaves the validator alone, consumes nothing, and fires one
fresh singleton batch preserves the invariant and books the responder. -/
theorem reject_step (cfg : DeployConfig) (p : ProposedBlock) {s : Sys}
    (hinv : Inv cfg p s) (rid : Nat) (b : Bool) :
    Inv cfg p ⟨s.validator, s.pending, s.fired ++ [([rid], b)]⟩ ∧
    (regIds ⟨s.validator, s.pending, s.fired ++ [([rid], b)]⟩).Perm (regIds s ++ [rid]) ∧
    (∀ r1 r2, togetherIn s r1 r2 →
      togetherIn ⟨s.validator, s.pending, s.fired ++ [([rid], b)]⟩ r1 r2) := by
  refine ⟨⟨hinv.cfg_eq, ?_, hinv.pendingKeys, hinv.counter⟩, ?_, ?_⟩
  · rcases hinv.table with h | ⟨st, hst, hne, hnd, hsub⟩
    · exact Or.inl h
    · exact Or.inr ⟨st, hst, hne, hnd, hsub⟩
  · show (firedIds ⟨s.validator, s.pending, s.fired ++ [([rid], b)]⟩ ++
      pendingResponders s).Perm ((firedIds s ++ pendingResponders s) ++ [rid])
    have hfi : firedIds ⟨s.validator, s.pending, s.fired ++ [([rid], b)]⟩ =
        firedIds s ++ [rid] := by
      simp [firedIds]
    rw [hfi]
    exact perm_mid (firedIds s) [rid] (pendingResponders s)
  · intro r1 r2 htog
    rcases htog with ⟨e, he, h1, h2⟩ | ⟨bb, hb, h1, h2⟩
    · exact Or.inl ⟨e, he, h1, h2⟩
    · exact Or.inr ⟨bb, List.mem_append_left _ hb, h1, h2⟩

/-- The invariant step for a request event carrying the proposal `p`. -/
theorem inv_step_request {cfg : DeployConfig} {p : ProposedBlock} {s s2 : Sys}
    (hinv : Inv cfg p s) (era height sender rid : Nat)
    (hstep : sysStep s (.request p era height sender rid) = some s2) :
    Inv cfg p s2 ∧ (regIds s2).Perm (regIds s ++ [rid]) ∧
    (∀ r1 r2, togetherIn s r1 r2 → togetherIn s2 r1 r2) := by
  rw [sysStep] at hstep
  dsimp only [eventHash] at hstep
  obtain rfl : s2 = ⟨(handle_event s.validator (.request p era height sender rid)).1,
      s.pending ++ fetchList (handle_event s.validator (.request p era height sender rid)).2,
      s.fired ++ respondBatches
        (handle_event s.validator (.request p era height sender rid)).2⟩ :=
    (Option.some.inj hstep).symm
  by_cases hd : s.validator.deploy_config.block_max_deploy_count < p.deploys.length
  · rw [request_oversize_eq s.validator p era height sender rid (Or.inl hd)]
    simpa [fetchList, respondBatches] using reject_step cfg p hinv rid false
  · by_cases ht : s.validator.deploy_config.block_max_transfer_count < p.transfers.length
    · rw [request_oversize_eq s.validator p era height sender rid (Or.inr ht)]
      simpa [fetchList, respondBatches] using reject_step cfg p hinv rid false
    · by_cases hz : p.deploys.length + p.transfers.length = 0
      · rw [request_empty_eq s.validator p era height sender rid hd ht hz]
        simpa [fetchList, respondBatches] using reject_step cfg p hinv rid true
      · by_cases hdup : (collectMap p.deploys_and_transfers_iter).length
            ≠ p.deploys.length + p.transfers.length
        · rw [request_dup_eq s.validator p era height sender rid hd ht hz hdup]
          simpa [fetchList, respondBatches] using reject_step cfg p hinv rid false
        · -- the accepted path: fresh or registered
          have hmiss : ¬ collectMap p.deploys_and_transfers_iter = [] := by
            intro hc
            rw [not_not] at hdup
            rw [hc] at hdup
            exact hz hdup.symm
          rcases hinv.table with hT | ⟨st, hT, hne, hnd, hsub⟩
          · -- fresh state
            have hlook : alookup p s.validator.validation_states = none := by
              rw [hT]; rfl
            rw [request_fresh s.validator p era height sender rid hd ht hz hdup hlook hmiss,
              hT]
            refine ⟨⟨hinv.cfg_eq, ?_, ?_, ?_⟩, ?_, ?_⟩
            · refine Or.inr ⟨⟨AppendableBlock.new s.validator.deploy_config p.timestamp,
                collectMap p.deploys_and_transfers_iter, [rid]⟩, ?_, hmiss,
                collectMap_keys_nodup _, ?_⟩
              · show ainsert p _ (ainsert p _ []) = _
                rw [ainsert, ainsert, if_pos rfl]
              · intro d hdm
                rw [fetchList_fanout]
                exact List.mem_append_right _ hdm
            · intro d hdm
              rw [fetchList_fanout] at hdm
              rcases List.mem_append.mp hdm with h1 | h2
              · exact hinv.pendingKeys d h1
              · exact h2
            · intro h
              show ((collectMap p.deploys_and_transfers_iter).foldl
                (fun c q => c.inc q.1.toDeployHash) s.validator.in_flight) h = _
              rw [foldl_inc_apply, fetchList_fanout, List.filter_append,
                List.length_append, hinv.counter h, List.filter_map, List.length_map]
              rfl
            · apply List.Perm.of_eq
              simp [regIds, firedIds, pendingResponders, respondBatches_fanout,
                ainsert, hT]
            · intro r1 r2 htog
              rcases htog with ⟨e, he, _, _⟩ | ⟨bb, hb, h1, h2⟩
              · rw [hT] at he
                cases he
              · refine Or.inr ⟨bb, ?_, h1, h2⟩
                rw [respondBatches_fanout]
                simpa using hb
          · -- registered state
            have hlook : alookup p s.validator.validation_states = some st := by
              rw [hT, alookup, if_pos rfl]
            rw [request_registered s.validator p era height sender rid st hd ht hz hdup
              hlook hne, hT]
            have hstates : ainsert p { st with responders := st.responders ++ [rid] }
                [(p, st)] = [(p, { st with responders := st.responders ++ [rid] })] := by
              rw [ainsert, if_pos rfl]
            refine ⟨⟨hinv.cfg_eq, ?_, ?_, ?_⟩, ?_, ?_⟩
            · refine Or.inr ⟨{ st with responders := st.responders ++ [rid] }, hstates,
                hne, hnd, ?_⟩
              intro d hdm
              rw [fetchList_fanout]
              exact List.mem_append_left _ (hsub d hdm)
            · intro d hdm
              rw [fetchList_fanout] at hdm
              rcases List.mem_append.mp hdm with h1 | h2
              · exact hinv.pendingKeys d h1
              · exact h2
            · intro h
              show ((collectMap p.deploys_and_transfers_iter).foldl
                (fun c q => c.inc q.1.toDeployHash) s.validator.in_flight) h = _
              rw [foldl_inc_apply, fetchList_fanout, List.filter_append,
                List.length_append, hinv.counter h, List.filter_map, List.length_map]
              rfl
            · apply List.Perm.of_eq
              simp [regIds, firedIds, pendingResponders, respondBatches_fanout,
                ainsert, hT]
            · intro r1 r2 htog
              rcases htog with ⟨e, he, h1, h2⟩ | ⟨bb, hb, h1, h2⟩
              · rw [hT] at he
                rcases List.mem_cons.mp he with rfl | hc
                · refine Or.inl ⟨(p, { st with responders := st.responders ++ [rid] }),
                    ?_, List.mem_append_left _ h1, List.mem_append_left _ h2⟩
                  rw [hstates]
                  exact List.mem_cons_self _ _
                · cases hc
              · refine Or.inr ⟨bb, ?_, h1, h2⟩
                rw [respondBatches_fanout]
                simpa using hb

end Casper

namespace Casper

/-- The invariant step for a `DeployFound` event. -/
theorem inv_step_found {cfg : DeployConfig} {p : ProposedBlock} {s s2 : Sys}
    (hinv : Inv cfg p s) (d : DtHash) (fp : DeployFootprint)
    (hstep : sysStep s (.deployFound d fp) = some s2) :
    Inv cfg p s2 ∧ (regIds s2).Perm (regIds s) ∧
    (∀ r1 r2, togetherIn s r1 r2 → togetherIn s2 r1 r2) := by
  rw [sysStep] at hstep
  dsimp only [eventHash] at hstep
  by_cases hd : d ∈ s.pending
  case neg => rw [if_neg hd] at hstep; cases hstep
  rw [if_pos hd] at hstep
  obtain rfl : s2 = _ := (Option.some.inj hstep).symm
  rw [handle_found_eq]
  have hcnt := dec_counter_eq hd hinv.counter
  rcases hinv.table with hT | ⟨st, hT, hne, hnd, hsub⟩
  · -- empty table: nothing to update
    rw [hT]
    simp only [List.map_nil, List.filter_nil, sweepFound]
    refine ⟨⟨hinv.cfg_eq, Or.inl rfl, ?_, ?_⟩, ?_, ?_⟩
    · intro x hx
      simp only [fetchList, List.append_nil] at hx
      exact hinv.pendingKeys x (List.mem_of_mem_erase hx)
    · intro h
      simp only [fetchList, List.append_nil]
      exact hcnt h
    · apply List.Perm.of_eq
      simp [regIds, firedIds, pendingResponders, respondBatches, hT]
    · intro r1 r2 htog
      rcases htog with ⟨e, he, _, _⟩ | ⟨bb, hb, h1, h2⟩
      · rw [hT] at he
        cases he
      · exact Or.inr ⟨bb, List.mem_append_left _ hb, h1, h2⟩
  · rw [hT]
    by_cases hcont : acontains d st.missing_deploys = true
    · -- the state holds the hash: cross it off and admit
      obtain ⟨approvals, halk⟩ : ∃ a, alookup d st.missing_deploys = some a := by
        unfold acontains at hcont
        exact Option.isSome_iff_exists.mp hcont
      have hfu := @foundUpdate_of_contains d fp (p, st) approvals halk
      cases haddr : addToBlock d st.appendable_block approvals fp with
      | none =>
        -- admission failed: the state is invalid, responds false and leaves
        rw [haddr] at hfu
        simp only [List.map_cons, List.map_nil, hfu]
        have hsweep : sweepFound
            ((List.filter (fun r => r.2)
              [((p, (⟨st.appendable_block, aremove d st.missing_deploys,
                st.responders⟩ : BlockValidationState)), true)]).map (fun r => r.1.1))
            [((p, (⟨st.appendable_block, aremove d st.missing_deploys,
              st.responders⟩ : BlockValidationState)), true)] =
            ([], [.respond st.responders false]) := by
          simp [sweepFound]
        rw [hsweep]
        refine ⟨⟨hinv.cfg_eq, Or.inl rfl, ?_, ?_⟩, ?_, ?_⟩
        · intro x hx
          simp only [fetchList, List.append_nil] at hx
          exact hinv.pendingKeys x (List.mem_of_mem_erase hx)
        · intro h
          simp only [fetchList, List.append_nil]
          exact hcnt h
        · apply List.Perm.of_eq
          simp [regIds, firedIds, pendingResponders, respondBatches, hT]
        · intro r1 r2 htog
          rcases htog with ⟨e, he, h1, h2⟩ | ⟨bb, hb, h1, h2⟩
          · rw [hT] at he
            rcases List.mem_cons.mp he with rfl | hc
            · exact Or.inr ⟨(st.responders, false),
                List.mem_append_right _ (by simp [respondBatches]), h1, h2⟩
            · cases hc
          · exact Or.inr ⟨bb, List.mem_append_left _ hb, h1, h2⟩
      | some ab =>
        rw [haddr] at hfu
        simp only [List.map_cons, List.map_nil, hfu]
        by_cases hrem : aremove d st.missing_deploys = []
        · -- the state is complete: responds true and leaves
          have hsweep : sweepFound
              ((List.filter (fun r => r.2)
                [((p, (⟨ab, aremove d st.missing_deploys, st.responders⟩ :
                  BlockValidationState)), false)]).map (fun r => r.1.1))
              [((p, (⟨ab, aremove d st.missing_deploys, st.responders⟩ :
                BlockValidationState)), false)] =
              ([], [.respond st.responders true]) := by
            simp [sweepFound, hrem]
          rw [hsweep]
          refine ⟨⟨hinv.cfg_eq, Or.inl rfl, ?_, ?_⟩, ?_, ?_⟩
          · intro x hx
            simp only [fetchList, List.append_nil] at hx
            exact hinv.pendingKeys x (List.mem_of_mem_erase hx)
          · intro h
            simp only [fetchList, List.append_nil]
            exact hcnt h
          · apply List.Perm.of_eq
            simp [regIds, firedIds, pendingResponders, respondBatches, hT]
          · intro r1 r2 htog
            rcases htog with ⟨e, he, h1, h2⟩ | ⟨bb, hb, h1, h2⟩
            · rw [hT] at he
              rcases List.mem_cons.mp he with rfl | hc
              · exact Or.inr ⟨(st.responders, true),
                  List.mem_append_right _ (by simp [respondBatches]), h1, h2⟩
              · cases hc
            · exact Or.inr ⟨bb, List.mem_append_left _ hb, h1, h2⟩
        · -- still missing deploys: the state is kept with the hash crossed off
          have hsweep : sweepFound
              ((List.filter (fun r => r.2)
                [((p, (⟨ab, aremove d st.missing_deploys, st.responders⟩ :
                  BlockValidationState)), false)]).map (fun r => r.1.1))
              [((p, (⟨ab, aremove d st.missing_deploys, st.responders⟩ :
                BlockValidationState)), false)] =
              ([(p, (⟨ab, aremove d st.missing_deploys, st.responders⟩ :
                BlockValidationState))], []) := by
            simp [sweepFound, hrem]
          rw [hsweep]
          refine ⟨⟨hinv.cfg_eq, ?_, ?_, ?_⟩, ?_, ?_⟩
          · refine Or.inr ⟨⟨ab, aremove d st.missing_deploys, st.responders⟩, rfl,
              hrem, (keys_aremove_sublist d st.missing_deploys).nodup hnd, ?_⟩
            intro x hx
            obtain ⟨hx1, hx2⟩ := (mem_keys_aremove hnd).mp hx
            simp only [fetchList, List.append_nil]
            exact (List.mem_erase_of_ne hx2).mpr (hsub x hx1)
          · intro x hx
            simp only [fetchList, List.append_nil] at hx
            exact hinv.pendingKeys x (List.mem_of_mem_erase hx)
          · intro h
            simp only [fetchList, List.append_nil]
            exact hcnt h
          · apply List.Perm.of_eq
            simp [regIds, firedIds, pendingResponders, respondBatches, hT]
          · intro r1 r2 htog
            rcases htog with ⟨e, he, h1, h2⟩ | ⟨bb, hb, h1, h2⟩
            · rw [hT] at he
              rcases List.mem_cons.mp he with rfl | hc
              · exact Or.inl ⟨(p, ⟨ab, aremove d st.missing_deploys, st.responders⟩),
                  List.mem_cons_self _ _, h1, h2⟩
              · cases hc
            · exact Or.inr ⟨bb, List.mem_append_left _ hb, h1, h2⟩
    · -- the state does not hold the hash: untouched
      have hcont2 : acontains d st.missing_deploys = false := by
        cases hc : acontains d st.missing_deploys
        · rfl
        · exact absurd hc hcont
      have hfu := @foundUpdate_of_not_contains d fp (p, st) hcont2
      simp only [List.map_cons, List.map_nil, hfu]
      have hsweep : sweepFound
          ((List.filter (fun r => r.2) [((p, st), false)]).map (fun r => r.1.1))
          [((p, st), false)] = ([(p, st)], []) := by
        simp [sweepFound, hne]
      rw [hsweep]
      have hdnotin : d ∉ st.missing_deploys.map Prod.fst := by
        intro hc
        rw [← acontains_iff_mem_keys] at hc
        exact hcont hc
      refine ⟨⟨hinv.cfg_eq, ?_, ?_, ?_⟩, ?_, ?_⟩
      · refine Or.inr ⟨st, rfl, hne, hnd, ?_⟩
        intro x hx
        simp only [fetchList, List.append_nil]
        have hxd : x ≠ d := fun hc => hdnotin (hc ▸ hx)
        exact (List.mem_erase_of_ne hxd).mpr (hsub x hx)
      · intro x hx
        simp only [fetchList, List.append_nil] at hx
        exact hinv.pendingKeys x (List.mem_of_mem_erase hx)
      · intro h
        simp only [fetchList, List.append_nil]
        exact hcnt h
      · apply List.Perm.of_eq
        simp [regIds, firedIds, pendingResponders, respondBatches, hT]
      · intro r1 r2 htog
        rcases htog with ⟨e, he, h1, h2⟩ | ⟨bb, hb, h1, h2⟩
        · rw [hT] at he
          rcases List.mem_cons.mp he with rfl | hc
          · exact Or.inl ⟨(p, st), List.mem_cons_self _ _, h1, h2⟩
          · cases hc
        · exact Or.inr ⟨bb, List.mem_append_left _ hb, h1, h2⟩

end Casper

namespace Casper

theorem handle_cannot_eq (v : BlockValidator) (d : DtHash) :
    handle_event v (.cannotConvertDeploy d) =
      ({ v with
          in_flight := (v.in_flight.dec d.toDeployHash).2,
          validation_states := (sweepDrop d v.validation_states).1 },
        (sweepDrop d v.validation_states).2) := rfl

/-- The common part of a dropping sweep on a one-entry (or empty) table. -/
theorem inv_after_sweepDrop {cfg : DeployConfig} {p : ProposedBlock} {s : Sys}
    (hinv : Inv cfg p s) (d : DtHash) (hd : d ∈ s.pending) :
    Inv cfg p ⟨{ s.validator with
        in_flight := (s.validator.in_flight.dec d.toDeployHash).2,
        validation_states := (sweepDrop d s.validator.validation_states).1 },
      s.pending.erase d ++ fetchList (sweepDrop d s.validator.validation_states).2,
      s.fired ++ respondBatches (sweepDrop d s.validator.validation_states).2⟩ ∧
    (regIds ⟨{ s.validator with
        in_flight := (s.validator.in_flight.dec d.toDeployHash).2,
        validation_states := (sweepDrop d s.validator.validation_states).1 },
      s.pending.erase d ++ fetchList (sweepDrop d s.validator.validation_states).2,
      s.fired ++ respondBatches (sweepDrop d s.validator.validation_states).2⟩).Perm
        (regIds s) ∧
    (∀ r1 r2, togetherIn s r1 r2 →
      togetherIn ⟨{ s.validator with
          in_flight := (s.validator.in_flight.dec d.toDeployHash).2,
          validation_states := (sweepDrop d s.validator.validation_states).1 },
        s.pending.erase d ++ fetchList (sweepDrop d s.validator.validation_states).2,
        s.fired ++ respondBatches (sweepDrop d s.validator.validation_states).2⟩ r1 r2) := by
  have hcnt := dec_counter_eq hd hinv.counter
  rcases hinv.table with hT | ⟨st, hT, hne, hnd, hsub⟩
  · rw [hT]
    simp only [sweepDrop]
    refine ⟨⟨hinv.cfg_eq, Or.inl rfl, ?_, ?_⟩, ?_, ?_⟩
    · intro x hx
      simp only [fetchList, List.append_nil] at hx
      exact hinv.pendingKeys x (List.mem_of_mem_erase hx)
    · intro h
      simp only [fetchList, List.append_nil]
      exact hcnt h
    · apply List.Perm.of_eq
      simp [regIds, firedIds, pendingResponders, respondBatches, hT]
    · intro r1 r2 htog
      rcases htog with ⟨e, he, _, _⟩ | ⟨bb, hb, h1, h2⟩
      · rw [hT] at he
        cases he
      · exact Or.inr ⟨bb, List.mem_append_left _ hb, h1, h2⟩
  · rw [hT]
    by_cases hc : acontains d st.missing_deploys = true
    · have hsweep : sweepDrop d [(p, st)] = ([], [.respond st.responders false]) := by
        simp [sweepDrop, hc]
      rw [hsweep]
      refine ⟨⟨hinv.cfg_eq, Or.inl rfl, ?_, ?_⟩, ?_, ?_⟩
      · intro x hx
        simp only [fetchList, List.append_nil] at hx
        exact hinv.pendingKeys x (List.mem_of_mem_erase hx)
      · intro h
        simp only [fetchList, List.append_nil]
        exact hcnt h
      · apply List.Perm.of_eq
        simp [regIds, firedIds, pendingResponders, respondBatches, hT]
      · intro r1 r2 htog
        rcases htog with ⟨e, he, h1, h2⟩ | ⟨bb, hb, h1, h2⟩
        · rw [hT] at he
          rcases List.mem_cons.mp he with rfl | he2
          · exact Or.inr ⟨(st.responders, false),
              List.mem_append_right _ (by simp [respondBatches]), h1, h2⟩
          · cases he2
        · exact Or.inr ⟨bb, List.mem_append_left _ hb, h1, h2⟩
    · have hc2 : acontains d st.missing_deploys = false := by
        cases hcc : acontains d st.missing_deploys
        · rfl
        · exact absurd hcc hc
      have hsweep : sweepDrop d [(p, st)] = ([(p, st)], []) := by
        simp [sweepDrop, hc2]
      rw [hsweep]
      have hdnotin : d ∉ st.missing_deploys.map Prod.fst := by
        intro hcc
        rw [← acontains_iff_mem_keys] at hcc
        exact hc hcc
      refine ⟨⟨hinv.cfg_eq, ?_, ?_, ?_⟩, ?_, ?_⟩
      · refine Or.inr ⟨st, rfl, hne, hnd, ?_⟩
        intro x hx
        simp only [fetchList, List.append_nil]
        have hxd : x ≠ d := fun hcc => hdnotin (hcc ▸ hx)
        exact (List.mem_erase_of_ne hxd).mpr (hsub x hx)
      · intro x hx
        simp only [fetchList, List.append_nil] at hx
        exact hinv.pendingKeys x (List.mem_of_mem_erase hx)
      · intro h
        simp only [fetchList, List.append_nil]
        exact hcnt h
      · apply List.Perm.of_eq
        simp [regIds, firedIds, pendingResponders, respondBatches, hT]
      · intro r1 r2 htog
        rcases htog with ⟨e, he, h1, h2⟩ | ⟨bb, hb, h1, h2⟩
        · rw [hT] at he
          rcases List.mem_cons.mp he with rfl | he2
          · exact Or.inl ⟨(p, st), List.mem_cons_self _ _, h1, h2⟩
          · cases he2
        · exact Or.inr ⟨bb, List.mem_append_left _ hb, h1, h2⟩

/-- The invariant step for a `CannotConvertDeploy` event. -/
theorem inv_step_cannot {cfg : DeployConfig} {p : ProposedBlock} {s s2 : Sys}
    (hinv : Inv cfg p s) (d : DtHash)
    (hstep : sysStep s (.cannotConvertDeploy d) = some s2) :
    Inv cfg p s2 ∧ (regIds s2).Perm (regIds s) ∧
    (∀ r1 r2, togetherIn s r1 r2 → togetherIn s2 r1 r2) := by
  rw [sysStep] at hstep
  dsimp only [eventHash] at hstep
  by_cases hd : d ∈ s.pending
  case neg => rw [if_neg hd] at hstep; cases hstep
  rw [if_pos hd] at hstep
  obtain rfl : s2 = _ := (Option.some.inj hstep).symm
  rw [handle_cannot_eq]
  exact inv_after_sweepDrop hinv d hd

/-- The invariant step for a `DeployMissing` event. -/
theorem inv_step_missing {cfg : DeployConfig} {p : ProposedBlock} {s s2 : Sys}
    (huntag : untagInjective p) (hinv : Inv cfg p s) (d : DtHash)
    (hstep : sysStep s (.deployMissing d) = some s2) :
    Inv cfg p s2 ∧ (regIds s2).Perm (regIds s) ∧
    (∀ r1 r2, togetherIn s r1 r2 → togetherIn s2 r1 r2) := by
  rw [sysStep] at hstep
  dsimp only [eventHash] at hstep
  by_cases hd : d ∈ s.pending
  case neg => rw [if_neg hd] at hstep; cases hstep
  rw [if_pos hd] at hstep
  obtain rfl : s2 = _ := (Option.some.inj hstep).symm
  by_cases h0 : s.validator.in_flight d.toDeployHash - 1 = 0
  · have heq : handle_event s.validator (.deployMissing d) =
        ({ s.validator with
            in_flight := (s.validator.in_flight.dec d.toDeployHash).2,
            validation_states := (sweepDrop d s.validator.validation_states).1 },
          (sweepDrop d s.validator.validation_states).2) := by
      rw [handle_event]
      dsimp only [KeyedCounter.dec]
      rw [if_neg (not_not_intro h0)]
    rw [heq]
    exact inv_after_sweepDrop hinv d hd
  · -- other fetches are still in flight: the event is absorbed
    have heq : handle_event s.validator (.deployMissing d) =
        ({ s.validator with
            in_flight := (s.validator.in_flight.dec d.toDeployHash).2 }, []) := by
      rw [handle_event]
      dsimp only [KeyedCounter.dec]
      rw [if_pos h0]
    rw [heq]
    have hcnt := dec_counter_eq hd hinv.counter
    refine ⟨⟨hinv.cfg_eq, ?_, ?_, ?_⟩, ?_, ?_⟩
    · rcases hinv.table with hT | ⟨st, hT, hne, hnd, hsub⟩
      · exact Or.inl hT
      · refine Or.inr ⟨st, hT, hne, hnd, ?_⟩
        intro x hx
        simp only [fetchList, List.append_nil]
        by_cases hxd : x = d
        · subst hxd
          have hn2 : 2 ≤ (s.pending.filter (fun y => y = x)).length := by
            have hcount := hinv.counter x.toDeployHash
            rw [pending_count_self huntag hinv.pendingKeys hd] at hcount
            omega
          exact mem_erase_of_two hd hn2
        · exact (List.mem_erase_of_ne hxd).mpr (hsub x hx)
    · intro x hx
      simp only [fetchList, List.append_nil] at hx
      exact hinv.pendingKeys x (List.mem_of_mem_erase hx)
    · intro h
      simp only [fetchList, List.append_nil]
      exact hcnt h
    · apply List.Perm.of_eq
      simp [regIds, firedIds, pendingResponders, respondBatches]
    · intro r1 r2 htog
      rcases htog with ⟨e, he, h1, h2⟩ | ⟨bb, hb, h1, h2⟩
      · exact Or.inl ⟨e, he, h1, h2⟩
      · exact Or.inr ⟨bb, List.mem_append_left _ hb, h1, h2⟩

end Casper

namespace Casper

theorem traceRids_cons (ev : Event) (rest : List Event) :
    traceRids (ev :: rest) = (ridOf ev).toList ++ traceRids rest := by
  cases hr : ridOf ev <;> simp [traceRids, List.filterMap_cons, hr]

/-- One admissible step preserves the invariant, books exactly the new
responder, and keeps companions together. -/
theorem inv_step {cfg : DeployConfig} {p : ProposedBlock} {s s2 : Sys} {ev : Event}
    (huntag : untagInjective p) (hinv : Inv cfg p s)
    (hblk : eventForBlock p ev = true) (hstep : sysStep s ev = some s2) :
    Inv cfg p s2 ∧ (regIds s2).Perm (regIds s ++ (ridOf ev).toList) ∧
    (∀ r1 r2, togetherIn s r1 r2 → togetherIn s2 r1 r2) := by
  cases ev with
  | request q era height sender rid =>
    have hq : q = p := by simpa [eventForBlock] using hblk
    subst hq
    simpa [ridOf] using inv_step_request hinv era height sender rid hstep
  | deployFound d fp =>
    simpa [ridOf] using inv_step_found hinv d fp hstep
  | deployMissing d =>
    simpa [ridOf] using inv_step_missing huntag hinv d hstep
  | cannotConvertDeploy d =>
    simpa [ridOf] using inv_step_cannot hinv d hstep

/-- Running an admissible single-proposal trace preserves the invariant and
books exactly the trace's responders; companions stay together. -/
theorem run_inv {cfg : DeployConfig} {p : ProposedBlock} (huntag : untagInjective p) :
    ∀ (tr : List Event) (s s2 : Sys), Inv cfg p s →
      (∀ ev ∈ tr, eventForBlock p ev = true) →
      runTrace s tr = some s2 →
      Inv cfg p s2 ∧ (regIds s2).Perm (regIds s ++ traceRids tr) ∧
      (∀ r1 r2, togetherIn s r1 r2 → togetherIn s2 r1 r2) := by
  intro tr
  induction tr with
  | nil =>
    intro s s2 hinv _ hrun
    obtain rfl : s = s2 := Option.some.inj hrun
    exact ⟨hinv, by simp [traceRids], fun r1 r2 h => h⟩
  | cons ev rest ih =>
    intro s s2 hinv hblk hrun
    rw [runTrace] at hrun
    cases hstep : sysStep s ev with
    | none => rw [hstep] at hrun; cases hrun
    | some s1 =>
      rw [hstep] at hrun
      obtain ⟨hinv1, hperm1, htog1⟩ :=
        inv_step huntag hinv (hblk ev (List.mem_cons_self _ _)) hstep
      obtain ⟨hinv2, hperm2, htog2⟩ :=
        ih s1 s2 hinv1 (fun e he => hblk e (List.mem_cons_of_mem _ he)) hrun
      refine ⟨hinv2, ?_, fun r1 r2 h => htog2 r1 r2 (htog1 r1 r2 h)⟩
      rw [traceRids_cons]
      exact hperm2.trans ((hperm1.append_right _).trans
        (List.Perm.of_eq (List.append_assoc _ _ _)))

theorem runTrace_append (s : Sys) (a b : List Event) :
    runTrace s (a ++ b) =
      match runTrace s a with
      | none => none
      | some s1 => runTrace s1 b := by
  induction a generalizing s with
  | nil => rfl
  | cons ev rest ih =>
    rw [List.cons_append, runTrace, runTrace]
    cases sysStep s ev
    · rfl
    · exact ih _

theorem inv_init (cfg : DeployConfig) (p : ProposedBlock) (delay : Nat) :
    Inv cfg p (initSys cfg delay) :=
  ⟨rfl, Or.inl rfl, fun d hd => absurd hd (List.not_mem_nil d), fun _ => rfl⟩

instance (p : ProposedBlock) : Decidable (untagInjective p) := by
  unfold untagInjective
  infer_instance

/-- C1 counterexample: for the proposal listing hash 5 once as a deploy and
once as a transfer, a single `validate` call followed by the complete
resolution of both of its fetches (`DeployMissing` for the deploy-tagged
fetch while the shared untagged counter is still positive, then `DeployFound`
for the transfer-tagged one) fires **no** response at all: the trace ends
with no pending fetch, an empty fired list — and the state stuck in the
table.  The claim's "exactly one boolean response per validate call" fails. -/
theorem unresponded_validate_counterexample :
    (runTrace (initSys ⟨10, 10, 100⟩ 2)
        [.request ⟨0, [(5, 0)], [(5, 1)]⟩ 1 9 7 0,
         .deployMissing (.deploy 5),
         .deployFound (.transfer 5) ⟨0⟩]).map (fun s => (s.pending, s.fired)) =
      some ([], []) ∧
    traceRids [.request (⟨0, [(5, 0)], [(5, 1)]⟩ : ProposedBlock) 1 9 7 0,
      .deployMissing (.deploy 5), .deployFound (.transfer 5) ⟨0⟩] = [0] := ⟨rfl, rfl⟩

/-- **C1** (amended): for a proposed block in which no transaction hash
appears under both kinds (the untagged hash determines the tag), and any
complete admissible delivery of its fetches' `DeployFound` / `DeployMissing`
/ `CannotConvertDeploy` events interleaved with any number of concurrent
`validate` calls for that proposal, every `validate` call receives exactly
one boolean response; responders that were ever pending together fire in one
batch and therefore receive the same boolean.  (Without the
no-cross-kind proviso only at-most-once holds; see the counterexample.) -/
theorem validate_exactly_once_coalesced (cfg : DeployConfig) (delay : Nat)
    (p : ProposedBlock) (huntag : untagInjective p)
    (tr : List Event) (s2 : Sys)
    (hblk : ∀ ev ∈ tr, eventForBlock p ev = true)
    (hnodup : (traceRids tr).Nodup)
    (hrun : runTrace (initSys cfg delay) tr = some s2)
    (hdone : s2.pending = []) :
    (firedIds s2).Perm (traceRids tr) ∧
    (∀ r ∈ traceRids tr, (firedIds s2).count r = 1) ∧
    (∀ tr1 tr2 s1 q st r1 r2, tr = tr1 ++ tr2 →
      runTrace (initSys cfg delay) tr1 = some s1 →
      (q, st) ∈ s1.validator.validation_states →
      r1 ∈ st.responders → r2 ∈ st.responders →
      ∃ b ∈ s2.fired, r1 ∈ b.1 ∧ r2 ∈ b.1) := by
  obtain ⟨hinv2, hperm, _⟩ :=
    run_inv huntag tr (initSys cfg delay) s2 (inv_init cfg p delay) hblk hrun
  have hempty : s2.validator.validation_states = [] := by
    rcases hinv2.table with h | ⟨st, hst, hne, _, hsub⟩
    · exact h
    · obtain ⟨pr, hpr⟩ := List.exists_mem_of_ne_nil _ hne
      have hmem := hsub pr.1 (List.mem_map_of_mem Prod.fst hpr)
      rw [hdone] at hmem
      cases hmem
  have hpr0 : pendingResponders s2 = [] := by simp [pendingResponders, hempty]
  have hperm2 : (firedIds s2).Perm (traceRids tr) := by
    have : regIds s2 = firedIds s2 := by simp [regIds, hpr0]
    rw [← this]
    simpa [regIds, initSys, firedIds, pendingResponders] using hperm
  refine ⟨hperm2, ?_, ?_⟩
  · intro r hr
    rw [hperm2.count_eq]
    exact List.count_eq_one_of_mem hnodup hr
  · intro tr1 tr2 s1 q st r1 r2 htr hrun1 hmem h1 h2
    subst htr
    rw [runTrace_append, hrun1] at hrun
    have hinv1 : Inv cfg p s1 :=
      (run_inv huntag tr1 (initSys cfg delay) s1 (inv_init cfg p delay)
        (fun e he => hblk e (List.mem_append_left _ he)) hrun1).1
    obtain ⟨_, _, htog⟩ := run_inv huntag tr2 s1 s2 hinv1
      (fun e he => hblk e (List.mem_append_right _ he)) hrun
    have htg := htog r1 r2 (Or.inl ⟨(q, st), hmem, h1, h2⟩)
    rcases htg with ⟨e, he, _, _⟩ | hb
    · rw [hempty] at he
      cases he
    · exact hb

/-- The concrete single-proposal workload used by the C1 witness. -/
def pW : ProposedBlock := ⟨0, [(5, 0)], []⟩

/-- A complete two-event trace for `pW`: one request, one successful fetch. -/
def trW : List Event := [.request pW 1 9 7 0, .deployFound (.deploy 5) ⟨0⟩]

/-- The system reached by running `trW`. -/
def sW : Sys := (runTrace (initSys ⟨10, 10, 100⟩ 2) trW).getD (initSys ⟨10, 10, 100⟩ 2)

/-- Witness for C1 (amended) at a concrete input: the single responder of the
single request fires exactly once (with `true`). -/
theorem validate_exactly_once_coalesced_witness :
    (firedIds sW).Perm (traceRids trW) ∧ firedIds sW = [0] ∧ traceRids trW = [0] :=
  ⟨(validate_exactly_once_coalesced ⟨10, 10, 100⟩ 2 pW (by decide) trW sW
      (by decide) (by decide) rfl rfl).1, rfl, rfl⟩

end Casper

namespace Casper

/-! # Part 2: the era reward calculator
(`src/node/src/components/contract_runtime/rewards.rs`)

`U512` values are `Nat` with explicit `2 ^ 512` bounds where overflow
matters; `Ratio<U512>` is a numerator/denominator pair kept reduced by gcd as
`num_rational` keeps it.  The async storage and contract-runtime queries are
modelled as oracle functions in a `Storage` record; `BTreeMap` is an
association list with distinct keys (ordering not modelled; map claims are
stated by content). -/

/-- The `U512` overflow bound. -/
def U512LIMIT : Nat := 2 ^ 512

/-- `Ratio<U512>` (nonnegative): a fraction kept gcd-reduced. -/
structure RatioU512 where
  num : Nat
  den : Nat
deriving DecidableEq, Repr

/-- `Ratio::new`: reduce by the gcd (as `num_rational` does). -/
def mkRatio (n d : Nat) : RatioU512 :=
  ⟨n / Nat.gcd n d, d / Nat.gcd n d⟩

/-- `Ratio::<U512>::checked_mul`, modelled from the third-party
`num_rational` crate: the gcd-reduced product, `none` when a component of the
reduced result does not fit in `U512`. -/
def checkedMul (a b : RatioU512) : Option RatioU512 :=
  let r := mkRatio (a.num * b.num) (a.den * b.den)
  if r.num < U512LIMIT ∧ r.den < U512LIMIT then some r else none

/-- `Ratio::<U512>::checked_add`, modelled likewise: the gcd-reduced sum,
`none` when a component of the reduced result does not fit in `U512`. -/
def checkedAdd (a b : RatioU512) : Option RatioU512 :=
  let r := mkRatio (a.num * b.den + b.num * a.den) (a.den * b.den)
  if r.num < U512LIMIT ∧ r.den < U512LIMIT then some r else none

/-- `Ratio::to_integer`: truncation toward zero. -/
def RatioU512.toInteger (a : RatioU512) : Nat := a.num / a.den

/-- `ArithmeticError` of the `fallible_num` module. -/
inductive ArithmeticError where
  | overflow
deriving DecidableEq, Repr

/-- `MaybeNum<N>`: a number or a poisoned arithmetic error. -/
inductive MaybeNum (N : Type) where
  | num (n : N)
  | error (e : ArithmeticError)
deriving DecidableEq, Repr

/-- `MaybeNum::get`. -/
def MaybeNum.get {N : Type} : MaybeNum N → Except ArithmeticError N
  | .num n => .ok n
  | .error e => .error e

/-- `fallible_num::nums`: both operands, or the first error found. -/
def nums {A B : Type} : MaybeNum A → MaybeNum B → Except ArithmeticError (A × B)
  | .num a, .num b => .ok (a, b)
  | .error e, _ => .error e
  | .num _, .error e => .error e

/-- `Mul for MaybeNum<Ratio<U512>>`. -/
def MaybeNum.mul (a b : MaybeNum RatioU512) : MaybeNum RatioU512 :=
  match nums a b with
  | .ok (x, y) =>
    match checkedMul x y with
    | some ans => .num ans
    | none => .error .overflow
  | .error e => .error e

/-- `Add for MaybeNum<Ratio<U512>>`. -/
def MaybeNum.add (a b : MaybeNum RatioU512) : MaybeNum RatioU512 :=
  match nums a b with
  | .ok (x, y) =>
    match checkedAdd x y with
    | some ans => .num ans
    | none => .error .overflow
  | .error e => .error e

/-- `RewardsError`. -/
inductive RewardsError where
  | heightNotInEraRange (height : Nat)
  | eraIdNotInEraRange (era_id : Nat)
  | validatorKeyNotInEra (key : Nat)
  | missingSwitchBlock (era_id : Nat)
  | arithmetic (e : ArithmeticError)
  | failedToFetchBlockWithHeight (height : Nat)
  | failedToFetchEra
  | failedToFetchEraValidators (root : Nat)
  | failedToFetchTotalSupply
  | failedToFetchSeigniorageRate
deriving DecidableEq, Repr

/-- `Ratio<u64>` as used by the chainspec configuration. -/
structure Ratio64 where
  num : Nat
  den : Nat
deriving DecidableEq, Repr

/-- The chainspec `CoreConfig` fields the calculator reads. -/
structure CoreConfig where
  finders_fee : Ratio64
  finality_signature_proportion : Ratio64
  signature_rewards_max_delay : Nat
deriving DecidableEq, Repr

/-- Modelled from the spec: `production_proportion = 1 − finality_signature_proportion`
(the accessor's source is not in this snapshot). -/
def CoreConfig.production_rewards_proportion (c : CoreConfig) : Ratio64 :=
  ⟨c.finality_signature_proportion.den - c.finality_signature_proportion.num,
    c.finality_signature_proportion.den⟩

/-- Modelled from the spec: `collection_proportion = finders_fee × finality_signature_proportion`. -/
def CoreConfig.collection_rewards_proportion (c : CoreConfig) : Ratio64 :=
  ⟨c.finders_fee.num * c.finality_signature_proportion.num,
    c.finders_fee.den * c.finality_signature_proportion.den⟩

/-- Modelled from the spec: `contribution_proportion = (1 − finders_fee) × finality_signature_proportion`. -/
def CoreConfig.contribution_rewards_proportion (c : CoreConfig) : Ratio64 :=
  ⟨(c.finders_fee.den - c.finders_fee.num) * c.finality_signature_proportion.num,
    c.finders_fee.den * c.finality_signature_proportion.den⟩

/-- `From<Ratio<u64>> for MaybeNum<Ratio<U512>>`'s underlying widening. -/
def r512OfRatio64 (r : Ratio64) : RatioU512 := ⟨r.num, r.den⟩

/-- `CitedBlock`.  The rewarded-signatures vector is modelled from the spec as
one bitfield per relative height, selecting among the signed era's ordered
validator keys. -/
structure CitedBlock where
  height : Nat
  era_id : Nat
  proposer : Nat
  rewarded_signatures : List (List Bool)
  state_root_hash : Nat
  is_switch_block : Bool
  is_genesis : Bool
deriving DecidableEq, Repr

/-- `EraInfo`: the per-era weights, their cached sum, and the round reward. -/
structure EraInfo where
  weights : List (Nat × Nat)
  total_weights : Nat
  reward_per_round : RatioU512
deriving DecidableEq, Repr

/-- `RewardsInfo`. -/
structure RewardsInfo where
  eras_info : List (Nat × EraInfo)
  cited_blocks : List CitedBlock
deriving DecidableEq, Repr

/-- `RewardsInfo::validator_keys`. -/
def RewardsInfo.validator_keys (ri : RewardsInfo) (era_id : Nat) :
    Except RewardsError (List Nat) :=
  match alookup era_id ri.eras_info with
  | some info => .ok (info.weights.map Prod.fst)
  | none => .error (.eraIdNotInEraRange era_id)

/-- `RewardsInfo::reward`. -/
def RewardsInfo.reward (ri : RewardsInfo) (era_id : Nat) :
    Except RewardsError RatioU512 :=
  match alookup era_id ri.eras_info with
  | some info => .ok info.reward_per_round
  | none => .error (.eraIdNotInEraRange era_id)

/-- `RewardsInfo::weight_ratio`. -/
def RewardsInfo.weight_ratio (ri : RewardsInfo) (era_id validator : Nat) :
    Except RewardsError RatioU512 :=
  match alookup era_id ri.eras_info with
  | none => .error (.eraIdNotInEraRange era_id)
  | some era =>
    match alookup validator era.weights with
    | none => .error (.validatorKeyNotInEra validator)
    | some weight => .ok (mkRatio weight era.total_weights)

/-- `RewardsInfo::era_for_block_height`. -/
def RewardsInfo.era_for_block_height (ri : RewardsInfo) (height : Nat) :
    Except RewardsError Nat :=
  match ri.cited_blocks.find? (fun b => b.height = height) with
  | some b => .ok b.era_id
  | none => .error (.heightNotInEraRange height)

/-- `RewardsInfo::blocks_from_era`. -/
def RewardsInfo.blocks_from_era (ri : RewardsInfo) (era_id : Nat) : List CitedBlock :=
  ri.cited_blocks.filter (fun b => b.era_id = era_id)

/-- Modelled from the spec: `SingleBlockRewardedSignatures::to_validator_set`
pairs the bitfield with the era's ordered validator keys. -/
def toValidatorSet (bits : List Bool) (keys : List Nat) : List Nat :=
  ((bits.zip keys).filter (fun x => x.1)).map (fun x => x.2)

/-- `increase_value_for_key` inside `rewards_for_era`: vacant keys are
inserted, occupied keys accumulate with the checked (`MaybeNum`) addition;
an arithmetic error surfaces through `?` as `RewardsError::ArithmeticError`. -/
def increase_value_for_key (m : List (Nat × RatioU512)) (key : Nat)
    (value : MaybeNum RatioU512) : Except RewardsError (List (Nat × RatioU512)) :=
  match alookup key m with
  | none =>
    match value.get with
    | .ok v => .ok (ainsert key v m)
    | .error e => .error (.arithmetic e)
  | some old =>
    match (value.add (.num old)).get with
    | .ok v => .ok (ainsert key v m)
    | .error e => .error (.arithmetic e)

/-- The body of the innermost loop of `rewards_for_era`: credit one signing
validator its contribution reward and the block proposer the collection
reward, both scaled by the signer's weight ratio and the signed era's round
reward. -/
def signerStep (ri : RewardsInfo) (cc : CoreConfig) (signed_block_era proposer : Nat)
    (m : List (Nat × RatioU512)) (signing_validator : Nat) :
    Except RewardsError (List (Nat × RatioU512)) := do
  let contribution_reward :=
    ((MaybeNum.num (r512OfRatio64 cc.contribution_rewards_proportion)).mul
      (.num (← ri.weight_ratio signed_block_era signing_validator))).mul
      (.num (← ri.reward signed_block_era))
  let collection_reward :=
    ((MaybeNum.num (r512OfRatio64 cc.collection_rewards_proportion)).mul
      (.num (← ri.weight_ratio signed_block_era signing_validator))).mul
      (.num (← ri.reward signed_block_era))
  let m ← increase_value_for_key m signing_validator contribution_reward
  increase_value_for_key m proposer collection_reward

/-- One rewarded-signatures slot of a block: resolve the signed era from the
slot height and credit every validator selected by the bitfield. -/
def slotStep (ri : RewardsInfo) (cc : CoreConfig) (proposer : Nat)
    (m : List (Nat × RatioU512)) (sb : List Bool × Nat) :
    Except RewardsError (List (Nat × RatioU512)) := do
  let signed_block_era ← ri.era_for_block_height sb.2
  let validators_providing_signature :=
    toValidatorSet sb.1 (← ri.validator_keys signed_block_era)
  validators_providing_signature.foldlM
    (signerStep ri cc signed_block_era proposer) m

/-- One block of the current era: credit the proposer the production reward,
then process every rewarded-signatures slot. -/
def blockStep (ri : RewardsInfo) (cc : CoreConfig)
    (production_reward : MaybeNum RatioU512) (m : List (Nat × RatioU512))
    (block : CitedBlock) : Except RewardsError (List (Nat × RatioU512)) := do
  let m ← increase_value_for_key m block.proposer production_reward
  (block.rewarded_signatures.zip (List.range block.height).reverse).foldlM
    (slotStep ri cc block.proposer) m

/-- `rewards_for_era`. -/
def rewards_for_era (ri : RewardsInfo) (current_era_id : Nat) (cc : CoreConfig) :
    Except RewardsError (List (Nat × Nat)) := do
  let keys ← ri.validator_keys current_era_id
  let init := keys.map (fun k => (k, mkRatio 0 1))
  let m ←
    if current_era_id = 0 then pure init
    else do
      let production_reward :=
        (MaybeNum.num (r512OfRatio64 cc.production_rewards_proportion)).mul
          (.num (← ri.reward current_era_id))
      (ri.blocks_from_era current_era_id).foldlM
        (blockStep ri cc production_reward) init
  .ok (m.map (fun kv => (kv.1, kv.2.toInteger)))

/-- `ExecutableBlock` (the fields the calculator reads). -/
structure ExecutableBlock where
  era_id : Nat
  height : Nat
  proposer : Nat
  rewarded_signatures : List (List Bool)
  era_report_is_some : Bool
deriving DecidableEq, Repr

/-- `From<ExecutableBlock> for CitedBlock`: default state root, switch iff an
era report is present, never genesis. -/
def citedOfExecutable (b : ExecutableBlock) : CitedBlock :=
  ⟨b.height, b.era_id, b.proposer, b.rewarded_signatures, 0, b.era_report_is_some, false⟩

/-- The storage and contract-runtime oracles the async code awaits. -/
structure Storage where
  switch_block_height : Nat → Option Nat
  past_block : Nat → Option CitedBlock
  era_validators : Nat → Except Unit (List (Nat × List (Nat × Nat)))
  total_supply : Nat → Except Unit Nat
  seigniorage_rate : Nat → Except Unit RatioU512

/-- `collect_past_blocks_batched`: every height of the range, in order (the
source splits the range into batches of 100, which partitions the same
heights in the same order). -/
def collect_past_blocks_batched (storage : Storage) (lo hi : Nat) :
    Except RewardsError (List CitedBlock) :=
  (List.range' lo (hi - lo)).mapM (fun h =>
    match storage.past_block h with
    | some b => .ok b
    | none => .error (.failedToFetchBlockWithHeight h))

/-- One iteration of the era-fetching loop in `create_eras_info`: fetch the
validators of the target era at the stored root hash, then the total supply and
the seigniorage rate, and combine them into that era's `EraInfo`; each `?` in
the source is an early return here.  `reward_per_round` is
`seignorate_rate * total_supply` (an unchecked `Ratio * U512` scalar product in
the source; exact here). -/
def createEraStep (storage : Storage) (acc : List (Nat × EraInfo)) (er : Nat × Nat) :
    Except RewardsError (List (Nat × EraInfo)) :=
  match storage.era_validators er.2 with
  | .error _ => .error .failedToFetchEra
  | .ok all =>
    match all.find? (fun kv => kv.1 = er.1) with
    | none => .error (.failedToFetchEraValidators er.2)
    | some kv =>
      match storage.total_supply er.2 with
      | .error _ => .error .failedToFetchTotalSupply
      | .ok total_supply =>
        match storage.seigniorage_rate er.2 with
        | .error _ => .error .failedToFetchSeigniorageRate
        | .ok seignorate_rate =>
          .ok (ainsert er.1
            ⟨kv.2, (kv.2.map (fun w => w.2)).sum,
              ⟨seignorate_rate.num * total_supply, seignorate_rate.den⟩⟩ acc)

/-- `RewardsInfo::create_eras_info`: the oldest block plus every later switch
block determines the era ids to fetch (a switch block stands for its
successor era); genesis info is copied from era 1. -/
def RewardsInfo.create_eras_info (storage : Storage) (_current_era_id : Nat)
    (cited_blocks : List CitedBlock) : Except RewardsError (List (Nat × EraInfo)) := do
  let oldest_block := cited_blocks.head?
  let oldest_block_is_genesis := (oldest_block.map (fun b => b.is_genesis)).getD false
  let eras_and_state_root_hashes :=
    (oldest_block.toList ++ cited_blocks.tail.filter (fun b => b.is_switch_block)).map
      (fun b => (if b.is_switch_block then b.era_id + 1 else b.era_id, b.state_root_hash))
  let eras_info ← eras_and_state_root_hashes.foldlM (createEraStep storage) []
  if oldest_block_is_genesis then
    match alookup 1 eras_info with
    | some era_1_info => .ok (ainsert 0 era_1_info eras_info)
    | none => .error (.eraIdNotInEraRange 1)
  else .ok eras_info

/-- `RewardsInfo::new_from_storage`. -/
def RewardsInfo.new_from_storage (storage : Storage) (_protocol_version : Nat)
    (signature_rewards_max_delay : Nat) (executable_block : ExecutableBlock) :
    Except RewardsError RewardsInfo := do
  let current_era_id := executable_block.era_id
  let previous_era_id := current_era_id - 1
  let prev_height ←
    match storage.switch_block_height previous_era_id with
    | some h => Except.ok h
    | none => Except.error (RewardsError.missingSwitchBlock previous_era_id)
  -- "we do not subtract 1, because we want one block more"
  let cited_block_height_start := prev_height - signature_rewards_max_delay
  let cited_blocks ← collect_past_blocks_batched storage cited_block_height_start
    executable_block.height
  let eras_info ← RewardsInfo.create_eras_info storage current_era_id cited_blocks
  .ok ⟨eras_info, cited_blocks ++ [citedOfExecutable executable_block]⟩

/-- The chainspec fields the calculator reads. -/
structure Chainspec where
  validators : List Nat
  core_config : CoreConfig
  protocol_version : Nat

/-- `fetch_data_and_calculate_rewards_for_era`: genesis yields zero for every
chainspec-configured validator, otherwise the data is assembled from storage
and `rewards_for_era` runs. -/
def fetch_data_and_calculate_rewards_for_era (storage : Storage)
    (chainspec : Chainspec) (executable_block : ExecutableBlock) :
    Except RewardsError (List (Nat × Nat)) :=
  if executable_block.era_id = 0 then
    .ok (chainspec.validators.map (fun k => (k, 0)))
  else do
    let rewards_info ← RewardsInfo.new_from_storage storage chainspec.protocol_version
      chainspec.core_config.signature_rewards_max_delay executable_block
    rewards_for_era rewards_info executable_block.era_id chainspec.core_config

end Casper

namespace Casper

/-! ## Claim C6: genesis rewards -/

/-- **C6**: if the current era id is genesis, the reward computation returns
`Ok` with the map that assigns zero to every chainspec-configured validator
and contains no other key (and performs no storage access). -/
theorem genesis_rewards_zero (storage : Storage) (chainspec : Chainspec)
    (executable_block : ExecutableBlock) (hg : executable_block.era_id = 0) :
    fetch_data_and_calculate_rewards_for_era storage chainspec executable_block =
      .ok (chainspec.validators.map (fun k => (k, 0))) := by
  rw [fetch_data_and_calculate_rewards_for_era, if_pos hg]

/-- An inert storage oracle (every query fails): the genesis path never
consults it. -/
def stEmpty : Storage :=
  ⟨fun _ => none, fun _ => none, fun _ => .error (), fun _ => .error (),
    fun _ => .error ()⟩

/-- Witness for C6 at a concrete input: two configured validators, era 0. -/
theorem genesis_rewards_zero_witness :
    fetch_data_and_calculate_rewards_for_era stEmpty
        ⟨[1, 2], ⟨⟨1, 2⟩, ⟨1, 2⟩, 2⟩, 1⟩ ⟨0, 0, 1, [], false⟩ =
      .ok [(1, 0), (2, 0)] :=
  genesis_rewards_zero stEmpty ⟨[1, 2], ⟨⟨1, 2⟩, ⟨1, 2⟩, 2⟩, 1⟩ ⟨0, 0, 1, [], false⟩ rfl

/-! ## Claim C4: era coverage of `eras_info` -/

/-- The C4 counterexample storage: the previous (second) era's switch block
is at height 9, the lookback delay is 1, so blocks 8 and 9 are fetched; block
8 — the oldest — is itself a switch block of era 1. -/
def stC4 : Storage :=
  ⟨fun e => if e = 2 then some 9 else none,
    fun h => if h = 8 then some ⟨8, 1, 1, [], 100, true, false⟩
      else if h = 9 then some ⟨9, 2, 1, [], 101, true, false⟩ else none,
    fun root => if root = 100 then .ok [(2, [(1, 5)])]
      else if root = 101 then .ok [(3, [(1, 5)])] else .error (),
    fun _ => .ok 1000,
    fun _ => .ok ⟨1, 100⟩⟩

/-- C4 counterexample: with the oldest fetched block a switch block of era 1,
`new_from_storage` succeeds, a cited block (the oldest) carries era id 1, yet
`eras_info` has no entry for era 1 — only for eras 2 and 3. -/
theorem oldest_switch_era_not_covered :
    (RewardsInfo.new_from_storage stC4 1 1 ⟨3, 10, 1, [], true⟩).map
        (fun ri => (alookup 1 ri.eras_info, alookup 2 ri.eras_info |>.isSome,
          alookup 3 ri.eras_info |>.isSome, ri.cited_blocks.map (fun b => b.era_id))) =
      .ok (none, true, true, [1, 2, 3]) := rfl

end Casper

namespace Casper

/-! ## Lemmas for the era-coverage claim -/

theorem acontains_ainsert {α β : Type} [DecidableEq α] {a k : α} {v : β}
    {m : List (α × β)} (h : acontains a m = true) :
    acontains a (ainsert k v m) = true := by
  rw [acontains_iff_mem_keys] at h ⊢
  exact mem_keys_ainsert.mpr (Or.inr h)

theorem acontains_ainsert_self {α β : Type} [DecidableEq α] {k : α} {v : β}
    (m : List (α × β)) : acontains k (ainsert k v m) = true := by
  rw [acontains_iff_mem_keys]
  exact mem_keys_ainsert.mpr (Or.inl rfl)

/-- A successful `createEraStep` inserts exactly the target era's key. -/
theorem createEraStep_ok (storage : Storage) (acc acc2 : List (Nat × EraInfo))
    (er : Nat × Nat) (hok : createEraStep storage acc er = .ok acc2) :
    ∃ i, acc2 = ainsert er.1 i acc := by
  unfold createEraStep at hok
  split at hok
  · cases hok
  · split at hok
    · cases hok
    · split at hok
      · cases hok
      · split at hok
        · cases hok
        · exact ⟨_, (Except.ok.inj hok).symm⟩

/-- A successful era-fetching fold keeps every key of the accumulator and adds
the key of every processed era. -/
theorem createfold_keys (storage : Storage) :
    ∀ (l : List (Nat × Nat)) (acc infos : List (Nat × EraInfo)),
      l.foldlM (createEraStep storage) acc = .ok infos →
      (∀ k, acontains k acc = true → acontains k infos = true) ∧
      ∀ er ∈ l, acontains er.1 infos = true := by
  intro l
  induction l with
  | nil =>
    intro acc infos hok
    simp only [List.foldlM_nil, pure, Except.pure] at hok
    cases hok
    exact ⟨fun _ hk => hk, fun er her => absurd her (by simp)⟩
  | cons er rest ih =>
    intro acc infos hok
    rw [List.foldlM_cons] at hok
    cases hstep : createEraStep storage acc er with
    | error e => rw [hstep] at hok; cases hok
    | ok acc1 =>
      rw [hstep] at hok
      simp only [bind, Except.bind] at hok
      obtain ⟨mono, hall⟩ := ih acc1 infos hok
      obtain ⟨i, hi⟩ := createEraStep_ok storage acc acc1 er hstep
      subst hi
      refine ⟨fun k hk => mono k (acontains_ainsert hk), ?_⟩
      intro x hx
      rcases List.mem_cons.mp hx with rfl | hx2
      · exact mono x.1 (acontains_ainsert_self acc)
      · exact hall x hx2

end Casper

namespace Casper

/-- Well-formedness of a contiguous chain slice: each block's era id equals its
predecessor's, incremented exactly when the predecessor is a switch block. -/
def chainWFb : List CitedBlock → Bool
  | [] => true
  | [_] => true
  | a :: b :: rest =>
    (decide (b.era_id = if a.is_switch_block then a.era_id + 1 else a.era_id)) &&
      chainWFb (b :: rest)

/-- Along a well-formed chain, if the head's induced era key and the induced
key of every switch block except the last entry are present, then the era of
every non-head block is present. -/
theorem chain_covered (infos : List (Nat × EraInfo)) :
    ∀ (rest : List CitedBlock) (a : CitedBlock),
      chainWFb (a :: rest) = true →
      acontains (if a.is_switch_block then a.era_id + 1 else a.era_id) infos = true →
      (∀ x ∈ (a :: rest).dropLast, x.is_switch_block = true →
        acontains (x.era_id + 1) infos = true) →
      ∀ b ∈ rest, acontains b.era_id infos = true := by
  intro rest
  induction rest with
  | nil =>
    intro a _ _ _ b hb
    cases hb
  | cons b rest2 ih =>
    intro a hwf hhead hsw c hc
    simp only [chainWFb, Bool.and_eq_true, decide_eq_true_eq] at hwf
    have hb_era : acontains b.era_id infos = true := by rw [hwf.1]; exact hhead
    rcases List.mem_cons.mp hc with rfl | hc2
    · exact hb_era
    · cases rest2 with
      | nil => cases hc2
      | cons d rest3 =>
        refine ih b hwf.2 ?_ ?_ c hc2
        · by_cases hsb : b.is_switch_block
          · rw [if_pos hsb]
            refine hsw b ?_ hsb
            show b ∈ (a :: b :: d :: rest3).dropLast
            simp [List.dropLast]
          · rw [if_neg hsb]
            exact hb_era
        · intro x hx hxs
          refine hsw x ?_ hxs
          simp only [List.dropLast, List.mem_cons] at hx ⊢
          tauto

end Casper

namespace Casper

/-- A successful `create_eras_info` contains the key induced by the oldest
block and the key induced by every later switch block. -/
theorem create_eras_covers (storage : Storage) (ce : Nat)
    (blocks : List CitedBlock) (infos : List (Nat × EraInfo))
    (hok : RewardsInfo.create_eras_info storage ce blocks = .ok infos) :
    (∀ b, blocks.head? = some b →
      acontains (if b.is_switch_block then b.era_id + 1 else b.era_id) infos = true) ∧
    ∀ b ∈ blocks.tail, b.is_switch_block = true → acontains (b.era_id + 1) infos = true := by
  unfold RewardsInfo.create_eras_info at hok
  simp only [bind, Except.bind] at hok
  split at hok
  next e heq => cases hok
  next einfo heq =>
    obtain ⟨mono, hcov⟩ := createfold_keys storage _ _ _ heq
    have hsub : ∀ k, acontains k einfo = true → acontains k infos = true := by
      split at hok
      · split at hok
        next i1 halo =>
          cases hok
          exact fun k hk => acontains_ainsert hk
        next halo => cases hok
      · cases hok
        exact fun _ hk => hk
    constructor
    · intro b hb
      have hmem :
          ((if b.is_switch_block then b.era_id + 1 else b.era_id), b.state_root_hash) ∈
            (blocks.head?.toList ++ blocks.tail.filter (fun x => x.is_switch_block)).map
              (fun x => (if x.is_switch_block then x.era_id + 1 else x.era_id,
                x.state_root_hash)) :=
        List.mem_map.mpr ⟨b, List.mem_append_left _ (by rw [hb]; simp [Option.toList]), rfl⟩
      exact hsub _ (hcov _ hmem)
    · intro b hbt hsb
      have hmem :
          (b.era_id + 1, b.state_root_hash) ∈
            (blocks.head?.toList ++ blocks.tail.filter (fun x => x.is_switch_block)).map
              (fun x => (if x.is_switch_block then x.era_id + 1 else x.era_id,
                x.state_root_hash)) :=
        List.mem_map.mpr ⟨b,
          List.mem_append_right _ (List.mem_filter.mpr ⟨hbt, by simp [hsb]⟩),
          by rw [if_pos hsb]⟩
      exact hsub _ (hcov _ hmem)

end Casper

namespace Casper

/-- Decomposition of a successful `new_from_storage`: the cited blocks are the
fetched range followed by the current block, and `eras_info` comes from
`create_eras_info` on the fetched range. -/
theorem new_from_storage_parts (storage : Storage) (pv delay : Nat)
    (eb : ExecutableBlock) (ri : RewardsInfo)
    (hok : RewardsInfo.new_from_storage storage pv delay eb = .ok ri) :
    ∃ blocks, RewardsInfo.create_eras_info storage eb.era_id blocks = .ok ri.eras_info ∧
      ri.cited_blocks = blocks ++ [citedOfExecutable eb] := by
  unfold RewardsInfo.new_from_storage at hok
  simp only [bind, Except.bind] at hok
  split at hok
  next ph heq =>
    split at hok
    next e heq2 => cases hok
    next blocks heq2 =>
      split at hok
      next e heq3 => cases hok
      next infos heq3 =>
        cases hok
        exact ⟨blocks, heq3, rfl⟩
  next heq => cases hok

end Casper

namespace Casper

/-- **C4** (amended): for a successfully assembled `RewardsInfo` whose cited
blocks form a well-formed chain slice, every cited block after the oldest has
its era id among the keys of `eras_info`, the oldest fetched block's own era id
is a key whenever that block is not a switch block (the counterexample
`oldest_switch_era_not_covered` shows it need not be when it is one), and the
per-era accessors `validator_keys` and `reward` succeed on every non-oldest
cited block's era. -/
theorem eras_info_covers_cited (storage : Storage) (pv delay : Nat)
    (eb : ExecutableBlock) (ri : RewardsInfo)
    (hok : RewardsInfo.new_from_storage storage pv delay eb = .ok ri)
    (hwf : chainWFb ri.cited_blocks = true) :
    (∀ b ∈ ri.cited_blocks.tail, acontains b.era_id ri.eras_info = true) ∧
    (∀ b, ri.cited_blocks.head? = some b → b.is_switch_block = false →
      2 ≤ ri.cited_blocks.length → acontains b.era_id ri.eras_info = true) ∧
    (∀ b ∈ ri.cited_blocks.tail,
      (ri.validator_keys b.era_id).isOk = true ∧ (ri.reward b.era_id).isOk = true) := by
  obtain ⟨blocks, hce, hcb⟩ := new_from_storage_parts storage pv delay eb ri hok
  obtain ⟨hhead, hswitch⟩ := create_eras_covers storage eb.era_id blocks ri.eras_info hce
  cases blocks with
  | nil =>
    refine ⟨?_, ?_, ?_⟩
    · intro b hb
      rw [hcb] at hb
      cases hb
    · intro b _ _ hlen
      rw [hcb] at hlen
      simp at hlen
    · intro b hb
      rw [hcb] at hb
      cases hb
  | cons b0 bs =>
    have hwf2 : chainWFb (b0 :: (bs ++ [citedOfExecutable eb])) = true := by
      rw [hcb] at hwf
      exact hwf
    have hhd0 := hhead b0 rfl
    have hdrop : (b0 :: (bs ++ [citedOfExecutable eb])).dropLast = b0 :: bs := by
      have hsh : b0 :: (bs ++ [citedOfExecutable eb]) =
        (b0 :: bs) ++ [citedOfExecutable eb] := rfl
      rw [hsh, List.dropLast_concat]
    have hdl : ∀ x ∈ (b0 :: (bs ++ [citedOfExecutable eb])).dropLast,
        x.is_switch_block = true → acontains (x.era_id + 1) ri.eras_info = true := by
      intro x hx hxs
      rw [hdrop] at hx
      rcases List.mem_cons.mp hx with rfl | hx2
      · have h := hhead x rfl
        rw [if_pos hxs] at h
        exact h
      · exact hswitch x hx2 hxs
    have htail : ∀ b ∈ ri.cited_blocks.tail, acontains b.era_id ri.eras_info = true := by
      intro b hb
      rw [hcb] at hb
      exact chain_covered ri.eras_info (bs ++ [citedOfExecutable eb]) b0 hwf2 hhd0 hdl b hb
    refine ⟨htail, ?_, ?_⟩
    · intro b hb hnsw _
      have hb0 : ri.cited_blocks.head? = some b0 := by rw [hcb]; rfl
      cases Option.some.inj (hb0.symm.trans hb)
      rw [hnsw] at hhd0
      simpa using hhd0
    · intro b hb
      have hc := htail b hb
      rw [acontains] at hc
      cases halo : alookup b.era_id ri.eras_info with
      | none => rw [halo] at hc; cases hc
      | some info =>
        constructor <;>
          simp [RewardsInfo.validator_keys, RewardsInfo.reward, halo, Except.isOk,
            Except.toBool]

end Casper

namespace Casper

/-- Storage for the C4 witness: heights 8 (non-switch, era 2) and 9 (switch,
era 2) are fetched for current era 3. -/
def stC4b : Storage :=
  ⟨fun e => if e = 2 then some 9 else none,
    fun h => if h = 8 then some ⟨8, 2, 1, [], 100, false, false⟩
      else if h = 9 then some ⟨9, 2, 1, [], 101, true, false⟩ else none,
    fun root => if root = 100 then .ok [(2, [(1, 5)])]
      else if root = 101 then .ok [(3, [(1, 5)])] else .error (),
    fun _ => .ok 1000,
    fun _ => .ok ⟨1, 100⟩⟩

/-- The `RewardsInfo` that `stC4b` produces for current era 3 with delay 1. -/
def riC4 : RewardsInfo :=
  ⟨[(2, ⟨[(1, 5)], 5, ⟨1000, 100⟩⟩), (3, ⟨[(1, 5)], 5, ⟨1000, 100⟩⟩)],
    [⟨8, 2, 1, [], 100, false, false⟩, ⟨9, 2, 1, [], 101, true, false⟩,
      ⟨10, 3, 1, [], 0, true, false⟩]⟩

/-- Witness for the amended C4 at a concrete chain slice. -/
theorem eras_info_covers_cited_witness :
    chainWFb riC4.cited_blocks = true ∧
    ((∀ b ∈ riC4.cited_blocks.tail, acontains b.era_id riC4.eras_info = true) ∧
      (∀ b, riC4.cited_blocks.head? = some b → b.is_switch_block = false →
        2 ≤ riC4.cited_blocks.length → acontains b.era_id riC4.eras_info = true) ∧
      (∀ b ∈ riC4.cited_blocks.tail,
        (riC4.validator_keys b.era_id).isOk = true ∧ (riC4.reward b.era_id).isOk = true)) :=
  ⟨by decide, eras_info_covers_cited stC4b 1 1 ⟨3, 10, 1, [], true⟩ riC4 rfl (by decide)⟩

end Casper

namespace Casper

/-- **C5**: a `Ratio<U512>` multiplication or addition that overflows yields
`ArithmeticError::Overflow` (never a wrapped value); once a `MaybeNum` holds an
error, any subsequent multiplication or addition involving it — on either side
— yields that same error; and accumulating a poisoned value through
`increase_value_for_key` surfaces the error as `RewardsError::ArithmeticError`,
which the `?` operator propagates out of `rewards_for_era` instead of any
truncated result. -/
theorem overflow_surfaces_and_poisons (a b c d av : RatioU512)
    (x : MaybeNum RatioU512) (e : ArithmeticError)
    (m : List (Nat × RatioU512)) (key : Nat)
    (hmul : checkedMul a b = none) (hadd : checkedAdd c d = none) :
    ((MaybeNum.num a).mul (.num b) = .error .overflow ∧
      (MaybeNum.num c).add (.num d) = .error .overflow) ∧
    ((MaybeNum.error e).mul x = .error e ∧ (MaybeNum.error e).add x = .error e ∧
      (MaybeNum.num av).mul (.error e) = .error e ∧
      (MaybeNum.num av).add (.error e) = .error e) ∧
    increase_value_for_key m key (.error e) = .error (.arithmetic e) := by
  refine ⟨⟨?_, ?_⟩, ⟨rfl, rfl, rfl, rfl⟩, ?_⟩
  · simp only [MaybeNum.mul, nums, hmul]
  · simp only [MaybeNum.add, nums, hadd]
  · cases halo : alookup key m <;>
      simp [increase_value_for_key, halo, MaybeNum.add, MaybeNum.get, nums]

/-- Witness for C5: `(2^256/1)·(2^256/1)` and `(2^512−1)/1 + (2^512−1)/1`
overflow `U512`. -/
theorem overflow_surfaces_and_poisons_witness :
    (checkedMul ⟨2 ^ 256, 1⟩ ⟨2 ^ 256, 1⟩ = none ∧
      checkedAdd ⟨2 ^ 512 - 1, 1⟩ ⟨2 ^ 512 - 1, 1⟩ = none) ∧
    ((MaybeNum.num (⟨2 ^ 256, 1⟩ : RatioU512)).mul (.num ⟨2 ^ 256, 1⟩) =
        .error .overflow ∧
      (MaybeNum.num (⟨2 ^ 512 - 1, 1⟩ : RatioU512)).add (.num ⟨2 ^ 512 - 1, 1⟩) =
        .error .overflow) ∧
    ((MaybeNum.error .overflow).mul (.num ⟨1, 1⟩) = .error .overflow ∧
      (MaybeNum.error .overflow).add (.num ⟨1, 1⟩) = .error .overflow ∧
      (MaybeNum.num (⟨1, 1⟩ : RatioU512)).mul (.error .overflow) = .error .overflow ∧
      (MaybeNum.num (⟨1, 1⟩ : RatioU512)).add (.error .overflow) = .error .overflow) ∧
    increase_value_for_key [(1, ⟨1, 1⟩)] 1 (.error .overflow) =
      .error (.arithmetic .overflow) := by
  refine ⟨⟨rfl, rfl⟩, ?_⟩
  exact overflow_surfaces_and_poisons ⟨2 ^ 256, 1⟩ ⟨2 ^ 256, 1⟩
    ⟨2 ^ 512 - 1, 1⟩ ⟨2 ^ 512 - 1, 1⟩ ⟨1, 1⟩ (.num ⟨1, 1⟩) .overflow
    [(1, ⟨1, 1⟩)] 1 rfl rfl

end Casper

namespace Casper

/-! ## Exact rational semantics of the checked `Ratio<U512>` arithmetic -/

/-- The exact rational value of a `Ratio<U512>`. -/
def RatioU512.toQ (a : RatioU512) : ℚ := (a.num : ℚ) / (a.den : ℚ)

theorem mkRatio_toQ (n d : Nat) : (mkRatio n d).toQ = (n : ℚ) / (d : ℚ) := by
  unfold mkRatio RatioU512.toQ
  rcases Nat.eq_zero_or_pos (Nat.gcd n d) with hg | hg
  · obtain ⟨hn, hd⟩ := Nat.gcd_eq_zero_iff.mp hg
    subst hn
    subst hd
    simp
  · have hgq : ((Nat.gcd n d : Nat) : ℚ) ≠ 0 := by exact_mod_cast hg.ne'
    rw [Nat.cast_div (Nat.gcd_dvd_left n d) hgq, Nat.cast_div (Nat.gcd_dvd_right n d) hgq,
      div_div_div_cancel_right₀]
    exact hgq

theorem mkRatio_den_ne_zero {n d : Nat} (hd : d ≠ 0) : (mkRatio n d).den ≠ 0 := by
  unfold mkRatio
  have hg : 0 < Nat.gcd n d := Nat.gcd_pos_of_pos_right n (Nat.pos_of_ne_zero hd)
  exact (Nat.div_pos (Nat.le_of_dvd (Nat.pos_of_ne_zero hd) (Nat.gcd_dvd_right n d)) hg).ne'

theorem checkedMul_toQ {a b c : RatioU512} (h : checkedMul a b = some c) :
    c.toQ = a.toQ * b.toQ := by
  unfold checkedMul at h
  dsimp only at h
  split at h
  · cases h
    rw [mkRatio_toQ]
    unfold RatioU512.toQ
    push_cast
    rw [div_mul_div_comm]
  · cases h

theorem checkedMul_den {a b c : RatioU512} (h : checkedMul a b = some c)
    (ha : a.den ≠ 0) (hb : b.den ≠ 0) : c.den ≠ 0 := by
  unfold checkedMul at h
  dsimp only at h
  split at h
  · cases h
    exact mkRatio_den_ne_zero (Nat.mul_ne_zero ha hb)
  · cases h

theorem checkedAdd_toQ {a b c : RatioU512} (h : checkedAdd a b = some c)
    (ha : a.den ≠ 0) (hb : b.den ≠ 0) : c.toQ = a.toQ + b.toQ := by
  unfold checkedAdd at h
  dsimp only at h
  split at h
  · cases h
    rw [mkRatio_toQ]
    unfold RatioU512.toQ
    have haq : (a.den : ℚ) ≠ 0 := by exact_mod_cast ha
    have hbq : (b.den : ℚ) ≠ 0 := by exact_mod_cast hb
    rw [div_add_div _ _ haq hbq]
    push_cast
    ring_nf
  · cases h

theorem checkedAdd_den {a b c : RatioU512} (h : checkedAdd a b = some c)
    (ha : a.den ≠ 0) (hb : b.den ≠ 0) : c.den ≠ 0 := by
  unfold checkedAdd at h
  dsimp only at h
  split at h
  · cases h
    exact mkRatio_den_ne_zero (Nat.mul_ne_zero ha hb)
  · cases h

/-- Inversion of a successful `MaybeNum` multiplication of two numbers. -/
theorem mul_num_ok {a b c : RatioU512}
    (h : (MaybeNum.num a).mul (.num b) = .num c) : checkedMul a b = some c := by
  simp only [MaybeNum.mul, nums] at h
  cases hc : checkedMul a b <;> rw [hc] at h
  · cases h
  · cases h
    rfl

/-- A poisoned value surfaces from `increase_value_for_key` as an arithmetic
error. -/
theorem increase_err (m : List (Nat × RatioU512)) (k : Nat) (e : ArithmeticError) :
    increase_value_for_key m k (.error e) = .error (.arithmetic e) := by
  cases halo : alookup k m <;>
    simp [increase_value_for_key, halo, MaybeNum.add, MaybeNum.get, nums]

/-- Truncation bounds: `to_integer` is the floor of the exact value. -/
theorem toInteger_bounds {a : RatioU512} (h : a.den ≠ 0) :
    (a.toInteger : ℚ) ≤ a.toQ ∧ a.toQ < (a.toInteger : ℚ) + 1 := by
  have hpos : 0 < a.den := Nat.pos_of_ne_zero h
  have hq : (0 : ℚ) < (a.den : ℚ) := by exact_mod_cast hpos
  unfold RatioU512.toInteger RatioU512.toQ
  constructor
  · rw [le_div_iff₀ hq]
    exact_mod_cast Nat.div_mul_le_self a.num a.den
  · rw [div_lt_iff₀ hq]
    have hlt : a.num < (a.num / a.den + 1) * a.den := by
      have h1 := Nat.div_add_mod a.num a.den
      have h2 := Nat.mod_lt a.num hpos
      calc a.num = a.den * (a.num / a.den) + a.num % a.den := h1.symm
        _ < a.den * (a.num / a.den) + a.den := by omega
        _ = (a.num / a.den + 1) * a.den := by ring
    exact_mod_cast hlt

end Casper

namespace Casper

/-! ## The exact rational sum of a reward accumulator -/

/-- The exact rational sum of the values of a reward map. -/
def sumQ (m : List (Nat × RatioU512)) : ℚ := (m.map (fun kv => kv.2.toQ)).sum

/-- Accumulator invariant: distinct keys and well-formed denominators. -/
def goodAcc (m : List (Nat × RatioU512)) : Prop :=
  (m.map Prod.fst).Nodup ∧ ∀ kv ∈ m, kv.2.den ≠ 0

theorem mem_ainsert {α β : Type} [DecidableEq α] {x : α × β} {k : α} {v : β} :
    ∀ {m : List (α × β)}, x ∈ ainsert k v m → x = (k, v) ∨ x ∈ m := by
  intro m
  induction m with
  | nil =>
    intro hx
    rw [ainsert] at hx
    rcases List.mem_singleton.mp hx with rfl
    exact Or.inl rfl
  | cons p rest ih =>
    intro hx
    rw [ainsert] at hx
    by_cases hp : p.1 = k
    · rw [if_pos hp] at hx
      rcases List.mem_cons.mp hx with rfl | hx2
      · exact Or.inl rfl
      · exact Or.inr (List.mem_cons_of_mem p hx2)
    · rw [if_neg hp] at hx
      rcases List.mem_cons.mp hx with rfl | hx2
      · exact Or.inr (List.mem_cons_self _ _)
      · rcases ih hx2 with h | h
        · exact Or.inl h
        · exact Or.inr (List.mem_cons_of_mem p h)

theorem sumQ_ainsert_none {k : Nat} {v : RatioU512} :
    ∀ {m : List (Nat × RatioU512)}, alookup k m = none →
      sumQ (ainsert k v m) = sumQ m + v.toQ := by
  intro m
  induction m with
  | nil =>
    intro _
    simp [sumQ, ainsert]
  | cons p rest ih =>
    intro h
    rw [alookup] at h
    by_cases hp : p.1 = k
    · rw [if_pos hp] at h
      cases h
    · rw [if_neg hp] at h
      rw [ainsert, if_neg hp]
      simp only [sumQ, List.map_cons, List.sum_cons] at *
      rw [ih h]
      ring

theorem sumQ_ainsert_some {k : Nat} {v old : RatioU512} :
    ∀ {m : List (Nat × RatioU512)}, alookup k m = some old →
      sumQ (ainsert k v m) = sumQ m - old.toQ + v.toQ := by
  intro m
  induction m with
  | nil =>
    intro h
    cases h
  | cons p rest ih =>
    intro h
    rw [alookup] at h
    by_cases hp : p.1 = k
    · rw [if_pos hp] at h
      cases h
      rw [ainsert, if_pos hp]
      simp only [sumQ, List.map_cons, List.sum_cons]
      ring
    · rw [if_neg hp] at h
      rw [ainsert, if_neg hp]
      simp only [sumQ, List.map_cons, List.sum_cons] at *
      rw [ih h]
      ring

/-- A successful accumulation of a plain number adds exactly its rational
value to the map's sum and preserves the invariant. -/
theorem increase_num_ok {m m2 : List (Nat × RatioU512)} {k : Nat} {v : RatioU512}
    (hg : goodAcc m) (hv : v.den ≠ 0)
    (hok : increase_value_for_key m k (.num v) = .ok m2) :
    goodAcc m2 ∧ sumQ m2 = sumQ m + v.toQ := by
  unfold increase_value_for_key at hok
  cases halo : alookup k m <;> rw [halo] at hok
  · simp only [MaybeNum.get] at hok
    cases hok
    refine ⟨⟨keys_nodup_ainsert hg.1, ?_⟩, sumQ_ainsert_none halo⟩
    intro kv hkv
    rcases mem_ainsert hkv with rfl | hkv2
    · exact hv
    · exact hg.2 kv hkv2
  · next old =>
    simp only [MaybeNum.add, nums] at hok
    cases hadd : checkedAdd v old <;> rw [hadd] at hok
    · simp only [MaybeNum.get] at hok
      cases hok
    · next w =>
      simp only [MaybeNum.get] at hok
      cases hok
      have hold : old.den ≠ 0 := hg.2 _ (alookup_mem halo)
      have hwq := checkedAdd_toQ hadd hv hold
      have hwd := checkedAdd_den hadd hv hold
      refine ⟨⟨keys_nodup_ainsert hg.1, ?_⟩, ?_⟩
      · intro kv hkv
        rcases mem_ainsert hkv with rfl | hkv2
        · exact hwd
        · exact hg.2 kv hkv2
      · rw [sumQ_ainsert_some halo, hwq]
        ring

end Casper

namespace Casper

/-- Generic sum-tracking induction over an `Except`-valued fold of reward
accumulators: per-item lower and upper bounds on the added amount accumulate
over the list. -/
theorem foldlM_sumQ {α : Type}
    (f : List (Nat × RatioU512) → α → Except RewardsError (List (Nat × RatioU512)))
    (blo bhi : α → ℚ) :
    ∀ (l : List α),
      (∀ m x m2, x ∈ l → goodAcc m → f m x = .ok m2 →
        goodAcc m2 ∧ sumQ m + blo x ≤ sumQ m2 ∧ sumQ m2 ≤ sumQ m + bhi x) →
      ∀ m m2, goodAcc m → l.foldlM f m = .ok m2 →
        goodAcc m2 ∧ sumQ m + (l.map blo).sum ≤ sumQ m2 ∧
          sumQ m2 ≤ sumQ m + (l.map bhi).sum := by
  intro l
  induction l with
  | nil =>
    intro _ m m2 hg hok
    simp only [List.foldlM_nil, pure, Except.pure] at hok
    cases hok
    exact ⟨hg, by simp, by simp⟩
  | cons x rest ih =>
    intro hstep m m2 hg hok
    rw [List.foldlM_cons] at hok
    cases hf : f m x with
    | error e => rw [hf] at hok; cases hok
    | ok m1 =>
      rw [hf] at hok
      simp only [bind, Except.bind] at hok
      obtain ⟨hg1, hlo1, hhi1⟩ := hstep m x m1 (List.mem_cons_self x rest) hg hf
      obtain ⟨hg2, hlo2, hhi2⟩ :=
        ih (fun m' x' m2' hx' => hstep m' x' m2' (List.mem_cons_of_mem x hx')) m1 m2 hg1 hok
      refine ⟨hg2, ?_, ?_⟩ <;> simp only [List.map_cons, List.sum_cons] <;> linarith

theorem sum_map_mul_left {α : Type} (c : ℚ) (f : α → ℚ) (l : List α) :
    (l.map (fun x => c * f x)).sum = c * (l.map f).sum := by
  induction l with
  | nil => simp
  | cons x rest ih =>
    simp only [List.map_cons, List.sum_cons, ih]
    ring

theorem sum_map_natCast {α : Type} (g : α → Nat) (l : List α) :
    (l.map (fun x => ((g x : Nat) : ℚ))).sum = (((l.map g).sum : Nat) : ℚ) := by
  induction l with
  | nil => simp
  | cons x rest ih => simp [ih]

theorem sublist_sum_le {l1 l2 : List Nat} (h : List.Sublist l1 l2) :
    l1.sum ≤ l2.sum := by
  induction h with
  | slnil => simp
  | cons a h ih => simp only [List.sum_cons]; omega
  | cons₂ a h ih => simp only [List.sum_cons]; omega

theorem toValidatorSet_sublist (bits : List Bool) :
    ∀ (keys : List Nat), List.Sublist (toValidatorSet bits keys) keys := by
  induction bits with
  | nil =>
    intro keys
    simp [toValidatorSet]
  | cons b bs ih =>
    intro keys
    cases keys with
    | nil => simp [toValidatorSet]
    | cons k ks =>
      unfold toValidatorSet at *
      rw [List.zip_cons_cons, List.filter]
      cases b with
      | true =>
        simp only [List.map_cons]
        exact (ih ks).cons₂ k
      | false =>
        exact (ih ks).cons k

/-- An all-false bitfield selects nobody. -/
theorem toValidatorSet_empty {bits : List Bool}
    (h : bits.any (fun x => x) = false) :
    ∀ (keys : List Nat), toValidatorSet bits keys = [] := by
  induction bits with
  | nil => intro keys; rfl
  | cons b bs ih =>
    intro keys
    simp only [List.any_cons, Bool.or_eq_false_iff] at h
    cases keys with
    | nil => rfl
    | cons k ks =>
      unfold toValidatorSet at *
      rw [List.zip_cons_cons, List.filter]
      rw [h.1]
      exact ih h.2 ks

/-- With distinct keys, looking every key of the map back up recovers exactly
the map's values. -/
theorem sum_lookups_eq :
    ∀ {m : List (Nat × Nat)}, (m.map Prod.fst).Nodup →
      ((m.map Prod.fst).map (fun v => (alookup v m).getD 0)).sum =
        (m.map Prod.snd).sum := by
  intro m
  induction m with
  | nil => intro _; rfl
  | cons p rest ih =>
    intro hnd
    rw [List.map_cons, List.nodup_cons] at hnd
    simp only [List.map_cons, List.sum_cons]
    rw [alookup, if_pos rfl]
    have hrest : (rest.map Prod.fst).map (fun v => (alookup v (p :: rest)).getD 0) =
        (rest.map Prod.fst).map (fun v => (alookup v rest).getD 0) := by
      refine List.map_congr_left ?_
      intro v hv
      rw [alookup, if_neg ?_]
      intro hpv
      exact hnd.1 (hpv ▸ hv)
    rw [hrest, ih hnd.2]
    rfl

/-- If at most one element of the list has a nonzero amount, each amount is
nonnegative and at most `c`, the total is at most `c`. -/
theorem sum_le_single_nonzero {α : Type} (P : α → Bool) (g : α → ℚ) (c : ℚ)
    (hc : 0 ≤ c) :
    ∀ (l : List α), (l.filter P).length ≤ 1 →
      (∀ x ∈ l, P x = false → g x = 0) →
      (∀ x ∈ l, g x ≤ c) → (∀ x ∈ l, 0 ≤ g x) →
      (l.map g).sum ≤ c := by
  intro l
  induction l with
  | nil => intro _ _ _ _; simpa using hc
  | cons x rest ih =>
    intro hcount hzero hle hnn
    simp only [List.map_cons, List.sum_cons]
    cases hP : P x with
    | false =>
      rw [hzero x (List.mem_cons_self x rest) hP, zero_add]
      refine ih ?_ (fun y hy => hzero y (List.mem_cons_of_mem x hy))
        (fun y hy => hle y (List.mem_cons_of_mem x hy))
        (fun y hy => hnn y (List.mem_cons_of_mem x hy))
      rw [List.filter_cons_of_neg (by simp [hP])] at hcount
      exact hcount
    | true =>
      rw [List.filter_cons_of_pos (by simp [hP])] at hcount
      have hflt : rest.filter P = [] := by
        refine List.length_eq_zero.mp ?_
        simp only [List.length_cons] at hcount
        omega
      have hrest0 : ∀ y ∈ rest, g y = 0 := by
        intro y hy
        by_cases hPy : P y = true
        · exfalso
          have hmem : y ∈ rest.filter P := List.mem_filter.mpr ⟨hy, hPy⟩
          rw [hflt] at hmem
          cases hmem
        · exact hzero y (List.mem_cons_of_mem x hy) (Bool.not_eq_true _ ▸ hPy)
      have hsum0 : (rest.map g).sum = 0 := by
        rw [List.sum_eq_zero]
        intro q hq
        obtain ⟨y, hy, rfl⟩ := List.mem_map.mp hq
        exact hrest0 y hy
      rw [hsum0, add_zero]
      exact hle x (List.mem_cons_self x rest)

/-- If exactly one element has a nonzero amount and that amount is `c`, the
total is exactly `c`. -/
theorem sum_eq_single_full {α : Type} (P : α → Bool) (g : α → ℚ) (c : ℚ) :
    ∀ (l : List α), (l.filter P).length = 1 →
      (∀ x ∈ l, P x = false → g x = 0) →
      (∀ x ∈ l, P x = true → g x = c) →
      (l.map g).sum = c := by
  intro l
  induction l with
  | nil => intro h _ _; cases h
  | cons x rest ih =>
    intro hcount hzero heq
    simp only [List.map_cons, List.sum_cons]
    cases hP : P x with
    | false =>
      rw [hzero x (List.mem_cons_self x rest) hP, zero_add]
      refine ih ?_ (fun y hy => hzero y (List.mem_cons_of_mem x hy))
        (fun y hy => heq y (List.mem_cons_of_mem x hy))
      rw [List.filter_cons_of_neg (by simp [hP])] at hcount
      exact hcount
    | true =>
      rw [List.filter_cons_of_pos (by simp [hP])] at hcount
      have hflt : rest.filter P = [] := by
        have : (rest.filter P).length = 0 := by
          simpa using hcount
        exact List.length_eq_zero.mp this
      have hrest0 : ∀ y ∈ rest, g y = 0 := by
        intro y hy
        by_cases hPy : P y = true
        · exfalso
          have hmem : y ∈ rest.filter P := List.mem_filter.mpr ⟨hy, hPy⟩
          rw [hflt] at hmem
          cases hmem
        · exact hzero y (List.mem_cons_of_mem x hy) (Bool.not_eq_true _ ▸ hPy)
      have hsum0 : (rest.map g).sum = 0 := by
        rw [List.sum_eq_zero]
        intro q hq
        obtain ⟨y, hy, rfl⟩ := List.mem_map.mp hq
        exact hrest0 y hy
      rw [hsum0, add_zero]
      exact heq x (List.mem_cons_self x rest) hP

end Casper

namespace Casper

/-! ## Proportions and per-step exact amounts -/

/-- The contribution and collection proportions sum to the configured
finality-signature proportion. -/
theorem proportions_sum_toQ (cc : CoreConfig)
    (hffn : cc.finders_fee.num ≤ cc.finders_fee.den) (hffd : cc.finders_fee.den ≠ 0)
    (hfd : cc.finality_signature_proportion.den ≠ 0) :
    (r512OfRatio64 cc.contribution_rewards_proportion).toQ +
      (r512OfRatio64 cc.collection_rewards_proportion).toQ =
      (cc.finality_signature_proportion.num : ℚ) /
        (cc.finality_signature_proportion.den : ℚ) := by
  unfold r512OfRatio64 CoreConfig.contribution_rewards_proportion
    CoreConfig.collection_rewards_proportion RatioU512.toQ
  have hbq : ((cc.finders_fee.den : Nat) : ℚ) ≠ 0 := by exact_mod_cast hffd
  have hdq : ((cc.finality_signature_proportion.den : Nat) : ℚ) ≠ 0 := by
    exact_mod_cast hfd
  push_cast [Nat.cast_sub hffn]
  rw [div_add_div_same]
  rw [show ((cc.finders_fee.den : ℚ) - (cc.finders_fee.num : ℚ)) *
      (cc.finality_signature_proportion.num : ℚ) +
      (cc.finders_fee.num : ℚ) * (cc.finality_signature_proportion.num : ℚ) =
      (cc.finders_fee.den : ℚ) * (cc.finality_signature_proportion.num : ℚ) from by ring]
  rw [mul_div_mul_left _ _ hbq]

/-- The production proportion is one minus the finality-signature
proportion. -/
theorem production_toQ (cc : CoreConfig)
    (hfn : cc.finality_signature_proportion.num ≤ cc.finality_signature_proportion.den)
    (hfd : cc.finality_signature_proportion.den ≠ 0) :
    (r512OfRatio64 cc.production_rewards_proportion).toQ =
      1 - (cc.finality_signature_proportion.num : ℚ) /
        (cc.finality_signature_proportion.den : ℚ) := by
  unfold r512OfRatio64 CoreConfig.production_rewards_proportion RatioU512.toQ
  have hdq : ((cc.finality_signature_proportion.den : Nat) : ℚ) ≠ 0 := by
    exact_mod_cast hfd
  push_cast [Nat.cast_sub hfn]
  rw [sub_div, div_self hdq]

/-- The rewarded-signatures slots of a block, one per looked-back height. -/
def slotsOf (b : CitedBlock) : List (List Bool × Nat) :=
  b.rewarded_signatures.zip (List.range b.height).reverse

/-- The exact amount a single signer earns (for itself and for the proposer)
from one signature in a slot of era info `E`. -/
def signerAmtQ (cc : CoreConfig) (E : EraInfo) (v : Nat) : ℚ :=
  ((r512OfRatio64 cc.contribution_rewards_proportion).toQ +
    (r512OfRatio64 cc.collection_rewards_proportion).toQ) *
    E.reward_per_round.toQ / (E.total_weights : ℚ) *
    (((alookup v E.weights).getD 0 : Nat) : ℚ)

/-- The exact amount one rewarded-signatures slot distributes. -/
def slotAmtQ (ri : RewardsInfo) (cc : CoreConfig) (sb : List Bool × Nat) : ℚ :=
  match ri.era_for_block_height sb.2 with
  | .error _ => 0
  | .ok e2 =>
    match alookup e2 ri.eras_info with
    | none => 0
    | some E2 =>
      ((toValidatorSet sb.1 (E2.weights.map Prod.fst)).map (signerAmtQ cc E2)).sum

/-- Well-formedness of one era's info: distinct validator keys, the cached
total equal to the weight sum and nonzero, and a well-formed round reward. -/
def eraWFb (E : EraInfo) : Bool :=
  decide (E.weights.map Prod.fst).Nodup &&
    decide (E.total_weights = (E.weights.map Prod.snd).sum) &&
    decide (E.total_weights ≠ 0) && decide (E.reward_per_round.den ≠ 0)

/-- Well-formedness of the configured proportions: actual fractions with
nonzero denominators. -/
def ccWFb (cc : CoreConfig) : Bool :=
  decide (cc.finders_fee.num ≤ cc.finders_fee.den) && decide (cc.finders_fee.den ≠ 0) &&
    decide (cc.finality_signature_proportion.num ≤
      cc.finality_signature_proportion.den) &&
    decide (cc.finality_signature_proportion.den ≠ 0)

/-- Honesty of one slot: the signed era's round reward does not exceed the
current era's (`Ratio` comparison in cross-multiplied form). -/
def slotRLeB (ri : RewardsInfo) (Re : RatioU512) (sb : List Bool × Nat) : Bool :=
  match ri.era_for_block_height sb.2 with
  | .error _ => true
  | .ok e2 =>
    match alookup e2 ri.eras_info with
    | none => true
    | some E2 =>
      decide (E2.reward_per_round.num * Re.den ≤ Re.num * E2.reward_per_round.den)

/-- Full signing of one slot: either no signature at all, or the bitfield
selects the signed era's complete validator set and that era's round reward
equals the current one's. -/
def slotFullB (ri : RewardsInfo) (Re : RatioU512) (sb : List Bool × Nat) : Bool :=
  match ri.era_for_block_height sb.2 with
  | .error _ => true
  | .ok e2 =>
    match alookup e2 ri.eras_info with
    | none => true
    | some E2 =>
      !(sb.1.any (fun x => x)) ||
        (decide (toValidatorSet sb.1 (E2.weights.map Prod.fst) =
            E2.weights.map Prod.fst) &&
          decide (E2.reward_per_round.num * Re.den = Re.num * E2.reward_per_round.den))

end Casper

namespace Casper

/-- One successful `signerStep` adds exactly `signerAmtQ` to the accumulator's
exact sum. -/
theorem signerStep_exact (ri : RewardsInfo) (cc : CoreConfig) (e2 proposer : Nat)
    (E2 : EraInfo) (halo2 : alookup e2 ri.eras_info = some E2)
    (hwfE : eraWFb E2 = true) (hccwf : ccWFb cc = true) :
    ∀ m v m2, goodAcc m → signerStep ri cc e2 proposer m v = .ok m2 →
      goodAcc m2 ∧ sumQ m2 = sumQ m + signerAmtQ cc E2 v := by
  intro m v m2 hg hok
  simp only [eraWFb, Bool.and_eq_true, decide_eq_true_eq] at hwfE
  simp only [ccWFb, Bool.and_eq_true, decide_eq_true_eq] at hccwf
  obtain ⟨⟨⟨hnd, htw⟩, htw0⟩, hRd⟩ := hwfE
  obtain ⟨⟨⟨hffn, hffd⟩, hfn⟩, hfd⟩ := hccwf
  unfold signerStep at hok
  simp only [RewardsInfo.weight_ratio, RewardsInfo.reward, halo2, bind, Except.bind] at hok
  cases hw : alookup v E2.weights <;> simp only [hw] at hok
  · cases hok
  · next w =>
    have hwrden : (mkRatio w E2.total_weights).den ≠ 0 := mkRatio_den_ne_zero htw0
    have hcpden : (r512OfRatio64 cc.contribution_rewards_proportion).den ≠ 0 :=
      Nat.mul_ne_zero hffd hfd
    have hclden : (r512OfRatio64 cc.collection_rewards_proportion).den ≠ 0 :=
      Nat.mul_ne_zero hffd hfd
    cases hc1 : (MaybeNum.num (r512OfRatio64 cc.contribution_rewards_proportion)).mul
        (.num (mkRatio w E2.total_weights)) with
    | error e =>
      rw [hc1] at hok
      simp only [MaybeNum.mul, nums, increase_err] at hok
      cases hok
    | num c1 =>
      rw [hc1] at hok
      cases hc2 : (MaybeNum.num c1).mul (.num E2.reward_per_round) with
      | error e =>
        rw [hc2, increase_err] at hok
        cases hok
      | num cv =>
        rw [hc2] at hok
        cases hl1 : (MaybeNum.num (r512OfRatio64 cc.collection_rewards_proportion)).mul
            (.num (mkRatio w E2.total_weights)) with
        | error e =>
          rw [hl1] at hok
          simp only [MaybeNum.mul, nums] at hok
          cases hi : increase_value_for_key m v (.num cv) <;> simp only [hi] at hok
          · cases hok
          · rw [increase_err] at hok
            cases hok
        | num l1 =>
          rw [hl1] at hok
          cases hl2 : (MaybeNum.num l1).mul (.num E2.reward_per_round) with
          | error e =>
            rw [hl2] at hok
            cases hi : increase_value_for_key m v (.num cv) <;> simp only [hi] at hok
            · cases hok
            · rw [increase_err] at hok
              cases hok
          | num colv =>
            rw [hl2] at hok
            cases hi : increase_value_for_key m v (.num cv) <;> simp only [hi] at hok
            · cases hok
            · next m1 =>
              have hcvden : cv.den ≠ 0 :=
                checkedMul_den (mul_num_ok hc2)
                  (checkedMul_den (mul_num_ok hc1) hcpden hwrden) hRd
              have hcolden : colv.den ≠ 0 :=
                checkedMul_den (mul_num_ok hl2)
                  (checkedMul_den (mul_num_ok hl1) hclden hwrden) hRd
              obtain ⟨hg1, hs1⟩ := increase_num_ok hg hcvden hi
              obtain ⟨hg2, hs2⟩ := increase_num_ok hg1 hcolden hok
              refine ⟨hg2, ?_⟩
              rw [hs2, hs1]
              have hcvq : cv.toQ =
                  (r512OfRatio64 cc.contribution_rewards_proportion).toQ *
                    ((w : ℚ) / (E2.total_weights : ℚ)) * E2.reward_per_round.toQ := by
                rw [checkedMul_toQ (mul_num_ok hc2), checkedMul_toQ (mul_num_ok hc1),
                  mkRatio_toQ]
              have hcolq : colv.toQ =
                  (r512OfRatio64 cc.collection_rewards_proportion).toQ *
                    ((w : ℚ) / (E2.total_weights : ℚ)) * E2.reward_per_round.toQ := by
                rw [checkedMul_toQ (mul_num_ok hl2), checkedMul_toQ (mul_num_ok hl1),
                  mkRatio_toQ]
              rw [hcvq, hcolq]
              unfold signerAmtQ
              rw [hw]
              simp only [Option.getD_some]
              ring

end Casper

namespace Casper

/-- The signer fold of one slot adds exactly the slot's per-signer amounts. -/
theorem signersFold_exact (ri : RewardsInfo) (cc : CoreConfig) (e2 proposer : Nat)
    (E2 : EraInfo) (halo2 : alookup e2 ri.eras_info = some E2)
    (hwfE : eraWFb E2 = true) (hccwf : ccWFb cc = true)
    (l : List Nat) (m m2 : List (Nat × RatioU512)) (hg : goodAcc m)
    (hok : l.foldlM (signerStep ri cc e2 proposer) m = .ok m2) :
    goodAcc m2 ∧ sumQ m2 = sumQ m + (l.map (signerAmtQ cc E2)).sum := by
  obtain ⟨hg2, hlo, hhi⟩ := foldlM_sumQ (signerStep ri cc e2 proposer)
    (signerAmtQ cc E2) (signerAmtQ cc E2) l
    (fun m' x m2' _ hgm hokx => by
      obtain ⟨hgg, hs⟩ :=
        signerStep_exact ri cc e2 proposer E2 halo2 hwfE hccwf m' x m2' hgm hokx
      exact ⟨hgg, hs.ge, hs.le⟩)
    m m2 hg hok
  exact ⟨hg2, le_antisymm hhi hlo⟩

/-- One successful `slotStep` adds exactly `slotAmtQ` to the exact sum. -/
theorem slotStep_exact (ri : RewardsInfo) (cc : CoreConfig) (proposer : Nat)
    (hwfAll : ∀ kv ∈ ri.eras_info, eraWFb kv.2 = true) (hccwf : ccWFb cc = true)
    (m : List (Nat × RatioU512)) (sb : List Bool × Nat)
    (m2 : List (Nat × RatioU512)) (hg : goodAcc m)
    (hok : slotStep ri cc proposer m sb = .ok m2) :
    goodAcc m2 ∧ sumQ m2 = sumQ m + slotAmtQ ri cc sb := by
  unfold slotStep at hok
  simp only [bind, Except.bind] at hok
  cases he : ri.era_for_block_height sb.2 <;> simp only [he] at hok
  · cases hok
  · next e2 =>
    cases halo2 : alookup e2 ri.eras_info with
    | none =>
      simp only [RewardsInfo.validator_keys, halo2] at hok
      cases hok
    | some E2 =>
      simp only [RewardsInfo.validator_keys, halo2] at hok
      obtain ⟨hg2, hs⟩ := signersFold_exact ri cc e2 proposer E2 halo2
        (hwfAll (e2, E2) (alookup_mem halo2)) hccwf _ m m2 hg hok
      refine ⟨hg2, ?_⟩
      rw [hs]
      simp only [slotAmtQ, he, halo2]

/-- One successful `blockStep` adds exactly the production reward plus the
slot amounts. -/
theorem blockStep_exact (ri : RewardsInfo) (cc : CoreConfig) (eraE : EraInfo)
    (hwfAll : ∀ kv ∈ ri.eras_info, eraWFb kv.2 = true) (hccwf : ccWFb cc = true)
    (hRd : eraE.reward_per_round.den ≠ 0)
    (m : List (Nat × RatioU512)) (b : CitedBlock) (m2 : List (Nat × RatioU512))
    (hg : goodAcc m)
    (hok : blockStep ri cc
      ((MaybeNum.num (r512OfRatio64 cc.production_rewards_proportion)).mul
        (.num eraE.reward_per_round)) m b = .ok m2) :
    goodAcc m2 ∧ sumQ m2 = sumQ m +
      (r512OfRatio64 cc.production_rewards_proportion).toQ * eraE.reward_per_round.toQ +
      ((slotsOf b).map (slotAmtQ ri cc)).sum := by
  have hfd : cc.finality_signature_proportion.den ≠ 0 := by
    simp only [ccWFb, Bool.and_eq_true, decide_eq_true_eq] at hccwf
    exact hccwf.2
  unfold blockStep at hok
  simp only [bind, Except.bind] at hok
  cases hpm : (MaybeNum.num (r512OfRatio64 cc.production_rewards_proportion)).mul
      (.num eraE.reward_per_round) with
  | error e =>
    rw [hpm, increase_err] at hok
    cases hok
  | num pv =>
    rw [hpm] at hok
    cases hi : increase_value_for_key m b.proposer (.num pv) <;> simp only [hi] at hok
    · cases hok
    · next m1 =>
      have hppden : (r512OfRatio64 cc.production_rewards_proportion).den ≠ 0 := hfd
      have hpden : pv.den ≠ 0 := checkedMul_den (mul_num_ok hpm) hppden hRd
      obtain ⟨hg1, hs1⟩ := increase_num_ok hg hpden hi
      obtain ⟨hg2, hlo, hhi⟩ := foldlM_sumQ (slotStep ri cc b.proposer)
        (slotAmtQ ri cc) (slotAmtQ ri cc) (slotsOf b)
        (fun m' x m2' _ hgm hokx => by
          obtain ⟨hgg, hs⟩ := slotStep_exact ri cc b.proposer hwfAll hccwf m' x m2' hgm hokx
          exact ⟨hgg, hs.ge, hs.le⟩)
        m1 m2 hg1 hok
      refine ⟨hg2, ?_⟩
      have hsum : sumQ m2 = sumQ m1 + ((slotsOf b).map (slotAmtQ ri cc)).sum :=
        le_antisymm hhi hlo
      rw [hsum, hs1, checkedMul_toQ (mul_num_ok hpm)]

end Casper

namespace Casper

/-- The configured finality-signature proportion as an exact rational. -/
def fspQ (cc : CoreConfig) : ℚ :=
  (cc.finality_signature_proportion.num : ℚ) /
    (cc.finality_signature_proportion.den : ℚ)

theorem toQ_nonneg (a : RatioU512) : 0 ≤ a.toQ := by
  unfold RatioU512.toQ
  positivity

theorem fspQ_nonneg (cc : CoreConfig) : 0 ≤ fspQ cc := by
  unfold fspQ
  positivity

theorem signerAmtQ_nonneg (cc : CoreConfig) (E : EraInfo) (v : Nat) :
    0 ≤ signerAmtQ cc E v := by
  unfold signerAmtQ
  have h1 := toQ_nonneg (r512OfRatio64 cc.contribution_rewards_proportion)
  have h2 := toQ_nonneg (r512OfRatio64 cc.collection_rewards_proportion)
  have h3 := toQ_nonneg E.reward_per_round
  have h4 : (0 : ℚ) ≤ (E.total_weights : ℚ) := by positivity
  have h5 : (0 : ℚ) ≤ (((alookup v E.weights).getD 0 : Nat) : ℚ) := by positivity
  exact mul_nonneg (div_nonneg (mul_nonneg (add_nonneg h1 h2) h3) h4) h5

theorem slotAmtQ_nonneg (ri : RewardsInfo) (cc : CoreConfig) (sb : List Bool × Nat) :
    0 ≤ slotAmtQ ri cc sb := by
  unfold slotAmtQ
  split
  · exact le_refl 0
  · split
    · exact le_refl 0
    · refine List.sum_nonneg ?_
      intro q hq
      obtain ⟨v, _, rfl⟩ := List.mem_map.mp hq
      exact signerAmtQ_nonneg cc _ v

theorem slotAmtQ_empty (ri : RewardsInfo) (cc : CoreConfig) {sb : List Bool × Nat}
    (h : sb.1.any (fun x => x) = false) : slotAmtQ ri cc sb = 0 := by
  unfold slotAmtQ
  split
  · rfl
  · split
    · rfl
    · rw [toValidatorSet_empty h]
      rfl

/-- A slot whose era data resolves. -/
def slotResolvesB (ri : RewardsInfo) (sb : List Bool × Nat) : Bool :=
  match ri.era_for_block_height sb.2 with
  | .error _ => false
  | .ok e2 => acontains e2 ri.eras_info

theorem slotStep_resolves (ri : RewardsInfo) (cc : CoreConfig) (proposer : Nat)
    (m : List (Nat × RatioU512)) (sb : List Bool × Nat) (m2 : List (Nat × RatioU512))
    (hok : slotStep ri cc proposer m sb = .ok m2) : slotResolvesB ri sb = true := by
  unfold slotStep at hok
  simp only [bind, Except.bind] at hok
  unfold slotResolvesB
  cases he : ri.era_for_block_height sb.2 <;> simp only [he] at hok ⊢
  · cases hok
  · next e2 =>
    cases halo2 : alookup e2 ri.eras_info with
    | none =>
      simp only [RewardsInfo.validator_keys, halo2] at hok
      cases hok
    | some E2 => exact acontains_of_alookup_eq_some halo2

/-- Every item of a successful `Except` fold was processed successfully from
some intermediate state. -/
theorem foldlM_ok_each {α β : Type} (f : β → α → Except RewardsError β) :
    ∀ (l : List α) (m m2 : β), l.foldlM f m = .ok m2 →
      ∀ x ∈ l, ∃ m' m2', f m' x = .ok m2' := by
  intro l
  induction l with
  | nil =>
    intro m m2 _ x hx
    cases hx
  | cons y rest ih =>
    intro m m2 hok x hx
    rw [List.foldlM_cons] at hok
    cases hf : f m y with
    | error e => rw [hf] at hok; cases hok
    | ok m1 =>
      rw [hf] at hok
      simp only [bind, Except.bind] at hok
      rcases List.mem_cons.mp hx with rfl | hx2
      · exact ⟨m, m1, hf⟩
      · exact ih m1 m2 hok x hx2

theorem blockStep_resolves (ri : RewardsInfo) (cc : CoreConfig)
    (pr : MaybeNum RatioU512) (m : List (Nat × RatioU512)) (b : CitedBlock)
    (m2 : List (Nat × RatioU512)) (hok : blockStep ri cc pr m b = .ok m2) :
    ∀ sb ∈ slotsOf b, slotResolvesB ri sb = true := by
  unfold blockStep at hok
  simp only [bind, Except.bind] at hok
  cases hi : increase_value_for_key m b.proposer pr <;> simp only [hi] at hok
  · cases hok
  · intro sb hsb
    obtain ⟨m', m2', hstep⟩ := foldlM_ok_each (slotStep ri cc b.proposer) _ _ _ hok sb hsb
    exact slotStep_resolves ri cc b.proposer m' sb m2' hstep

end Casper

namespace Casper

/-- Under the honesty bound on the signed era's round reward, one slot
distributes at most the finality-signature share of the current round
reward. -/
theorem slotAmtQ_le (ri : RewardsInfo) (cc : CoreConfig) (Re : RatioU512)
    (hwfAll : ∀ kv ∈ ri.eras_info, eraWFb kv.2 = true) (hccwf : ccWFb cc = true)
    (hRd : Re.den ≠ 0) (sb : List Bool × Nat)
    (hle : slotRLeB ri Re sb = true) :
    slotAmtQ ri cc sb ≤ fspQ cc * Re.toQ := by
  have hrhs : 0 ≤ fspQ cc * Re.toQ := mul_nonneg (fspQ_nonneg cc) (toQ_nonneg Re)
  unfold slotAmtQ
  unfold slotRLeB at hle
  cases he : ri.era_for_block_height sb.2 <;> simp only [he] at hle ⊢
  · exact hrhs
  · next e2 =>
    cases halo2 : alookup e2 ri.eras_info <;> simp only [halo2] at hle ⊢
    · exact hrhs
    · next E2 =>
      rw [decide_eq_true_eq] at hle
      have hwfE := hwfAll (e2, E2) (alookup_mem halo2)
      simp only [eraWFb, Bool.and_eq_true, decide_eq_true_eq] at hwfE
      obtain ⟨⟨⟨hnd, htw⟩, htw0⟩, hR2d⟩ := hwfE
      simp only [ccWFb, Bool.and_eq_true, decide_eq_true_eq] at hccwf
      obtain ⟨⟨⟨hffn, hffd⟩, hfn⟩, hfd⟩ := hccwf
      have h1 := toQ_nonneg (r512OfRatio64 cc.contribution_rewards_proportion)
      have h2 := toQ_nonneg (r512OfRatio64 cc.collection_rewards_proportion)
      have h3 := toQ_nonneg E2.reward_per_round
      have hCnn : 0 ≤ ((r512OfRatio64 cc.contribution_rewards_proportion).toQ +
          (r512OfRatio64 cc.collection_rewards_proportion).toQ) *
          E2.reward_per_round.toQ / (E2.total_weights : ℚ) :=
        div_nonneg (mul_nonneg (add_nonneg h1 h2) h3) (by positivity)
      have hmap : (toValidatorSet sb.1 (E2.weights.map Prod.fst)).map (signerAmtQ cc E2) =
          (toValidatorSet sb.1 (E2.weights.map Prod.fst)).map
            (fun v => (((r512OfRatio64 cc.contribution_rewards_proportion).toQ +
              (r512OfRatio64 cc.collection_rewards_proportion).toQ) *
              E2.reward_per_round.toQ / (E2.total_weights : ℚ)) *
              (((alookup v E2.weights).getD 0 : Nat) : ℚ)) := rfl
      rw [hmap, sum_map_mul_left, sum_map_natCast]
      have hsumN : ((toValidatorSet sb.1 (E2.weights.map Prod.fst)).map
          (fun v => (alookup v E2.weights).getD 0)).sum ≤ E2.total_weights := by
        have hsub := (toValidatorSet_sublist sb.1 (E2.weights.map Prod.fst)).map
          (fun v => (alookup v E2.weights).getD 0)
        have hss := sublist_sum_le hsub
        rw [sum_lookups_eq hnd] at hss
        omega
      have htq : ((E2.total_weights : Nat) : ℚ) ≠ 0 := by exact_mod_cast htw0
      have hprop : (r512OfRatio64 cc.contribution_rewards_proportion).toQ +
          (r512OfRatio64 cc.collection_rewards_proportion).toQ = fspQ cc := by
        unfold fspQ
        exact proportions_sum_toQ cc hffn hffd hfd
      have hR2le : E2.reward_per_round.toQ ≤ Re.toQ := by
        unfold RatioU512.toQ
        rw [div_le_div_iff₀ (by exact_mod_cast Nat.pos_of_ne_zero hR2d)
          (by exact_mod_cast Nat.pos_of_ne_zero hRd)]
        exact_mod_cast hle
      have hstep1 : ((r512OfRatio64 cc.contribution_rewards_proportion).toQ +
            (r512OfRatio64 cc.collection_rewards_proportion).toQ) *
            E2.reward_per_round.toQ / (E2.total_weights : ℚ) *
            ((((toValidatorSet sb.1 (E2.weights.map Prod.fst)).map
              (fun v => (alookup v E2.weights).getD 0)).sum : Nat) : ℚ) ≤
          ((r512OfRatio64 cc.contribution_rewards_proportion).toQ +
            (r512OfRatio64 cc.collection_rewards_proportion).toQ) *
            E2.reward_per_round.toQ / (E2.total_weights : ℚ) *
            ((E2.total_weights : Nat) : ℚ) :=
        mul_le_mul_of_nonneg_left (by exact_mod_cast hsumN) hCnn
      refine hstep1.trans ?_
      rw [div_mul_cancel₀ _ htq, hprop]
      exact mul_le_mul_of_nonneg_left hR2le (fspQ_nonneg cc)

/-- Under full signing, a nonempty resolving slot distributes exactly the
finality-signature share of the current round reward. -/
theorem slotAmtQ_full (ri : RewardsInfo) (cc : CoreConfig) (Re : RatioU512)
    (hwfAll : ∀ kv ∈ ri.eras_info, eraWFb kv.2 = true) (hccwf : ccWFb cc = true)
    (hRd : Re.den ≠ 0)
    (sb : List Bool × Nat) (hres : slotResolvesB ri sb = true)
    (hfull : slotFullB ri Re sb = true) (hne : sb.1.any (fun x => x) = true) :
    slotAmtQ ri cc sb = fspQ cc * Re.toQ := by
  unfold slotAmtQ
  unfold slotFullB at hfull
  unfold slotResolvesB at hres
  cases he : ri.era_for_block_height sb.2 <;> simp only [he] at hfull hres ⊢
  · cases hres
  · next e2 =>
    cases halo2 : alookup e2 ri.eras_info <;> simp only [halo2] at hfull hres ⊢
    · rw [acontains] at hres
      rw [halo2] at hres
      cases hres
    · next E2 =>
      rw [hne] at hfull
      simp only [Bool.not_true, Bool.false_or, Bool.and_eq_true, decide_eq_true_eq] at hfull
      obtain ⟨hset, heq⟩ := hfull
      have hwfE := hwfAll (e2, E2) (alookup_mem halo2)
      simp only [eraWFb, Bool.and_eq_true, decide_eq_true_eq] at hwfE
      obtain ⟨⟨⟨hnd, htw⟩, htw0⟩, hR2d⟩ := hwfE
      simp only [ccWFb, Bool.and_eq_true, decide_eq_true_eq] at hccwf
      obtain ⟨⟨⟨hffn, hffd⟩, hfn⟩, hfd⟩ := hccwf
      have hmap : (toValidatorSet sb.1 (E2.weights.map Prod.fst)).map (signerAmtQ cc E2) =
          (toValidatorSet sb.1 (E2.weights.map Prod.fst)).map
            (fun v => (((r512OfRatio64 cc.contribution_rewards_proportion).toQ +
              (r512OfRatio64 cc.collection_rewards_proportion).toQ) *
              E2.reward_per_round.toQ / (E2.total_weights : ℚ)) *
              (((alookup v E2.weights).getD 0 : Nat) : ℚ)) := rfl
      rw [hmap, sum_map_mul_left, sum_map_natCast, hset, sum_lookups_eq hnd, ← htw]
      have htq : ((E2.total_weights : Nat) : ℚ) ≠ 0 := by exact_mod_cast htw0
      have hprop : (r512OfRatio64 cc.contribution_rewards_proportion).toQ +
          (r512OfRatio64 cc.collection_rewards_proportion).toQ = fspQ cc := by
        unfold fspQ
        exact proportions_sum_toQ cc hffn hffd hfd
      have hR2eq : E2.reward_per_round.toQ = Re.toQ := by
        unfold RatioU512.toQ
        rw [div_eq_div_iff (by exact_mod_cast hR2d) (by exact_mod_cast hRd)]
        exact_mod_cast heq
      rw [div_mul_cancel₀ _ htq, hprop, hR2eq]

end Casper

namespace Casper

theorem sumQ_init (keys : List Nat) :
    sumQ (keys.map (fun k => (k, mkRatio 0 1))) = 0 := by
  induction keys with
  | nil => rfl
  | cons k rest ih =>
    simp only [sumQ, List.map_cons, List.sum_cons] at ih ⊢
    rw [ih]
    simp [mkRatio, RatioU512.toQ]

theorem goodAcc_init (keys : List Nat) (h : keys.Nodup) :
    goodAcc (keys.map (fun k => (k, mkRatio 0 1))) := by
  constructor
  · have hmm : (keys.map (fun k => (k, mkRatio 0 1))).map Prod.fst =
        keys.map (fun k => k) := by
      rw [List.map_map]
      rfl
    rw [hmm, List.map_id']
    exact h
  · intro kv hkv
    obtain ⟨k, _, rfl⟩ := List.mem_map.mp hkv
    simp [mkRatio]

theorem sum_map_constQ {α : Type} (c : ℚ) (l : List α) :
    (l.map (fun _ => c)).sum = (l.length : ℚ) * c := by
  induction l with
  | nil => simp
  | cons x rest ih =>
    simp only [List.map_cons, List.sum_cons, List.length_cons, ih]
    push_cast
    ring

/-- The summed integer truncations bracket the exact sum. -/
theorem sumQ_floor_bounds :
    ∀ (m : List (Nat × RatioU512)), (∀ kv ∈ m, kv.2.den ≠ 0) →
      (((m.map (fun kv => kv.2.toInteger)).sum : Nat) : ℚ) ≤ sumQ m ∧
      (1 ≤ m.length →
        sumQ m < (((m.map (fun kv => kv.2.toInteger)).sum : Nat) : ℚ) + m.length) := by
  intro m
  induction m with
  | nil =>
    intro _
    refine ⟨le_refl 0, ?_⟩
    intro h
    cases h
  | cons p rest ih =>
    intro hd
    obtain ⟨hlo, hhi⟩ := ih (fun kv hkv => hd kv (List.mem_cons_of_mem p hkv))
    obtain ⟨he1, he2⟩ := toInteger_bounds (hd p (List.mem_cons_self p rest))
    simp only [sumQ, List.map_cons, List.sum_cons, List.length_cons] at *
    constructor
    · push_cast at hlo ⊢
      linarith
    · intro _
      rcases Nat.eq_zero_or_pos rest.length with hr | hr
      · have hrest0 : rest = [] := List.length_eq_zero.mp hr
        subst hrest0
        simp only [List.map_nil, List.sum_nil, List.length_nil] at *
        push_cast
        linarith
      · have hrec := hhi hr
        push_cast at hlo hrec ⊢
        linarith

end Casper

namespace Casper

/-- **C3**: for a non-genesis era `e` with era info `eraE`, under well-formed
era data and proportion configuration, and the honesty conditions that each
cited block rewards at most one signed slot and no slot pays from an era with
a larger round reward than the current one, the sum of the integer rewards
returned by `rewards_for_era` is at most `reward_per_round(e)` times the
number of cited blocks of era `e` (stated cross-multiplied over the `Ratio`
representation); and when every block carries exactly one signed slot
selecting the full validator set of an era with the same round reward, the
sum equals that product up to the integer truncation of each validator's
reward (the product exceeds the sum by less than the number of entries). -/
theorem rewards_sum_bounded (ri : RewardsInfo) (e : Nat) (cc : CoreConfig)
    (res : List (Nat × Nat)) (eraE : EraInfo)
    (hok : rewards_for_era ri e cc = .ok res) (hne : e ≠ 0)
    (halo : alookup e ri.eras_info = some eraE)
    (hwfAll : ∀ kv ∈ ri.eras_info, eraWFb kv.2 = true)
    (hccwf : ccWFb cc = true)
    (honest : ∀ b ∈ ri.blocks_from_era e,
      ((slotsOf b).filter (fun sb => sb.1.any (fun x => x))).length ≤ 1 ∧
      ∀ sb ∈ slotsOf b, slotRLeB ri eraE.reward_per_round sb = true) :
    (res.map Prod.snd).sum * eraE.reward_per_round.den ≤
      eraE.reward_per_round.num * (ri.blocks_from_era e).length ∧
    ((∀ b ∈ ri.blocks_from_era e,
        ((slotsOf b).filter (fun sb => sb.1.any (fun x => x))).length = 1 ∧
        ∀ sb ∈ slotsOf b, slotFullB ri eraE.reward_per_round sb = true) →
      1 ≤ res.length →
      eraE.reward_per_round.num * (ri.blocks_from_era e).length <
        ((res.map Prod.snd).sum + res.length) * eraE.reward_per_round.den) := by
  have hccwf2 := hccwf
  simp only [ccWFb, Bool.and_eq_true, decide_eq_true_eq] at hccwf2
  obtain ⟨⟨⟨hffn, hffd⟩, hfn⟩, hfd⟩ := hccwf2
  have hwfe := hwfAll (e, eraE) (alookup_mem halo)
  simp only [eraWFb, Bool.and_eq_true, decide_eq_true_eq] at hwfe
  obtain ⟨⟨⟨hndE, htwE⟩, htw0E⟩, hRd⟩ := hwfe
  unfold rewards_for_era at hok
  simp only [RewardsInfo.validator_keys, RewardsInfo.reward, halo, bind, Except.bind,
    if_neg hne] at hok
  cases hfold : (ri.blocks_from_era e).foldlM
      (blockStep ri cc
        ((MaybeNum.num (r512OfRatio64 cc.production_rewards_proportion)).mul
          (.num eraE.reward_per_round)))
      ((eraE.weights.map Prod.fst).map (fun k => (k, mkRatio 0 1))) with
  | error er =>
    rw [hfold] at hok
    cases hok
  | ok m =>
    rw [hfold] at hok
    cases hok
    have hginit := goodAcc_init (eraE.weights.map Prod.fst) hndE
    have hppnn : 0 ≤ (r512OfRatio64 cc.production_rewards_proportion).toQ *
        eraE.reward_per_round.toQ := mul_nonneg (toQ_nonneg _) (toQ_nonneg _)
    have hppfsp : (r512OfRatio64 cc.production_rewards_proportion).toQ *
        eraE.reward_per_round.toQ + fspQ cc * eraE.reward_per_round.toQ =
        eraE.reward_per_round.toQ := by
      rw [production_toQ cc hfn hfd]
      unfold fspQ
      ring
    have hdenpos : (0 : ℚ) < (eraE.reward_per_round.den : ℚ) := by
      exact_mod_cast Nat.pos_of_ne_zero hRd
    obtain ⟨hgm, _, hub⟩ := foldlM_sumQ
      (blockStep ri cc
        ((MaybeNum.num (r512OfRatio64 cc.production_rewards_proportion)).mul
          (.num eraE.reward_per_round)))
      (fun _ => 0) (fun _ => eraE.reward_per_round.toQ)
      (ri.blocks_from_era e)
      (fun m' b m2' hb hgm' hokb => by
        obtain ⟨hg2, hs⟩ := blockStep_exact ri cc eraE hwfAll hccwf hRd m' b m2' hgm' hokb
        obtain ⟨hcount, hslots⟩ := honest b hb
        have hslotsum_nn : 0 ≤ ((slotsOf b).map (slotAmtQ ri cc)).sum :=
          List.sum_nonneg (fun q hq => by
            obtain ⟨sb, _, rfl⟩ := List.mem_map.mp hq
            exact slotAmtQ_nonneg ri cc sb)
        have hslotsum : ((slotsOf b).map (slotAmtQ ri cc)).sum ≤
            fspQ cc * eraE.reward_per_round.toQ :=
          sum_le_single_nonzero (fun sb => sb.1.any (fun x => x)) (slotAmtQ ri cc)
            (fspQ cc * eraE.reward_per_round.toQ)
            (mul_nonneg (fspQ_nonneg cc) (toQ_nonneg _)) (slotsOf b) hcount
            (fun sb _ hP => slotAmtQ_empty ri cc hP)
            (fun sb hsb => slotAmtQ_le ri cc eraE.reward_per_round hwfAll hccwf hRd sb
              (hslots sb hsb))
            (fun sb _ => slotAmtQ_nonneg ri cc sb)
        refine ⟨hg2, ?_, ?_⟩
        · show sumQ m' + 0 ≤ sumQ m2'
          rw [hs]
          linarith
        · show sumQ m2' ≤ sumQ m' + eraE.reward_per_round.toQ
          rw [hs]
          linarith)
      ((eraE.weights.map Prod.fst).map (fun k => (k, mkRatio 0 1))) m hginit hfold
    rw [sumQ_init, sum_map_constQ, zero_add] at hub
    obtain ⟨hflo, hfhi⟩ := sumQ_floor_bounds m hgm.2
    have hres_map : (m.map (fun kv => (kv.1, kv.2.toInteger))).map Prod.snd =
        m.map (fun kv => kv.2.toInteger) := by
      rw [List.map_map]
      rfl
    have hres_len : (m.map (fun kv => (kv.1, kv.2.toInteger))).length = m.length :=
      List.length_map _ _
    have hcancel : ((ri.blocks_from_era e).length : ℚ) * eraE.reward_per_round.toQ *
        (eraE.reward_per_round.den : ℚ) =
        ((ri.blocks_from_era e).length : ℚ) * (eraE.reward_per_round.num : ℚ) := by
      unfold RatioU512.toQ
      rw [mul_assoc, div_mul_cancel₀ _ (ne_of_gt hdenpos)]
    constructor
    · have h1 : ((((m.map (fun kv => (kv.1, kv.2.toInteger))).map Prod.snd).sum : Nat) : ℚ) ≤
          ((ri.blocks_from_era e).length : ℚ) * eraE.reward_per_round.toQ := by
        rw [hres_map]
        exact hflo.trans hub
      have h2 := mul_le_mul_of_nonneg_right h1 (le_of_lt hdenpos)
      rw [hcancel] at h2
      rw [mul_comm ((ri.blocks_from_era e).length : ℚ)] at h2
      exact_mod_cast h2
    · intro hfull hreslen
      obtain ⟨_, hlb, hub2⟩ := foldlM_sumQ
        (blockStep ri cc
          ((MaybeNum.num (r512OfRatio64 cc.production_rewards_proportion)).mul
            (.num eraE.reward_per_round)))
        (fun _ => eraE.reward_per_round.toQ) (fun _ => eraE.reward_per_round.toQ)
        (ri.blocks_from_era e)
        (fun m' b m2' hb hgm' hokb => by
          obtain ⟨hg2, hs⟩ := blockStep_exact ri cc eraE hwfAll hccwf hRd m' b m2' hgm' hokb
          obtain ⟨hcount1, hslotsF⟩ := hfull b hb
          have hresolve := blockStep_resolves ri cc _ m' b m2' hokb
          have hslotsum : ((slotsOf b).map (slotAmtQ ri cc)).sum =
              fspQ cc * eraE.reward_per_round.toQ :=
            sum_eq_single_full (fun sb => sb.1.any (fun x => x)) (slotAmtQ ri cc)
              (fspQ cc * eraE.reward_per_round.toQ) (slotsOf b) hcount1
              (fun sb _ hP => slotAmtQ_empty ri cc hP)
              (fun sb hsb hP => slotAmtQ_full ri cc eraE.reward_per_round hwfAll hccwf
                hRd sb (hresolve sb hsb) (hslotsF sb hsb) hP)
          refine ⟨hg2, ?_, ?_⟩
          · show sumQ m' + eraE.reward_per_round.toQ ≤ sumQ m2'
            rw [hs, hslotsum]
            linarith
          · show sumQ m2' ≤ sumQ m' + eraE.reward_per_round.toQ
            rw [hs, hslotsum]
            linarith)
        ((eraE.weights.map Prod.fst).map (fun k => (k, mkRatio 0 1))) m hginit hfold
      rw [sumQ_init, sum_map_constQ, zero_add] at hlb hub2
      have hexact : sumQ m =
          ((ri.blocks_from_era e).length : ℚ) * eraE.reward_per_round.toQ :=
        le_antisymm hub2 hlb
      have hml : 1 ≤ m.length := by
        rw [hres_len] at hreslen
        exact hreslen
      have hstrict := hfhi hml
      have hstep : ((ri.blocks_from_era e).length : ℚ) * (eraE.reward_per_round.num : ℚ) <
          ((((m.map (fun kv => kv.2.toInteger)).sum : Nat) : ℚ) + (m.length : ℚ)) *
            (eraE.reward_per_round.den : ℚ) := by
        rw [← hcancel, ← hexact]
        exact mul_lt_mul_of_pos_right hstrict hdenpos
      rw [mul_comm ((ri.blocks_from_era e).length : ℚ)] at hstep
      rw [hres_map, hres_len]
      exact_mod_cast hstep

end Casper

namespace Casper

/-- Witness data for C3: two equal-weight validators, round reward 8, and one
block of era 2 whose single slot carries full signatures for the era-1 block
at height 4 (both eras share the same weights and round reward). -/
def eraEW3 : EraInfo := ⟨[(1, 1), (2, 1)], 2, ⟨8, 1⟩⟩

/-- Witness rewards info for C3. -/
def riW3 : RewardsInfo :=
  ⟨[(1, eraEW3), (2, eraEW3)],
    [⟨4, 1, 1, [], 0, true, false⟩, ⟨5, 2, 1, [[true, true]], 0, false, false⟩]⟩

/-- Witness configuration for C3: `finders_fee = 1/2`,
`finality_signature_proportion = 1/2`. -/
def ccW3 : CoreConfig := ⟨⟨1, 2⟩, ⟨1, 2⟩, 2⟩

/-- Witness result for C3. -/
def resW3 : List (Nat × Nat) := [(1, 7), (2, 1)]

/-- Witness for C3 at the concrete instance: the run returns `{1 ↦ 7, 2 ↦ 1}`,
whose sum 8 equals `reward_per_round × 1`, within the truncation bound. -/
theorem rewards_sum_bounded_witness :
    rewards_for_era riW3 2 ccW3 = .ok resW3 ∧
    ((resW3.map Prod.snd).sum * eraEW3.reward_per_round.den ≤
        eraEW3.reward_per_round.num * (riW3.blocks_from_era 2).length ∧
      ((∀ b ∈ riW3.blocks_from_era 2,
          ((slotsOf b).filter (fun sb => sb.1.any (fun x => x))).length = 1 ∧
          ∀ sb ∈ slotsOf b, slotFullB riW3 eraEW3.reward_per_round sb = true) →
        1 ≤ resW3.length →
        eraEW3.reward_per_round.num * (riW3.blocks_from_era 2).length <
          ((resW3.map Prod.snd).sum + resW3.length) * eraEW3.reward_per_round.den)) :=
  ⟨rfl, rewards_sum_bounded riW3 2 ccW3 resW3 eraEW3 rfl (by decide) rfl (by decide)
    (by decide) (by decide)⟩

end Casper
